import Mathlib

/-!
# XPlane-ChatBot: streamed completion parser, transcript turns, response threads and audio

A shallow embedding of `src/chatbot/ChatStructures.hpp`, `src/chatbot/IXTranscriber.cpp`,
`src/chatbot/ChatBot.cpp`, `src/chatbot/openai.hpp` and `base64_encode` of `src/defs.cc`: the
turn, the message handler and the start and stop of the transcriber, the calls on the chat
bot, the threads of a response as an interleaving of their atomic actions, the sample queue
of a synthesised unit with its decoding and playback callback, and the Base64 encoder.

* A `std::string` is the list of its `char`s (`Str`); one list element stands for one C++ `char`.
* `nlohmann::json` values are the inductive type `Json`; `Json::parse` is a third-party
  function and is taken as a parameter `parse : Str → Option Json` (`none` = parse exception).
* Clock readings are natural numbers (`steady_clock` ticks are nanoseconds).
* Exceptions that escape a function are the `Except.error` result.
* The Opus decoder is a parameter; the Ogg library's split of the bytes into pages and
  packets is the input of `processData`. Samples are values of an arbitrary type.
* Bytes are natural numbers below 256; a `char` is an integer, converted modulo 256.
-/

namespace XPlaneChatBot

/-! ## Strings -/

/-- A `std::string`: the list of its chars. -/
abbrev Str := List Char

/-- Scan of `std::string::find`: `i` is the index of the head of the remaining text. -/
def findAux (pat : Str) : Str → Nat → Option Nat
  | [], i => if pat = [] then some i else none
  | c :: cs, i => if pat.isPrefixOf (c :: cs) then some i else findAux pat cs (i + 1)

/-- The call `s.find(pat, pos)`; `none` is `std::string::npos`. -/
def find (s pat : Str) (pos : Nat) : Option Nat :=
  if pos ≤ s.length then findAux pat (s.drop pos) pos else none

/-- Scan of `std::string::find_first_of`. -/
def findFirstOfAux (chars : Str) : Str → Nat → Option Nat
  | [], _ => none
  | c :: cs, i => if c ∈ chars then some i else findFirstOfAux chars cs (i + 1)

/-- The call `s.find_first_of(chars)`; `none` is `std::string::npos`. -/
def find_first_of (s chars : Str) : Option Nat :=
  findFirstOfAux chars s 0

/-- The call `s.substr(pos, n)` for `pos ≤ s.size()`. -/
def substr (s : Str) (pos n : Nat) : Str :=
  (s.drop pos).take n

/-- The call `s.erase(0, n)`. -/
def erase0 (s : Str) (n : Nat) : Str :=
  s.drop n

/-- The frame prefix literal `"data: "`. -/
def dataPrefix : Str := ['d', 'a', 't', 'a', ':', ' ']

/-- The frame delimiter literal `"\n\n"`. -/
def delim : Str := ['\n', '\n']

/-! ## JSON values (nlohmann::json) -/

/-- A parsed JSON value. An object lists its members in iteration (key) order. The code reads
no number, so only the kind of a number matters here. -/
inductive Json where
  | null : Json
  | bool (b : Bool) : Json
  | num (n : Int) : Json
  | str (s : Str) : Json
  | arr (xs : List Json) : Json
  | obj (kvs : List (Str × Json)) : Json

/-- Faults that end a call abnormally. -/
inductive Fault where
  | jsonTypeError
  | jsonParseError
  | outOfRange
  | nullTurn
  | fuel
  deriving DecidableEq, Repr

namespace Json

/-- Member lookup in an object's member list. -/
def lookup (key : Str) : List (Str × Json) → Option Json
  | [] => none
  | (k, v) :: rest => if k = key then some v else lookup key rest

/-- The call `j.contains(key)`: false on anything that is not an object. -/
def contains (j : Json) (key : Str) : Bool :=
  match j with
  | obj kvs => (lookup key kvs).isSome
  | _ => false

/-- The call `j[key]` on a mutable value: a missing member (or a null value, which turns into
an empty object) reads as null; on any other non-object `operator[]` throws. -/
def index (j : Json) (key : Str) : Except Fault Json :=
  match j with
  | obj kvs => .ok ((lookup key kvs).getD null)
  | null => .ok null
  | _ => .error Fault.jsonTypeError

/-- The call `j[key]` on a const value, used only after `contains(key)`. -/
def cindex (j : Json) (key : Str) : Except Fault Json :=
  match j with
  | obj kvs =>
    match lookup key kvs with
    | some v => .ok v
    | none => .error Fault.jsonTypeError
  | _ => .error Fault.jsonTypeError

/-- The call `j.get<std::string>()`: throws unless the value is a string. -/
def getString (j : Json) : Except Fault Str :=
  match j with
  | str s => .ok s
  | _ => .error Fault.jsonTypeError

/-- The call `j.is_null()`. -/
def is_null (j : Json) : Bool :=
  match j with
  | null => true
  | _ => false

/-- The elements a range-for visits: array elements, object values, nothing for null,
the value itself for any other primitive. -/
def items (j : Json) : List Json :=
  match j with
  | arr xs => xs
  | obj kvs => kvs.map Prod.snd
  | null => []
  | other => [other]

end Json

/-! ## Message (ChatStructures.hpp) -/

/-- A word of a cached response with its start time. -/
structure Word where
  text : Str
  start : Int
  deriving DecidableEq, Repr

/-- The enum `MessageType`, in declaration order. -/
inductive MessageType where
  | CachedSelect
  | CachedBegin
  | CachedWarn
  | CachedFatal
  | CachedSuccess
  | Cached
  | AIGeneratedResponse
  | None
  | UserTranscription
  | studentRelinquishingControl
  | studentAssertingControl
  deriving DecidableEq, Repr

/-- The underlying enumerator value. -/
def MessageType.toNat : MessageType → Nat
  | .CachedSelect => 0
  | .CachedBegin => 1
  | .CachedWarn => 2
  | .CachedFatal => 3
  | .CachedSuccess => 4
  | .Cached => 5
  | .AIGeneratedResponse => 6
  | .None => 7
  | .UserTranscription => 8
  | .studentRelinquishingControl => 9
  | .studentAssertingControl => 10

def isCached (message_type : MessageType) : Bool :=
  message_type.toNat ≤ MessageType.Cached.toNat

def isUser (message_type : MessageType) : Bool :=
  MessageType.UserTranscription.toNat ≤ message_type.toNat

def isAI (message_type : MessageType) : Bool :=
  message_type = MessageType.AIGeneratedResponse

/-- The fields of class `Message`. `m_flightLoopID = none` is the null handle. -/
structure Message where
  m_type : MessageType
  m_text : Str
  m_textToDisplay : Str
  m_lastUpdated : Nat
  m_isUpdating : Bool
  m_partialTranscript : Str
  m_finalTranscript : Str
  m_words : List Word
  m_wordsStartTime : Nat
  m_lastProcessedWordIndex : Nat
  m_buffer : Str
  m_flightLoopID : Option Nat
  deriving DecidableEq, Repr

/-- The constructor `Message(MessageType type)`, with the default member initialisers. -/
def Message.new (type : MessageType) (now : Nat) : Message :=
  { m_type := type, m_text := [], m_textToDisplay := [], m_lastUpdated := now,
    m_isUpdating := true, m_partialTranscript := [], m_finalTranscript := [],
    m_words := [], m_wordsStartTime := 0, m_lastProcessedWordIndex := 0,
    m_buffer := [], m_flightLoopID := none }

namespace Message

def getType (m : Message) : MessageType := m.m_type
def getUndisplayedText (m : Message) : Str := m.m_textToDisplay
def getText (m : Message) : Str := m.m_text
def getLastUpdated (m : Message) : Nat := m.m_lastUpdated
def isUpdating (m : Message) : Bool := m.m_isUpdating

def addWordToText (m : Message) (text : Str) : Message :=
  { m with m_text := m.m_text ++ text }

def setPartialTranscript (m : Message) (transcript : Str) (now : Nat) : Message :=
  { m with
    m_partialTranscript := transcript
    m_text := m.m_finalTranscript ++ transcript
    m_lastUpdated := now }

def receivedFinal (m : Message) : Bool :=
  !m.m_finalTranscript.isEmpty

/-- The test `transcript.find(phrase) != std::string::npos`. -/
def found (transcript : Str) (phrase : String) : Bool :=
  (find transcript phrase.toList 0).isSome

/-- The return expression parses as `(type && a) || b || c || d || e`. -/
def studentAssertedControl (m : Message) (transcript : Str) : Bool :=
  (decide (m.m_type = MessageType.studentAssertingControl)
      && found transcript "i have control")
    || found transcript "i have the control"
    || found transcript "i have the flight controls"
    || found transcript "i have the flight control"
    || found transcript "i have the controls"

/-- The return expression parses as `(type && a) || b || c || d || e`. -/
def studentRelinquishedControl (m : Message) (transcript : Str) : Bool :=
  (decide (m.m_type = MessageType.studentRelinquishingControl)
      && found transcript "you have control")
    || found transcript "you have the control"
    || found transcript "you have the flight controls"
    || found transcript "you have the flight control"
    || found transcript "you have the controls"

def setFinalTranscript (m : Message) (transcript : Str) (now : Nat) : Message :=
  let m1 : Message :=
    { m with
      m_finalTranscript := m.m_finalTranscript ++ transcript
      m_partialTranscript := []
      m_text := m.m_finalTranscript ++ transcript
      m_lastUpdated := now }
  if m1.m_type = MessageType.UserTranscription then m1
  else
    let m2 : Message :=
      if m1.studentAssertedControl transcript then { m1 with m_isUpdating := false } else m1
    if m2.studentRelinquishedControl transcript then { m2 with m_isUpdating := false } else m2

def stopUpdating (m : Message) : Message :=
  if !m.m_isUpdating then m
  else { m with m_isUpdating := false, m_flightLoopID := none }

/-- The first statement of the choices loop body:
`if (choice.contains("delta") && choice["delta"].contains("content")) m_textToDisplay += ...`. -/
def appendDelta (m : Message) (choice : Json) : Except Fault Message :=
  if choice.contains "delta".toList then
    match choice.cindex "delta".toList with
    | .error e => .error e
    | .ok delta =>
      if delta.contains "content".toList then
        match delta.cindex "content".toList with
        | .error e => .error e
        | .ok content =>
          match content.getString with
          | .error e => .error e
          | .ok chunk => .ok { m with m_textToDisplay := m.m_textToDisplay ++ chunk }
      else .ok m
  else .ok m

/-- The second statement of the choices loop body:
`if (choice.contains("finish_reason") && !choice["finish_reason"].is_null()) m_isUpdating = false`. -/
def markFinished (m : Message) (choice : Json) : Except Fault Message :=
  if choice.contains "finish_reason".toList then
    match choice.cindex "finish_reason".toList with
    | .error e => .error e
    | .ok finish_reason =>
      if !finish_reason.is_null then .ok { m with m_isUpdating := false } else .ok m
  else .ok m

/-- One pass of the body of `for (const auto& choice : parsed["choices"])`. -/
def processChoice (m : Message) (choice : Json) : Except Fault Message :=
  match m.appendDelta choice with
  | .error e => .error e
  | .ok m1 => m1.markFinished choice

/-- The range-for over the choices, left to right. -/
def processChoices (m : Message) : List Json → Except Fault Message
  | [] => .ok m
  | choice :: rest =>
    match m.processChoice choice with
    | .ok m1 => processChoices m1 rest
    | .error e => .error e

/-- The `while (startPos != std::string::npos)` loop of `setAIResponse`. The third argument is
the list of parsed frames that reached the choices loop so far (a ghost log, not program
state); the last is `startPos`. Every pass that does not leave the loop removes at least two
chars from the buffer, so `fuel` bounds the number of passes (`loop_returns`). The arguments
of `substr` are always in range (`delim_after_prefix`). After a parse failure the source
searches from `endPos`, an offset into the buffer as it was before the `erase`. -/
def setAIResponseLoop (parse : Str → Option Json) :
    Nat → Message → List Json → Option Nat → Except Fault (Message × List Json)
  | _, m, log, none => .ok (m, log)
  | 0, _, _, some _ => .error Fault.fuel
  | fuel + 1, m, log, some startPos =>
    match find m.m_buffer delim startPos with
    | none => .ok (m, log)
    | some endPos =>
      let json_data := substr m.m_buffer (startPos + 6) (endPos - (startPos + 6))
      let m1 : Message := { m with m_buffer := erase0 m.m_buffer (endPos + 2) }
      match parse json_data with
      | none => setAIResponseLoop parse fuel m1 log (find m1.m_buffer dataPrefix endPos)
      | some parsed =>
        match parsed.index "choices".toList with
        | .error e => .error e
        | .ok choices =>
          match m1.processChoices choices.items with
          | .error e => .error e
          | .ok m2 =>
            if !m2.m_isUpdating then .ok (m2, log ++ [parsed])
            else setAIResponseLoop parse fuel m2 (log ++ [parsed]) (find m2.m_buffer dataPrefix 0)

/-- The method `setAIResponse(data)` together with the log of frames it processed. -/
def setAIResponseLog (parse : Str → Option Json) (m : Message) (data : Str) :
    Except Fault (Message × List Json) :=
  if !isAI m.m_type then .ok (m, [])
  else
    let m0 : Message := { m with m_buffer := m.m_buffer ++ data }
    setAIResponseLoop parse (m0.m_buffer.length + 1) m0 [] (find m0.m_buffer dataPrefix 0)

/-- The method `setAIResponse(data)`. -/
def setAIResponse (parse : Str → Option Json) (m : Message) (data : Str) :
    Except Fault Message :=
  (setAIResponseLog parse m data).map Prod.fst

end Message

/-! ## IXTranscriber (IXTranscriber.cpp) -/

/-- The states `ix::ReadyState` of the socket. -/
inductive ReadyState where
  | Connecting
  | Open
  | Closing
  | Closed
  deriving DecidableEq, Repr

/-- The kinds `ix::WebSocketMessageType` of an inbound socket event. -/
inductive WebSocketMessageType where
  | Message
  | Open
  | Close
  | Error
  | Ping
  | Pong
  | Fragment
  deriving DecidableEq, Repr

/-- An inbound socket event: its kind and its text. -/
structure WebSocketMessage where
  type : WebSocketMessageType
  str : Str
  deriving DecidableEq, Repr

/-- The part of `ix::WebSocket` the session observes: its ready state and what was sent. -/
structure WebSocket where
  readyState : ReadyState
  sent : List Str
  deriving DecidableEq, Repr

/-- The fields of class `IXTranscriber` that the message handler reads or writes.
`m_message = none` is the null pointer. -/
structure IXTranscriber where
  m_message : Option Message
  m_webSocket : WebSocket
  m_running : Bool
  m_pauseStartTime : Nat
  deriving DecidableEq, Repr

/-- The value of `m_pauseThreshold`, in seconds. -/
def m_pauseThreshold : Nat := 2

/-- Ticks of `steady_clock` per second (its period is one nanosecond). -/
def ticksPerSecond : Nat := 1000000000

/-- Ticks of `steady_clock` per millisecond. -/
def ticksPerMs : Nat := 1000000

/-- The conversion `json[key]` to `std::string`: throws unless the member is a string. -/
def Json.indexString (j : Json) (key : Str) : Except Fault Str :=
  match j.index key with
  | .ok v => v.getString
  | .error e => .error e

namespace IXTranscriber

/-- The method `isPauseDurationExceeded`, with `now` the clock reading: the elapsed time is
truncated to whole seconds by `duration_cast` and compared with the threshold. (A reading
before the start would give a negative duration in the source and gives 0 here; neither
reaches the threshold.) -/
def isPauseDurationExceeded (t : IXTranscriber) (now : Nat) : Bool :=
  decide (m_pauseThreshold ≤ (now - t.m_pauseStartTime) / ticksPerSecond)

/-- The statement `if (m_message->getType() == UserTranscription) m_pauseStartTime = now`. -/
def resetPause (t : IXTranscriber) (m : Message) (now : Nat) : IXTranscriber :=
  if m.getType = MessageType.UserTranscription then { t with m_pauseStartTime := now } else t

/-- The `PartialTranscript` branch of `on_message`. -/
def onPartialTranscript (t : IXTranscriber) (json_msg : Json) (now sysNow : Nat) :
    Except Fault IXTranscriber :=
  match json_msg.indexString "text".toList with
  | .error e => .error e
  | .ok text =>
    match t.m_message with
    | none => .error Fault.nullTurn
    | some m =>
      if !text.isEmpty then
        let m1 := m.setPartialTranscript text sysNow
        .ok (resetPause { t with m_message := some m1 } m1 now)
      else if m.getType = MessageType.UserTranscription && m.receivedFinal then
        if t.isPauseDurationExceeded now then .ok { t with m_message := some m.stopUpdating }
        else .ok t
      else .ok t

/-- The `FinalTranscript` branch of `on_message`. -/
def onFinalTranscript (t : IXTranscriber) (json_msg : Json) (now sysNow : Nat) :
    Except Fault IXTranscriber :=
  match json_msg.indexString "text".toList with
  | .error e => .error e
  | .ok text =>
    if !text.isEmpty then
      match t.m_message with
      | none => .error Fault.nullTurn
      | some m =>
        let m1 := m.setFinalTranscript text sysNow
        .ok (resetPause { t with m_message := some m1 } m1 now)
    else .ok t

/-- The `SessionBegins` branch of `on_message`. -/
def onSessionBegins (t : IXTranscriber) (json_msg : Json) (now : Nat) :
    Except Fault IXTranscriber :=
  match json_msg.indexString "session_id".toList with
  | .error e => .error e
  | .ok _ =>
    match json_msg.indexString "expires_at".toList with
    | .error e => .error e
    | .ok _ =>
      match t.m_message with
      | none => .error Fault.nullTurn
      | some m => .ok (resetPause t m now)

/-- The case `ix::WebSocketMessageType::Message` of `on_message`, after `Json::parse`. The
conversions of `json_msg["error"]`, `json_msg["message_type"]`, `json_msg["session_id"]` and
`json_msg["expires_at"]` to `std::string` throw unless the member is a string. -/
def onJson (t : IXTranscriber) (json_msg : Json) (now sysNow : Nat) :
    Except Fault IXTranscriber :=
  if json_msg.contains "error".toList then
    match json_msg.indexString "error".toList with
    | .error e => .error e
    | .ok _ => .ok t
  else
    match json_msg.indexString "message_type".toList with
    | .error e => .error e
    | .ok message_type =>
      if message_type = "PartialTranscript".toList then onPartialTranscript t json_msg now sysNow
      else if message_type = "FinalTranscript".toList then onFinalTranscript t json_msg now sysNow
      else if message_type = "SessionBegins".toList then onSessionBegins t json_msg now
      else if message_type = "SessionTerminated".toList then .ok t
      else .ok t

/-- The method `on_message(msg)`. `now` is the `steady_clock` reading and `sysNow` the
`system_clock` reading during the call; an exception is logged and rethrown. -/
def on_message (parse : Str → Option Json) (t : IXTranscriber) (msg : WebSocketMessage)
    (now sysNow : Nat) : Except Fault IXTranscriber :=
  match msg.type with
  | .Message =>
    match parse msg.str with
    | none => .error Fault.jsonParseError
    | some json_msg => onJson t json_msg now sysNow
  | .Open =>
    match t.m_message with
    | none => .error Fault.nullTurn
    | some m => .ok (resetPause t m now)
  | .Close => .ok t
  | .Error => .ok t
  | _ => .ok t

end IXTranscriber

/-! ## The sentence producer (ChatBot.cpp, `producerThread`) -/

/-- The sentence terminators passed to `find_first_of`. -/
def terminators : Str := ['.', '?', '!']

/-- What one pass of the producer's `while (true)` body does. -/
inductive ProducerStep where
  | emit (tts_buffer : Str) (played : Nat)
  | wait
  | finished
  deriving DecidableEq, Repr

/-- One pass of the producer loop body. `text` is what `getUndisplayedText()` returns for the
`substr` call and `updating` what `isUpdating()` returns afterwards. `substr(played)` throws
`std::out_of_range` when `played` exceeds the length. The 10 ms sleep at the top of the body
changes no state, and the synthesis call `textToSpeech` is taken to return. -/
def producerPass (text : Str) (updating : Bool) (played : Nat) : Except Fault ProducerStep :=
  if text.length < played then .error Fault.outOfRange
  else
    let newText := text.drop played
    match find_first_of newText terminators with
    | some end_of_sentence_char =>
      .ok (.emit (substr newText 0 (end_of_sentence_char + 1)) (played + (end_of_sentence_char + 1)))
    | none => if !updating then .ok .finished else .ok .wait

/-- The producer thread's state: its offset `played`, the texts of the units it pushed to
`textAudioPairs` so far (oldest first), and the flag `producerFinished`. -/
structure Producer where
  played : Nat
  emitted : List Str
  producerFinished : Bool
  deriving DecidableEq, Repr

/-- The state when the thread starts. -/
def Producer.start : Producer :=
  { played := 0, emitted := [], producerFinished := false }

/-- The producer loop run against a sequence of observations `(text, updating)`, one per pass;
the loop is left at `break`, after which no observation is read. -/
def producerRun : List (Str × Bool) → Producer → Except Fault Producer
  | [], p => .ok p
  | (text, updating) :: rest, p =>
    if p.producerFinished then .ok p
    else
      match producerPass text updating p.played with
      | .error e => .error e
      | .ok (.emit tts_buffer played) =>
        producerRun rest { p with played := played, emitted := p.emitted ++ [tts_buffer] }
      | .ok .wait => producerRun rest p
      | .ok .finished => .ok { p with producerFinished := true }

/-! ## Vocabulary of the stream properties -/

/-- A double line break starts at index `k` of `s`. -/
def DelimAt (s : Str) (k : Nat) : Prop :=
  s[k]? = some '\n' ∧ s[k + 1]? = some '\n'

/-- No double line break starts anywhere in `r`. -/
def NoDelim (r : Str) : Prop := ∀ k, ¬ DelimAt r k

/-- One event frame of the stream: the payload between the prefix and the delimiter. -/
def frame (payload : Str) : Str := dataPrefix ++ payload ++ delim

/-- The byte stream made of the frames of the given payloads, in order. -/
def stream : List Str → Str
  | [] => []
  | p :: ps => frame p ++ stream ps

/-- The chunks of a stream joined back together. -/
def concat : List Str → Str
  | [] => []
  | c :: cs => c ++ concat cs

/-- The chunks delivered to `setAIResponse` one call each, as `writeStreamData` does. -/
def feed (parse : Str → Option Json) : Message → List Str → Except Fault Message
  | m, [] => .ok m
  | m, c :: cs =>
    match m.setAIResponse parse c with
    | .ok m1 => feed parse m1 cs
    | .error e => .error e

/-- The value of `choice["delta"]["content"]` when the choice has both members. -/
def Json.deltaContent (c : Json) : Option Json :=
  match c with
  | .obj kvs =>
    match Json.lookup "delta".toList kvs with
    | some (.obj d) => Json.lookup "content".toList d
    | _ => none
  | _ => none

/-- The choice has a `finish_reason` member that is not null. -/
def Json.finishes (c : Json) : Bool :=
  match c with
  | .obj kvs =>
    match Json.lookup "finish_reason".toList kvs with
    | some v => !v.is_null
    | none => false
  | _ => false

/-- The content delta of a choice, empty when it has none. -/
def Json.choiceText (c : Json) : Str :=
  match c.deltaContent with
  | some (.str s) => s
  | _ => []

/-- The content delta of the choice, if present, is a string. -/
def Json.stringDelta (c : Json) : Bool :=
  match c.deltaContent with
  | some (.str _) => true
  | some _ => false
  | none => true

/-- The content deltas of a list of choices, concatenated in choice order. -/
def choicesText : List Json → Str
  | [] => []
  | c :: cs => c.choiceText ++ choicesText cs

/-- The choices the loop of `setAIResponse` visits for a parsed frame; `none` when
`parsed["choices"]` throws. -/
def Json.choices? (j : Json) : Option (List Json) :=
  match j.index "choices".toList with
  | .ok v => some v.items
  | .error _ => none

/-- Some choice of the parsed frame has a `finish_reason` that is present and not null. -/
def Json.frameFinishes (j : Json) : Prop :=
  ∃ cs, j.choices? = some cs ∧ ∃ c ∈ cs, c.finishes = true

/-- The content deltas carried by the frame with payload `p`, in choice order. -/
def frameText (parse : Str → Option Json) (p : Str) : Str :=
  match parse p with
  | some j =>
    match j.choices? with
    | some cs => choicesText cs
    | none => []
  | none => []

/-- The content deltas of all frames, in frame order then choice order. -/
def streamText (parse : Str → Option Json) : List Str → Str
  | [] => []
  | p :: ps => frameText parse p ++ streamText parse ps

/-- A frame without a finish reason: the first double line break of `p ++ "\n\n"` is the
terminator (no blank line starts inside the payload), the payload parses, its choices can be
read, every content delta is a string and no choice has a non-null `finish_reason`. -/
def PlainFrame (parse : Str → Option Json) (p : Str) : Prop :=
  find (p ++ delim) delim 0 = some p.length ∧
    ∃ j cs, parse p = some j ∧ j.choices? = some cs ∧
      ∀ c ∈ cs, c.stringDelta = true ∧ c.finishes = false

/-! ## Sample documents

`sampleParse` is `Json::parse` on the documents listed in `sampleDocs`; any other text used
in the examples below (`[DONE]`) is not JSON and is rejected. -/

/-- The parsed chunk `{"choices":[{"delta":{"content":content}}]}`. -/
def sampleChunk (content : String) : Json :=
  .obj [("choices".toList, .arr [.obj [("delta".toList, .obj [("content".toList, .str content.toList)])]])]

/-- The text `{"choices":[{"delta":{"content":"A"}}]}`. -/
def textA : Str := "\x7b\"choices\":[\x7b\"delta\":\x7b\"content\":\"A\"\x7d\x7d]\x7d".toList

/-- The text `{"choices":[{"delta":{"content":"B"}}]}`. -/
def textB : Str := "\x7b\"choices\":[\x7b\"delta\":\x7b\"content\":\"B\"\x7d\x7d]\x7d".toList

/-- The text `{"choices":[{"delta":{},"finish_reason":"stop"}]}`. -/
def textStop : Str :=
  "\x7b\"choices\":[\x7b\"delta\":\x7b\x7d,\"finish_reason\":\"stop\"\x7d]\x7d".toList

/-- The parsed final chunk, whose only choice has an empty delta and finish reason "stop". -/
def jsonStop : Json :=
  .obj [("choices".toList,
    .arr [.obj [("delta".toList, .obj []), ("finish_reason".toList, .str "stop".toList)]])]

/-- The text `[DONE]`, the stream's end marker, which is not JSON. -/
def textDone : Str := "[DONE]".toList

/-- A transcript event `{"message_type":kind,"text":text}`. -/
def transcriptEvent (kind text : String) : Json :=
  .obj [("message_type".toList, .str kind.toList), ("text".toList, .str text.toList)]

/-- The text `{"message_type":"FinalTranscript","text":"hi"}`. -/
def textFinalHi : Str :=
  "\x7b\"message_type\":\"FinalTranscript\",\"text\":\"hi\"\x7d".toList

/-- The text `{"message_type":"FinalTranscript","text":""}`. -/
def textFinalEmpty : Str :=
  "\x7b\"message_type\":\"FinalTranscript\",\"text\":\"\"\x7d".toList

/-- The text `{"message_type":"PartialTranscript","text":"hel"}`. -/
def textPartialHel : Str :=
  "\x7b\"message_type\":\"PartialTranscript\",\"text\":\"hel\"\x7d".toList

/-- The text `{"message_type":"PartialTranscript","text":""}`. -/
def textPartialEmpty : Str :=
  "\x7b\"message_type\":\"PartialTranscript\",\"text\":\"\"\x7d".toList

/-- The text `{"expires_at":"e","message_type":"SessionBegins","session_id":"s"}`. -/
def textSessionBegins : Str :=
  "\x7b\"expires_at\":\"e\",\"message_type\":\"SessionBegins\",\"session_id\":\"s\"\x7d".toList

/-- The parsed `SessionBegins` event. -/
def jsonSessionBegins : Json :=
  .obj [("expires_at".toList, .str "e".toList), ("message_type".toList, .str "SessionBegins".toList),
    ("session_id".toList, .str "s".toList)]

/-- The sample documents with their parsed values. -/
def sampleDocs : List (Str × Json) :=
  [(textA, sampleChunk "A"), (textB, sampleChunk "B"), (textStop, jsonStop),
   (textFinalHi, transcriptEvent "FinalTranscript" "hi"),
   (textFinalEmpty, transcriptEvent "FinalTranscript" ""),
   (textPartialHel, transcriptEvent "PartialTranscript" "hel"),
   (textPartialEmpty, transcriptEvent "PartialTranscript" ""),
   (textSessionBegins, jsonSessionBegins)]

/-- The parser on the sample documents; every other text is rejected. -/
def sampleParse (s : Str) : Option Json := Json.lookup s sampleDocs

/-- The stream of the frames "A" and "B" cut inside the prefix, inside the JSON and between
the two line breaks of the first frame. -/
def sampleChunks : List Str :=
  ["dat".toList, "a: ".toList ++ textA.take 10, textA.drop 10 ++ ['\n'],
   ['\n'] ++ frame textB]

/-- A response turn as `ChatBot::respond` creates it. -/
def freshResponse : Message := Message.new MessageType.AIGeneratedResponse 0

/-- A response turn whose stream has finished: inactive, with an empty buffer. -/
def finishedResponse : Message := { freshResponse with m_isUpdating := false }

/-! ## Vocabulary of the sentence properties -/

/-- Cutting a text immediately after each terminator: `cur` is the segment being collected;
what follows the last terminator is not a segment. -/
def cutAfter (cur : Str) : Str → List Str
  | [] => []
  | c :: cs =>
    if c ∈ terminators then (cur ++ [c]) :: cutAfter [] cs else cutAfter (cur ++ [c]) cs

/-- The segments obtained by cutting the text immediately after each `.`, `?` or `!`. -/
def sentences (text : Str) : List Str := cutAfter [] text

/-- The observations of one response: each observed text extends the one before (`prev`) and
is a prefix of the full text, and the turn is seen inactive only with the full text. -/
def Arrives (full : Str) : Str → List (Str × Bool) → Prop
  | _, [] => True
  | prev, (text, updating) :: rest =>
    prev <+: text ∧ text <+: full ∧ (updating = false → text = full) ∧ Arrives full text rest

/-- The observations of a response whose text "A. B! C?" arrives in three increments. -/
def sampleArrival : List (Str × Bool) :=
  [("A".toList, true), ("A. B".toList, true), ("A. B! C?".toList, true)]

/-! ## Vocabulary of the transcript properties -/

/-- A call of one of the two transcript setters. -/
inductive TranscriptCall where
  | setPartial (transcript : Str) (now : Nat)
  | setFinal (transcript : Str) (now : Nat)
  deriving DecidableEq, Repr

/-- The effect of one setter call on a turn. -/
def Message.call (m : Message) : TranscriptCall → Message
  | .setPartial transcript now => m.setPartialTranscript transcript now
  | .setFinal transcript now => m.setFinalTranscript transcript now

/-- The effect of a sequence of setter calls, first call first. -/
def Message.calls (m : Message) (cs : List TranscriptCall) : Message :=
  cs.foldl Message.call m

/-- A parsed inbound event without an `error` member whose `message_type` is `kind` and whose
`text` member is the string `text`. -/
def IsTranscriptEvent (j : Json) (kind : String) (text : Str) : Prop :=
  j.contains "error".toList = false ∧
    j.indexString "message_type".toList = .ok kind.toList ∧
    j.indexString "text".toList = .ok text

/-- A user-utterance turn as `ChatBot::startListening` creates it. -/
def userTurn : Message := Message.new MessageType.UserTranscription 0

/-- A running session bound to the turn `m`, its pause timer started at `pauseStart`. -/
def listeningSession (m : Message) (pauseStart : Nat) : IXTranscriber :=
  { m_message := some m, m_webSocket := { readyState := ReadyState.Open, sent := [] },
    m_running := true, m_pauseStartTime := pauseStart }

/-- A socket event of kind `Message` carrying the given text. -/
def textMessage (str : Str) : WebSocketMessage :=
  { type := WebSocketMessageType.Message, str := str }

/-! ## The response pipeline (ChatBot.cpp, the threads started by `respond`)

The producer, player and display threads share `textAudioPairs` under `textAudioPairsMutex`;
every critical section is one atomic action below. The chat thread writes the turn through
`setAIResponse`; its two writes that the other threads can see, `m_textToDisplay += chunk`
and `m_isUpdating = false`, are actions of their own. A thread that is not at the point of
an action leaves the state unchanged, so every list of actions is an interleaving. -/

/-- The struct `openai::TextAudioPair`. `audioData` is the identity of the `SharedAudioData`
object the shared pointer refers to. -/
structure TextAudioPair where
  text : Str
  audioData : Nat
  played : Bool
  deriving DecidableEq, Repr

/-- A unit as the logs record it: the identity of its audio object and its text. -/
def TextAudioPair.key (p : TextAudioPair) : Nat × Str := (p.audioData, p.text)

/-- White space as `operator>>` skips it (`std::isspace` in the C locale). -/
def isSpace (c : Char) : Bool :=
  c = ' ' || c = '\t' || c = '\n' || c = '\x0b' || c = '\x0c' || c = '\r'

/-- Scan of `while (iss >> word)`: `cur` is the word being read. -/
def wordsAux (cur : Str) : Str → List Str
  | [] => if cur = [] then [] else [cur]
  | c :: cs =>
    if isSpace c then
      if cur = [] then wordsAux [] cs else cur :: wordsAux [] cs
    else wordsAux (cur ++ [c]) cs

/-- The words `std::istringstream iss(text); while (iss >> word)` extracts, in order. -/
def istreamWords (text : Str) : List Str := wordsAux [] text

/-- Where the producer thread stands: at the top of its loop, holding the text it has just
read, inside the synthesis call for a sentence, or past its `break`. -/
inductive ProducerPc where
  | top
  | holding (text : Str)
  | synthesising (tts_buffer : Str)
  | exited
  deriving DecidableEq, Repr

/-- Where the player thread stands: at the top of its loop, inside `playAudio` for the audio
object it took from the front unit, or past its `break`. -/
inductive PlayerPc where
  | idle
  | playing (audioData : Nat)
  | exited
  deriving DecidableEq, Repr

/-- Where the display thread stands: at the top of its loop, inside the word loop with the
words of `textToDisplay` still to append (and the identity of the unit they came from), or
past its `break`. -/
inductive DisplayPc where
  | idle
  | revealing (audioData : Nat) (words : List Str)
  | exited
  deriving DecidableEq, Repr

/-- The state the threads of one `respond` call share, the local state of each thread, and
logs of what happened: the units pushed (`created`), the units whose `played` flag the player
set (`started`), every `playAudio` call (`playLog`), the units the display thread erased
(`erased`) and, for every `addWordToText` call, the unit the word came from (`wordLog`). -/
structure Pipeline where
  message : Message
  textAudioPairs : List TextAudioPair
  producerFinished : Bool
  played : Nat
  producer : ProducerPc
  player : PlayerPc
  display : DisplayPc
  created : List (Nat × Str)
  started : List (Nat × Str)
  playLog : List Nat
  erased : List (Nat × Str)
  wordLog : List Nat
  fault : Bool
  deriving DecidableEq, Repr

/-- The state right after `respond` has started the threads for a new response turn. -/
def Pipeline.start (now : Nat) : Pipeline :=
  { message := Message.new MessageType.AIGeneratedResponse now, textAudioPairs := [],
    producerFinished := false, played := 0, producer := ProducerPc.top,
    player := PlayerPc.idle, display := DisplayPc.idle, created := [], started := [],
    playLog := [], erased := [], wordLog := [], fault := false }

namespace Pipeline

/-- The chat thread's write `m_textToDisplay += chunk`. -/
def chatAppend (s : Pipeline) (chunk : Str) : Pipeline :=
  { s with message := { s.message with m_textToDisplay := s.message.m_textToDisplay ++ chunk } }

/-- The chat thread's write `m_isUpdating = false`. -/
def chatFinish (s : Pipeline) : Pipeline :=
  { s with message := { s.message with m_isUpdating := false } }

/-- The producer reads `message->getUndisplayedText()` for the `substr` call. -/
def producerReadText (s : Pipeline) : Pipeline :=
  match s.producer with
  | .top => { s with producer := .holding s.message.getUndisplayedText }
  | _ => s

/-- The producer searches the text it holds and, when there is no terminator, reads
`message->isUpdating()`: a sentence found goes to synthesis, otherwise the thread waits or
sets `producerFinished` and leaves. An escaping `std::out_of_range` ends the program. -/
def producerDecide (s : Pipeline) : Pipeline :=
  match s.producer with
  | .holding text =>
    match producerPass text s.message.isUpdating s.played with
    | .error _ => { s with producer := .exited, fault := true }
    | .ok (.emit tts_buffer played) =>
      { s with played := played, producer := .synthesising tts_buffer }
    | .ok .wait => { s with producer := .top }
    | .ok .finished => { s with producerFinished := true, producer := .exited }
  | _ => s

/-- The synthesis call has returned: `textAudioPairs.push_back({ tts_buffer, sharedData })`
under the lock, with a new audio object. -/
def producerPush (s : Pipeline) : Pipeline :=
  match s.producer with
  | .synthesising tts_buffer =>
    { s with
      textAudioPairs :=
        s.textAudioPairs ++ [{ text := tts_buffer, audioData := s.created.length, played := false }]
      created := s.created ++ [(s.created.length, tts_buffer)]
      producer := .top }
  | _ => s

/-- The player's critical section: with a unit at the front, take its audio object, set its
`played` flag and go on to `playAudio`; with an empty queue leave if the producer is done. -/
def playerPass (s : Pipeline) : Pipeline :=
  match s.player with
  | .idle =>
    match s.textAudioPairs with
    | front :: rest =>
      { s with
        textAudioPairs := { front with played := true } :: rest
        player := .playing front.audioData
        started := if front.played then s.started else s.started ++ [front.key]
        playLog := s.playLog ++ [front.audioData] }
    | [] => if s.producerFinished then { s with player := .exited } else s
  | _ => s

/-- The call `playAudio` returns. -/
def playbackEnds (s : Pipeline) : Pipeline :=
  match s.player with
  | .playing _ => { s with player := .idle }
  | _ => s

/-- The display thread's critical section: with a played unit at the front, copy its text and
erase it, then split the text into words; with an empty queue leave if the producer is
done. -/
def displayPass (s : Pipeline) : Pipeline :=
  match s.display with
  | .idle =>
    match s.textAudioPairs with
    | front :: rest =>
      if front.played then
        { s with
          textAudioPairs := rest
          erased := s.erased ++ [front.key]
          display :=
            if istreamWords front.text = [] then .idle
            else .revealing front.audioData (istreamWords front.text) }
      else s
    | [] => if s.producerFinished then { s with display := .exited } else s
  | _ => s

/-- One pass of the word loop: `message->addWordToText(word + " ")`. -/
def displayWord (s : Pipeline) : Pipeline :=
  match s.display with
  | .revealing audioData (word :: rest) =>
    { s with
      message := s.message.addWordToText (word ++ [' '])
      wordLog := s.wordLog ++ [audioData]
      display := if rest = [] then .idle else .revealing audioData rest }
  | .revealing _ [] => { s with display := .idle }
  | _ => s

end Pipeline

/-- The atomic actions of the threads of one response. -/
inductive PipelineAction where
  | chatAppend (chunk : Str)
  | chatFinish
  | producerReadText
  | producerDecide
  | producerPush
  | playerPass
  | playbackEnds
  | displayPass
  | displayWord
  deriving DecidableEq, Repr

/-- One action; nothing happens once the program has been ended by a fault. -/
def Pipeline.step (s : Pipeline) (a : PipelineAction) : Pipeline :=
  if s.fault then s
  else
    match a with
    | .chatAppend chunk => s.chatAppend chunk
    | .chatFinish => s.chatFinish
    | .producerReadText => s.producerReadText
    | .producerDecide => s.producerDecide
    | .producerPush => s.producerPush
    | .playerPass => s.playerPass
    | .playbackEnds => s.playbackEnds
    | .displayPass => s.displayPass
    | .displayWord => s.displayWord

/-- An interleaving: the actions applied one after the other. -/
def Pipeline.run (s : Pipeline) (acts : List PipelineAction) : Pipeline :=
  acts.foldl Pipeline.step s

/-- The unit at the front of the queue, if its `played` flag is set. -/
def playedFront : List TextAudioPair → List (Nat × Str)
  | [] => []
  | p :: _ => if p.played then [p.key] else []

/-- The queue and the logs agree: the units pushed are the erased ones followed by the queue,
the units started are the erased ones followed by the front unit if it is flagged, only the
front unit can be flagged, and the audio objects are numbered in the order of creation. -/
def Pipeline.QueueInv (s : Pipeline) : Prop :=
  s.created = s.erased ++ s.textAudioPairs.map TextAudioPair.key ∧
  s.started = s.erased ++ playedFront s.textAudioPairs ∧
  (∀ p ∈ s.textAudioPairs.tail, p.played = false) ∧
  s.created.map Prod.fst = List.range s.created.length

/-- The response "Hi." arrives, is cut, synthesised and pushed, its playback starts and the
display thread takes it from the queue. -/
def sampleInterleaving : List PipelineAction :=
  [.chatAppend "Hi.".toList, .producerReadText, .producerDecide, .producerPush, .playerPass,
   .displayPass]

/-- Every word appended to the revealed text, and every word still waiting in the display
thread's word loop, comes from a unit the display thread has erased. -/
def Pipeline.RevealInv (s : Pipeline) : Prop :=
  (∀ id ∈ s.wordLog, id ∈ s.erased.map Prod.fst) ∧
  (∀ id ws, s.display = DisplayPc.revealing id ws → id ∈ s.erased.map Prod.fst)

/-- The number of chars the word loop appends for the given words: each word and one space. -/
def wordsTotal : List Str → Nat
  | [] => 0
  | w :: ws => (w.length + 1) + wordsTotal ws

/-- The total length of the texts of the given units. -/
def textsLength : List (Nat × Str) → Nat
  | [] => 0
  | u :: us => u.2.length + textsLength us

/-- The length of the sentence the producer has cut but not pushed yet. -/
def ProducerPc.pending : ProducerPc → Nat
  | .synthesising tts_buffer => tts_buffer.length
  | _ => 0

/-- The number of chars the display thread will still append for the unit it is revealing. -/
def DisplayPc.pending : DisplayPc → Nat
  | .revealing _ words => wordsTotal words
  | _ => 0

/-- The lengths agree: the producer's offset is the total length of the sentences it has cut,
it lies within the display text, and what the display thread has appended and will still
append for the erased units is at most their total length plus one char per unit. -/
def Pipeline.LengthInv (s : Pipeline) : Prop :=
  textsLength s.created + s.producer.pending = s.played ∧
  s.played ≤ s.message.m_textToDisplay.length ∧
  (∀ text, s.producer = ProducerPc.holding text →
    text.length ≤ s.message.m_textToDisplay.length) ∧
  s.message.m_text.length + s.display.pending ≤ textsLength s.erased + s.erased.length

/-! ## Starting and stopping (IXTranscriber.cpp, ChatBot.cpp) -/

/-- The text of `m_terminateMsg`, `{"terminate_session":true}`. -/
def m_terminateMsg : Str := "\x7b\"terminate_session\":true\x7d".toList

namespace IXTranscriber

/-- The method `start_transcription(message)`. `paStartOk` says whether `Pa_StartStream`
succeeds and `now` is the clock reading; `m_webSocket.start()` leaves the socket connecting.
The turn is bound before the audio stream is started. -/
def start_transcription (t : IXTranscriber) (message : Message) (paStartOk : Bool)
    (now : Nat) : IXTranscriber :=
  if t.m_running then t
  else if t.m_webSocket.readyState ≠ ReadyState.Closed then t
  else
    let t1 : IXTranscriber := { t with m_message := some message }
    if !paStartOk then t1
    else
      resetPause
        { t1 with
          m_webSocket := { t1.m_webSocket with readyState := ReadyState.Connecting }
          m_running := true }
        message now

/-- The method `stop_transcription()`: the terminate message is handed to `send` and
`m_webSocket.stop()` closes the socket. -/
def stop_transcription (t : IXTranscriber) : IXTranscriber :=
  if !t.m_running then t
  else
    { t with
      m_webSocket :=
        { readyState := ReadyState.Closed, sent := t.m_webSocket.sent ++ [m_terminateMsg] }
      m_running := false }

end IXTranscriber

/-- The entry `{"role": role, "content": content}` of the messages array. -/
def roleContent (role : String) (content : Str) : Json :=
  .obj [("content".toList, .str content), ("role".toList, .str role.toList)]

/-- The messages array `respond` builds from the question and the context. -/
def respondMessages (question context : Str) : List Json :=
  if context.isEmpty then [roleContent "user" question]
  else [roleContent "system" context, roleContent "user" question]

/-- The request body `respond` builds. -/
def respondPayload (question context : Str) : Json :=
  .obj [("max_tokens".toList, .num 500), ("messages".toList, .arr (respondMessages question context)),
    ("model".toList, .str "ft:gpt-3.5-turbo-1106:further-protection::8Ik5e8WA".toList),
    ("stream".toList, .bool true), ("temperature".toList, .num 0)]

/-- The fields of class `ChatBot`. The chat history lists the turn objects in the order they
were appended; `boundTurn` is the position in it of the object `m_transcriber.m_message`
points to (the shared pointer), `none` when the pointer is null or its object is not in the
history. A thread field says whether the `std::thread` is joinable. `requests` logs the
bodies handed to `openAI.chat`. -/
structure ChatBot where
  m_transcriber : IXTranscriber
  m_isListening : Bool
  m_chatHistory : List Message
  boundTurn : Option Nat
  textAudioPairs : List TextAudioPair
  producerFinished : Bool
  chatThread : Bool
  producerThread : Bool
  playerThread : Bool
  displayThread : Bool
  requests : List Json

/-- The constructor `ChatBot()`: not listening, a transcriber that is not running, with a
null turn and a closed socket, an empty history and no thread. -/
def ChatBot.fresh (now : Nat) : ChatBot :=
  { m_transcriber :=
      { m_message := none, m_webSocket := { readyState := ReadyState.Closed, sent := [] },
        m_running := false, m_pauseStartTime := now }
    m_isListening := false, m_chatHistory := [], boundTurn := none, textAudioPairs := [],
    producerFinished := false, chatThread := false, producerThread := false,
    playerThread := false, displayThread := false, requests := [] }

namespace ChatBot

def isListening (b : ChatBot) : Bool := b.m_isListening

def isFinishedResponding (b : ChatBot) : Bool :=
  b.textAudioPairs.isEmpty && b.producerFinished

def getChatHistory (b : ChatBot) : List Message := b.m_chatHistory

/-- The method `startListening(message_type)`. `sysNow` stamps the new turn; `paStartOk` and
`now` go to `start_transcription`. The new turn is appended and the flag set whether or not
the transcriber has started; the pointer is bound to the new turn when `start_transcription`
gets past its two checks. -/
def startListening (b : ChatBot) (message_type : MessageType) (paStartOk : Bool)
    (now sysNow : Nat) : ChatBot :=
  if b.m_isListening then b
  else
    let message := Message.new message_type sysNow
    { b with
      m_transcriber := b.m_transcriber.start_transcription message paStartOk now
      boundTurn :=
        if b.m_transcriber.m_running then b.boundTurn
        else if b.m_transcriber.m_webSocket.readyState ≠ ReadyState.Closed then b.boundTurn
        else some b.m_chatHistory.length
      m_chatHistory := b.m_chatHistory ++ [message]
      m_isListening := true }

/-- The method `stopListening()`. -/
def stopListening (b : ChatBot) : ChatBot :=
  if !b.m_isListening then b
  else { b with m_transcriber := b.m_transcriber.stop_transcription, m_isListening := false }

/-- The method `respond(question, context)`. Assigning a new `std::thread` to a member that
is still joinable calls `std::terminate`: the result is `none`. Otherwise the body is built
from the question and the context alone, a new response turn is appended, the four threads
are started, and the queue and `producerFinished` are reset. -/
def respond (b : ChatBot) (question context : Str) (sysNow : Nat) : Option ChatBot :=
  if b.chatThread || b.producerThread || b.playerThread || b.displayThread then none
  else
    some { b with
      m_chatHistory := b.m_chatHistory ++ [Message.new MessageType.AIGeneratedResponse sysNow]
      requests := b.requests ++ [respondPayload question context]
      chatThread := true, producerThread := true, playerThread := true, displayThread := true
      producerFinished := false
      textAudioPairs := [] }

/-- An inbound socket event reaches `on_message`: the handler works on the bound turn, which
is an object of the chat history. Without a bound turn in the history nothing is delivered;
an exception that escapes the handler ends the program (`none`). -/
def inbound (parse : Str → Option Json) (b : ChatBot) (msg : WebSocketMessage)
    (now sysNow : Nat) : Option ChatBot :=
  match b.boundTurn with
  | none => some b
  | some i =>
    match b.m_chatHistory[i]? with
    | none => some b
    | some m =>
      match IXTranscriber.on_message parse { b.m_transcriber with m_message := some m } msg
          now sysNow with
      | .error _ => none
      | .ok t =>
        match t.m_message with
        | none => some { b with m_transcriber := t }
        | some m1 => some { b with m_transcriber := t, m_chatHistory := b.m_chatHistory.set i m1 }

end ChatBot

/-- A call on the chat bot from the view, or an inbound socket event. -/
inductive ChatBotCall where
  | startListening (message_type : MessageType) (paStartOk : Bool) (now sysNow : Nat)
  | stopListening
  | respond (question context : Str) (sysNow : Nat)
  | inbound (msg : WebSocketMessage) (now sysNow : Nat)

/-- The effect of one call; `none` when the program is ended. -/
def ChatBot.call (parse : Str → Option Json) (b : ChatBot) : ChatBotCall → Option ChatBot
  | .startListening message_type paStartOk now sysNow =>
    some (b.startListening message_type paStartOk now sysNow)
  | .stopListening => some b.stopListening
  | .respond question context sysNow => b.respond question context sysNow
  | .inbound msg now sysNow => ChatBot.inbound parse b msg now sysNow

/-- The effect of a sequence of calls, first call first. -/
def ChatBot.calls (parse : Str → Option Json) : ChatBot → List ChatBotCall → Option ChatBot
  | b, [] => some b
  | b, c :: cs =>
    match b.call parse c with
    | none => none
    | some b1 => ChatBot.calls parse b1 cs

/-- The number of turns of the history that are of the given kind and still active. -/
def activeTurns (kind : MessageType) (history : List Message) : Nat :=
  history.countP (fun m => decide (m.getType = kind) && m.isUpdating)

/-- The number of turns of the history that are of the given kind. -/
def turnsOfKind (kind : MessageType) (history : List Message) : Nat :=
  history.countP (fun m => decide (m.getType = kind))

/-- A chat bot that is listening: a fresh one after `startListening()`. -/
def listeningBot : ChatBot :=
  (ChatBot.fresh 0).startListening MessageType.UserTranscription true 1 1

/-- Two user turns are recorded, the first with the final transcript "hi", and the view then
asks for a response to "hi". -/
def sampleExchange : List ChatBotCall :=
  [.startListening MessageType.UserTranscription true 1 1, .inbound (textMessage textFinalHi) 2 2,
   .stopListening, .startListening MessageType.UserTranscription true 3 3, .stopListening,
   .respond "hi".toList [] 4]

/-! ## Base64 (defs.cc) -/

/-- The table `base64_chars`. -/
def base64_chars : Str :=
  "ABCDEFGHIJKLMNOPQRSTUVWXYZabcdefghijklmnopqrstuvwxyz0123456789+/".toList

/-- The conversion of a `char` to `unsigned char` in `char_array_3[i++] = buf[idx]`: the value
modulo 256, whether `char` is signed or not. -/
def toUChar (c : Int) : Nat := (c % 256).toNat

/-- The array `unsigned char char_array_3[3]`. -/
structure CharArray3 where
  a0 : Nat
  a1 : Nat
  a2 : Nat
  deriving DecidableEq, Repr

namespace CharArray3

/-- The assignment `char_array_3[i] = v`, for an index within the array. -/
def set (a : CharArray3) (i v : Nat) : CharArray3 :=
  match i with
  | 0 => { a with a0 := v }
  | 1 => { a with a1 := v }
  | 2 => { a with a2 := v }
  | _ => a

/-- The loop `for (j = i; j < 3; j++) char_array_3[j] = 0`. -/
def clearFrom (a : CharArray3) (i : Nat) : CharArray3 :=
  match i with
  | 0 => { a0 := 0, a1 := 0, a2 := 0 }
  | 1 => { a with a1 := 0, a2 := 0 }
  | 2 => { a with a2 := 0 }
  | _ => a

/-- The value `char_array_4[0]`. -/
def quad0 (a : CharArray3) : Nat := ((a.a0 &&& 0xfc) >>> 2) % 256

/-- The value `char_array_4[1]`. -/
def quad1 (a : CharArray3) : Nat := (((a.a0 &&& 0x03) <<< 4) + ((a.a1 &&& 0xf0) >>> 4)) % 256

/-- The value `char_array_4[2]`. -/
def quad2 (a : CharArray3) : Nat := (((a.a1 &&& 0x0f) <<< 2) + ((a.a2 &&& 0xc0) >>> 6)) % 256

/-- The value `char_array_4[3]`. -/
def quad3 (a : CharArray3) : Nat := (a.a2 &&& 0x3f) % 256

end CharArray3

/-- The char `base64_chars[v]`; `operator[]` gives the null char at the length. -/
def base64Char (v : Nat) : Char := base64_chars.getD v '\x00'

/-- The locals of `base64_encode` during the loop over the bytes. -/
structure EncodeState where
  i : Nat
  char_array_3 : CharArray3
  base64 : Str
  deriving DecidableEq, Repr

/-- One pass of the loop over `buf`: store the byte, and with three bytes stored append the
four chars of the group and start over. -/
def encodeByte (st : EncodeState) (c : Int) : EncodeState :=
  let arr := st.char_array_3.set st.i (toUChar c)
  if st.i + 1 = 3 then
    { i := 0, char_array_3 := arr,
      base64 := st.base64 ++
        [base64Char arr.quad0, base64Char arr.quad1, base64Char arr.quad2, base64Char arr.quad3] }
  else { i := st.i + 1, char_array_3 := arr, base64 := st.base64 }

/-- The statement `if (i) ...` after the loop: the bytes left over are completed with zeros,
`i + 1` chars of the group are appended and then `3 - i` padding chars. -/
def encodeTail (st : EncodeState) : Str :=
  if st.i ≠ 0 then
    let arr := st.char_array_3.clearFrom st.i
    st.base64 ++ ([base64Char arr.quad0, base64Char arr.quad1, base64Char arr.quad2].take (st.i + 1))
      ++ List.replicate (3 - st.i) '='
  else st.base64

/-- The function `base64_encode(buf)`. The array `char_array_3` is not initialised in the
source; no element of it is read before it is written. -/
def base64_encode (buf : List Int) : Str :=
  encodeTail (buf.foldl encodeByte { i := 0, char_array_3 := { a0 := 0, a1 := 0, a2 := 0 }, base64 := [] })

/-- The Base64 alphabet of RFC 4648, table 1: the char of a 6-bit value. -/
def rfc4648Alphabet (v : Nat) : Char :=
  if v < 26 then Char.ofNat (65 + v)
  else if v < 52 then Char.ofNat (97 + (v - 26))
  else if v < 62 then Char.ofNat (48 + (v - 52))
  else if v = 62 then '+'
  else '/'

/-- The 6-bit value of a char of the RFC 4648 alphabet. -/
def rfc4648Value (c : Char) : Option Nat :=
  if 65 ≤ c.toNat ∧ c.toNat ≤ 90 then some (c.toNat - 65)
  else if 97 ≤ c.toNat ∧ c.toNat ≤ 122 then some (c.toNat - 97 + 26)
  else if 48 ≤ c.toNat ∧ c.toNat ≤ 57 then some (c.toNat - 48 + 52)
  else if c = '+' then some 62
  else if c = '/' then some 63
  else none

/-- The padded Base64 encoding of RFC 4648, section 4: each group of 24 bits gives four chars,
a final group of 16 bits three chars and one `=`, a final group of 8 bits two chars and two
`=`. -/
def rfc4648Encode : List Nat → Str
  | [] => []
  | [a] =>
    [rfc4648Alphabet (a / 4), rfc4648Alphabet (a % 4 * 16), '=', '=']
  | [a, b] =>
    [rfc4648Alphabet (a / 4), rfc4648Alphabet (a % 4 * 16 + b / 16), rfc4648Alphabet (b % 16 * 4), '=']
  | a :: b :: c :: rest =>
    rfc4648Alphabet (a / 4) :: rfc4648Alphabet (a % 4 * 16 + b / 16) ::
      rfc4648Alphabet (b % 16 * 4 + c / 64) :: rfc4648Alphabet (c % 64) :: rfc4648Encode rest

/-- A strict decoder of padded Base64 (RFC 4648, sections 3 and 4): the input is a sequence of
groups of four chars of the alphabet, padding occurs only in the last group, and the bits of
the last group that belong to no byte are zero. -/
def rfc4648Decode : Str → Option (List Nat)
  | [] => some []
  | c0 :: c1 :: c2 :: c3 :: rest =>
    match rfc4648Value c0, rfc4648Value c1 with
    | some v0, some v1 =>
      if c2 = '=' then
        if c3 = '=' ∧ rest = [] ∧ v1 % 16 = 0 then some [v0 * 4 + v1 / 16] else none
      else
        match rfc4648Value c2 with
        | none => none
        | some v2 =>
          if c3 = '=' then
            if rest = [] ∧ v2 % 4 = 0 then some [v0 * 4 + v1 / 16, v1 % 16 * 16 + v2 / 4]
            else none
          else
            match rfc4648Value c3 with
            | none => none
            | some v3 =>
              match rfc4648Decode rest with
              | none => none
              | some bytes =>
                some ((v0 * 4 + v1 / 16) :: (v1 % 16 * 16 + v2 / 4) :: (v2 % 4 * 64 + v3) :: bytes)
    | _, _ => none
  | _ => none

/-! ## Decoded audio and its playback (openai.hpp) -/

/-- The constant `CHANNELS`. -/
def CHANNELS : Nat := 1

/-- The constant `FRAMES_PER_BUFFER`. -/
def FRAMES_PER_BUFFER : Nat := 960

/-- The fields of class `SharedAudioData` that its callers see: the two flags and the sample
queue `audioBuffer`, front first. The samples are only moved, never computed with, so their
type is left open. -/
structure SharedAudioData (α : Type) where
  dataReady : Bool
  endOfData : Bool
  audioBuffer : List α
  deriving DecidableEq, Repr

/-- The loop of `getData`: `i` is the loop counter, `output[i] = audioBuffer.front()` is a
write into the buffer of the caller. -/
def getDataLoop {α : Type} (framesPerBuffer : Nat) : List α → List α → Nat → List α × List α × Nat
  | [], output, i => ([], output, i)
  | x :: audioBuffer, output, i =>
    if i < framesPerBuffer then getDataLoop framesPerBuffer audioBuffer (output.set i x) (i + 1)
    else (x :: audioBuffer, output, i)

namespace SharedAudioData

/-- The object after the constructor `SharedAudioData()`. -/
def new {α : Type} : SharedAudioData α :=
  { dataReady := false, endOfData := false, audioBuffer := [] }

/-- The method `addData(data, size)`: `data[0]` to `data[size - 1]` are pushed in turn. -/
def addData {α : Type} (s : SharedAudioData α) (data : List α) (size : Nat) : SharedAudioData α :=
  { s with
    audioBuffer :=
      (List.range size).foldl
        (fun audioBuffer i =>
          match data[i]? with
          | some x => audioBuffer ++ [x]
          | none => audioBuffer)
        s.audioBuffer }

/-- The method `getData(output, framesPerBuffer)`: the object afterwards, the buffer of the
caller afterwards, and the count returned. -/
def getData {α : Type} (s : SharedAudioData α) (output : List α) (framesPerBuffer : Nat) :
    SharedAudioData α × List α × Nat :=
  let r := getDataLoop framesPerBuffer s.audioBuffer output 0
  ({ s with audioBuffer := r.1 }, r.2.1, r.2.2)

def isDataReady {α : Type} (s : SharedAudioData α) : Bool := s.dataReady

def isEndOfData {α : Type} (s : SharedAudioData α) : Bool := s.endOfData

def setDataReady {α : Type} (s : SharedAudioData α) (ready : Bool) : SharedAudioData α :=
  { s with dataReady := ready }

def signalEndOfData {α : Type} (s : SharedAudioData α) : SharedAudioData α :=
  { s with endOfData := true }

end SharedAudioData

/-- The values a PortAudio stream callback returns. -/
inductive PaStreamCallbackResult where
  | paContinue
  | paComplete
  | paAbort
  deriving DecidableEq, Repr

/-- The call `std::fill(out, out + count, 0.0f)`, with `silence` the sample `0.0f`. -/
def fillSilence {α : Type} (silence : α) (out : List α) (count : Nat) : List α :=
  List.replicate (min count out.length) silence ++ out.drop count

/-- The callback `OpusPlayer::audioCallback`: the value returned, the unit afterwards and the
output buffer afterwards. -/
def audioCallback {α : Type} (silence : α) (sharedData : SharedAudioData α) (out : List α)
    (framesPerBuffer : Nat) : PaStreamCallbackResult × SharedAudioData α × List α :=
  let out0 := fillSilence silence out (framesPerBuffer * CHANNELS)
  if !sharedData.isDataReady then (.paContinue, sharedData, out0)
  else
    let r := sharedData.getData out0 (framesPerBuffer * CHANNELS)
    if r.2.2 < framesPerBuffer * CHANNELS then
      let s1 := r.1.setDataReady false
      if s1.isEndOfData then (.paComplete, s1, r.2.1) else (.paContinue, s1, r.2.1)
    else (.paContinue, r.1, r.2.1)

/-- The callback called `calls` times in a row on the same unit, as the stream does while it
is active and nothing else touches the unit: the values returned, oldest first, and the unit
afterwards. The stream stays active as long as the callback returns `paContinue`. -/
def audioCallbacks {α : Type} (silence : α) (framesPerBuffer : Nat) :
    Nat → SharedAudioData α → List PaStreamCallbackResult × SharedAudioData α
  | 0, sharedData => ([], sharedData)
  | calls + 1, sharedData =>
    let r := audioCallback silence sharedData (List.replicate (framesPerBuffer * CHANNELS) silence)
      framesPerBuffer
    match r.1 with
    | .paContinue =>
      let rest := audioCallbacks silence framesPerBuffer calls r.2.1
      (r.1 :: rest.1, rest.2)
    | _ => ([r.1], r.2.1)

/-- The bytes of an Ogg packet: `op.packet[0]` to `op.packet[op.bytes - 1]`. -/
abbrev Packet := List Nat

/-- The bytes of a string literal. -/
def magic (s : String) : List Nat := s.toList.map Char.toNat

/-- The test `op.bytes >= 19 && strncmp(op.packet, "OpusHead", 8) == 0`. -/
def isOpusHead (op : Packet) : Bool :=
  decide (19 ≤ op.length) && decide (op.take 8 = magic "OpusHead")

/-- The test `op.bytes >= 16 && strncmp(op.packet, "OpusTags", 8) == 0`. -/
def isOpusTags (op : Packet) : Bool :=
  decide (16 ≤ op.length) && decide (op.take 8 = magic "OpusTags")

/-- What a call of `opus_decode_float` leaves: the decoder afterwards, the value returned and
the content of `decodedPCM`. -/
structure Decoded (σ α : Type) where
  opusDecoder : σ
  frameSize : Int
  decodedPCM : List α

/-- The decoder and the unit during `processData`, and the error codes logged for packets
whose decoding failed, oldest first. -/
structure DecodeState (σ α : Type) where
  opusDecoder : σ
  shared : SharedAudioData α
  errors : List Int

/-- The value `*reinterpret_cast<unsigned int*>(op.packet + 8)` of the tag branch: the four
bytes from offset 8, least significant first, as on the little-endian targets of the
program. The branch is entered with at least 16 bytes. -/
def vendorLength (op : Packet) : Nat :=
  op.getD 8 0 + 256 * op.getD 9 0 + 65536 * op.getD 10 0 + 16777216 * op.getD 11 0

/-- The vendor string `std::string(op.packet + 12, vendor_length)` lies within the packet. -/
def vendorInPacket (op : Packet) : Bool :=
  decide (12 + vendorLength op ≤ op.length)

/-- The body of the loop over the packets of a page. The header branch reads the bytes up to
offset 18 of a packet of at least 19 bytes for the log. The tag branch builds
`std::string(op.packet + 12, vendor_length)` for the log without comparing `vendor_length`
with `op.bytes`: when the string does not lie within the packet this reads past the packet,
which is undefined behaviour of the program, the result `none`. `opus_decode_float` is the
decoder of the Opus library. -/
def processPacket {σ α : Type} (opus_decode_float : σ → Packet → Decoded σ α)
    (st : DecodeState σ α) (op : Packet) : Option (DecodeState σ α) :=
  if isOpusHead op then some st
  else if isOpusTags op then
    if vendorInPacket op then some st else none
  else
    let r := opus_decode_float st.opusDecoder op
    if r.frameSize < 0 then
      some { st with opusDecoder := r.opusDecoder, errors := st.errors ++ [r.frameSize] }
    else
      some { st with
        opusDecoder := r.opusDecoder
        shared :=
          (st.shared.addData r.decodedPCM (r.frameSize * (CHANNELS : Int)).toNat).setDataReady true }

/-- The loop `while (ogg_stream_packetout(&os, &op) == 1)` over the packets of one page. -/
def processPackets {σ α : Type} (opus_decode_float : σ → Packet → Decoded σ α) :
    DecodeState σ α → List Packet → Option (DecodeState σ α)
  | st, [] => some st
  | st, op :: rest =>
    match processPacket opus_decode_float st op with
    | none => none
    | some st1 => processPackets opus_decode_float st1 rest

/-- The method `processData`, after the Ogg library has split the bytes received so far: for
each page that `ogg_sync_pageout` returns, in turn, the packets that `ogg_stream_packetout`
returns, in turn. -/
def processData {σ α : Type} (opus_decode_float : σ → Packet → Decoded σ α) :
    DecodeState σ α → List (List Packet) → Option (DecodeState σ α)
  | st, [] => some st
  | st, page :: pages =>
    match processPackets opus_decode_float st page with
    | none => none
    | some st1 => processData opus_decode_float st1 pages

/-- The results of the decoder called on the packets that are not header or tag packets, in
the order of the packets, each call on the decoder the call before has left. -/
def decoderResults {σ α : Type} (opus_decode_float : σ → Packet → Decoded σ α) :
    σ → List Packet → List (Decoded σ α)
  | _, [] => []
  | opusDecoder, op :: rest =>
    if isOpusHead op || isOpusTags op then decoderResults opus_decode_float opusDecoder rest
    else
      opus_decode_float opusDecoder op ::
        decoderResults opus_decode_float (opus_decode_float opusDecoder op).opusDecoder rest

/-- The samples of the results that are no failures, in order: of each the first `frameSize`
samples per channel of its buffer. -/
def decodedSamples {σ α : Type} : List (Decoded σ α) → List α
  | [] => []
  | r :: rest =>
    if r.frameSize < 0 then decodedSamples rest
    else r.decodedPCM.take (r.frameSize.toNat * CHANNELS) ++ decodedSamples rest

/-- The error codes of the results that are failures, in order. -/
def decodeFailures {σ α : Type} : List (Decoded σ α) → List Int
  | [] => []
  | r :: rest => if r.frameSize < 0 then r.frameSize :: decodeFailures rest else decodeFailures rest

/-- A decoder without state for the examples: a packet whose first byte is 255 fails with
`OPUS_INVALID_PACKET`, any other packet decodes to its own bytes. -/
def sampleDecoder (opusDecoder : Unit) (op : Packet) : Decoded Unit Nat :=
  if op.head? = some 255 then { opusDecoder := opusDecoder, frameSize := -4, decodedPCM := [] }
  else { opusDecoder := opusDecoder, frameSize := op.length, decodedPCM := op }

/-- A header packet, a tag packet, a valid packet, a corrupted packet and a valid packet, on
two pages. -/
def samplePages : List (List Packet) :=
  [[magic "OpusHead" ++ List.replicate 11 0, magic "OpusTags" ++ List.replicate 8 0],
   [[1, 2], [255, 0], [3]]]

/-- A tag packet of 16 bytes whose vendor length field holds 4294967295. -/
def malformedTags : Packet :=
  magic "OpusTags" ++ [255, 255, 255, 255, 0, 0, 0, 0]

/-- A header packet on the first page; a valid packet, the malformed tag packet and a valid
packet on the second. -/
def malformedPages : List (List Packet) :=
  [[magic "OpusHead" ++ List.replicate 11 0], [[1, 2], malformedTags, [3]]]

/-- The packets of the pages, in order. -/
def packetsOf : List (List Packet) → List Packet
  | [] => []
  | page :: pages => page ++ packetsOf pages

/-- The decoder after the calls on the packets that are not header or tag packets. -/
def decoderAfter {σ α : Type} (opus_decode_float : σ → Packet → Decoded σ α) :
    σ → List Packet → σ
  | opusDecoder, [] => opusDecoder
  | opusDecoder, op :: rest =>
    if isOpusHead op || isOpusTags op then decoderAfter opus_decode_float opusDecoder rest
    else decoderAfter opus_decode_float (opus_decode_float opusDecoder op).opusDecoder rest

/-- A unit whose synthesis request has ended without one decoded sample: `signalEndOfData()`
has been called and `dataReady` was never set. -/
def silentUnit : SharedAudioData Int :=
  SharedAudioData.new.signalEndOfData

/-! ## The word loop of the display thread (ChatBot.cpp, `displayThread`) -/

/-- The statement `if (!textToDisplay.empty()) ...` of the display thread with its word loop:
every word read from the stream is passed, with one space added, to `addWordToText`. -/
def displayWords (message : Message) (textToDisplay : Str) : Message :=
  if !textToDisplay.isEmpty then
    (istreamWords textToDisplay).foldl (fun m word => m.addWordToText (word ++ [' '])) message
  else message

/-- The whitespace-delimited words of a text: the text is split at every whitespace char and
the empty pieces are dropped. -/
def whitespaceWords (text : Str) : List Str :=
  (text.splitOnP isSpace).filter (fun w => !w.isEmpty)

/-- The chars the word loop appends for the given words: each word followed by one space. -/
def spaced : List Str → Str
  | [] => []
  | w :: ws => w ++ [' '] ++ spaced ws

/-- The response "One two three. Hi." arrives and both sentences are synthesised and pushed.
The player plays unit 0 and the display thread takes it from the queue and starts on its
words; the player plays unit 1 to the end while the display thread is still in its word loop
for unit 0, and then passes its critical section again. -/
def sampleReplay : List PipelineAction :=
  [.chatAppend "One two three. Hi.".toList, .chatFinish,
   .producerReadText, .producerDecide, .producerPush,
   .producerReadText, .producerDecide, .producerPush,
   .playerPass, .displayPass, .playbackEnds,
   .playerPass, .displayWord, .playbackEnds,
   .playerPass]

/-- A call of `startListening` or `stopListening` from the view. -/
inductive ListenCall where
  | start (message_type : MessageType) (paStartOk : Bool) (now sysNow : Nat)
  | stop

/-- The effect of one such call. -/
def ChatBot.listen (b : ChatBot) : ListenCall → ChatBot
  | .start message_type paStartOk now sysNow => b.startListening message_type paStartOk now sysNow
  | .stop => b.stopListening

/-- The effect of a sequence of such calls, first call first. -/
def ChatBot.listens (b : ChatBot) (cs : List ListenCall) : ChatBot :=
  cs.foldl ChatBot.listen b

/-- The transcriber and the flag agree as far as they do: a transcriber that is not running
has a closed socket, and a chat bot that is not listening has a transcriber that is not
running. -/
def ChatBot.ListenInv (b : ChatBot) : Prop :=
  (b.m_transcriber.m_running = false → b.m_transcriber.m_webSocket.readyState = ReadyState.Closed) ∧
  (b.m_isListening = false → b.m_transcriber.m_running = false)

/-- A chat bot that is not listening while its transcriber is running; no sequence of
`startListening` and `stopListening` calls leads to it. -/
def runningUnheard : ChatBot :=
  { ChatBot.fresh 0 with
    m_transcriber :=
      { (ChatBot.fresh 0).m_transcriber with
        m_running := true
        m_webSocket := { readyState := ReadyState.Open, sent := [] } } }

/-- The display text only grows: each text the producer observes extends the one observed
before (`prev`). -/
def Grows : Str → List (Str × Bool) → Prop
  | _, [] => True
  | prev, (text, _) :: rest => prev <+: text ∧ Grows text rest

/-- The producer's offset lies within the display text and within the text the producer
holds, and no `substr` call has thrown. -/
def Pipeline.OffsetInv (s : Pipeline) : Prop :=
  s.fault = false ∧ s.played ≤ s.message.m_textToDisplay.length ∧
  ∀ text, s.producer = ProducerPc.holding text →
    s.played ≤ text.length ∧ text.length ≤ s.message.m_textToDisplay.length

/-- The response "A. B." in two increments, the second against a producer pass that has just
read the display text: the producer cuts and pushes "A.", its next pass reads the text (still
"A."), the chat thread appends " B." and sets the turn inactive, and the pass then reads
`isUpdating()`. -/
def sampleRace : List PipelineAction :=
  [.chatAppend "A.".toList, .producerReadText, .producerDecide, .producerPush,
   .producerReadText, .chatAppend " B.".toList, .chatFinish, .producerDecide]

/-- The method `joinResponseThreads()`: nothing is joined before the response is finished;
otherwise each of the four threads is joined and is not joinable afterwards. -/
def ChatBot.joinResponseThreads (b : ChatBot) : ChatBot :=
  if !b.isFinishedResponding then b
  else
    { b with
      producerThread := false, playerThread := false, chatThread := false,
      displayThread := false }

/-- The chat bot together with the turn its response threads work on: `responseTurn` is the
position in the chat history of the object that the shared pointer `message` of the last
`respond` call refers to, which the lambdas of the threads have captured. -/
structure ChatRun where
  bot : ChatBot
  responseTurn : Option Nat

/-- A new chat bot; no response has been started. -/
def ChatRun.fresh (now : Nat) : ChatRun :=
  { bot := ChatBot.fresh now, responseTurn := none }

/-- What happens to a chat bot: a call from the view or an inbound socket event, the call
`joinResponseThreads()`, and the steps of the response threads that the rest of the chat bot
can see: the chat thread passes received data to `setAIResponse` of the response turn, the
producer thread reaches `producerFinished = true` (which it does only after it has read
`isUpdating()` of the response turn as false), and a thread changes the queue. -/
inductive ChatEvent where
  | call (c : ChatBotCall)
  | joinResponseThreads
  | chatData (data : Str)
  | producerFinishes
  | queueChanges (textAudioPairs : List TextAudioPair)

/-- The effect of one event; `none` when the program is ended: by a call that ends it, or by
an exception that escapes `setAIResponse` in the chat thread. A step of a thread takes place
only while the thread has been started and not joined. -/
def ChatRun.step (parse : Str → Option Json) (s : ChatRun) : ChatEvent → Option ChatRun
  | .call c =>
    match s.bot.call parse c with
    | none => none
    | some b1 =>
      match c with
      | .respond _ _ _ => some { bot := b1, responseTurn := some s.bot.m_chatHistory.length }
      | _ => some { s with bot := b1 }
  | .joinResponseThreads => some { s with bot := s.bot.joinResponseThreads }
  | .chatData data =>
    if !s.bot.chatThread then some s
    else
      match s.responseTurn with
      | none => some s
      | some i =>
        match s.bot.m_chatHistory[i]? with
        | none => some s
        | some m =>
          match m.setAIResponse parse data with
          | .error _ => none
          | .ok m1 =>
            some { s with bot := { s.bot with m_chatHistory := s.bot.m_chatHistory.set i m1 } }
  | .producerFinishes =>
    if !s.bot.producerThread then some s
    else
      match s.responseTurn with
      | none => some s
      | some i =>
        match s.bot.m_chatHistory[i]? with
        | none => some s
        | some m =>
          if !m.isUpdating then some { s with bot := { s.bot with producerFinished := true } }
          else some s
  | .queueChanges textAudioPairs =>
    if !s.bot.producerThread then some s
    else some { s with bot := { s.bot with textAudioPairs := textAudioPairs } }

/-- The effect of a sequence of events, first event first. -/
def ChatRun.run (parse : Str → Option Json) : ChatRun → List ChatEvent → Option ChatRun
  | s, [] => some s
  | s, e :: es =>
    match s.step parse e with
    | none => none
    | some s1 => ChatRun.run parse s1 es

theorem isPrefixOf_delim (s : Str) : delim.isPrefixOf s = true ↔ DelimAt s 0 := by
  unfold DelimAt
  match s with
  | [] => simp [delim]
  | [a] => simp [delim, List.isPrefixOf]
  | a :: b :: rest =>
    simp only [delim, List.isPrefixOf, Bool.and_eq_true, beq_iff_eq, Bool.and_true]
    simp [eq_comm]

theorem findAux_delim_some (s : Str) (i n : Nat) :
    findAux delim s i = some n ↔
      ∃ k, n = i + k ∧ DelimAt s k ∧ ∀ j, j < k → ¬ DelimAt s j := by
  induction s generalizing i with
  | nil =>
    simp [findAux, delim, DelimAt]
  | cons c cs ih =>
    unfold findAux
    by_cases h : delim.isPrefixOf (c :: cs) = true
    · rw [if_pos h]
      have h0 := (isPrefixOf_delim _).1 h
      constructor
      · intro e
        exact ⟨0, by simpa using e.symm, h0, by intro j hj; omega⟩
      · rintro ⟨k, rfl, hk, hmin⟩
        have : k = 0 := by
          by_contra hne
          exact hmin 0 (Nat.pos_of_ne_zero hne) h0
        simp [this]
    · rw [if_neg h]
      have h0 : ¬ DelimAt (c :: cs) 0 := fun hd => h ((isPrefixOf_delim _).2 hd)
      rw [ih]
      constructor
      · rintro ⟨k, rfl, hk, hmin⟩
        refine ⟨k + 1, by omega, ?_, ?_⟩
        · simpa [DelimAt] using hk
        · intro j hj
          match j with
          | 0 => exact h0
          | j + 1 =>
            have := hmin j (by omega)
            simpa [DelimAt] using this
      · rintro ⟨k, rfl, hk, hmin⟩
        match k with
        | 0 => exact absurd hk h0
        | k + 1 =>
          refine ⟨k, by omega, ?_, ?_⟩
          · simpa [DelimAt] using hk
          · intro j hj
            have := hmin (j + 1) (by omega)
            simpa [DelimAt] using this

theorem findAux_delim_none (s : Str) (i : Nat) :
    findAux delim s i = none ↔ ∀ k, ¬ DelimAt s k := by
  induction s generalizing i with
  | nil => simp [findAux, delim, DelimAt]
  | cons c cs ih =>
    unfold findAux
    by_cases h : delim.isPrefixOf (c :: cs) = true
    · rw [if_pos h]
      have h0 := (isPrefixOf_delim _).1 h
      simp only [reduceCtorEq, false_iff, not_forall, not_not]
      exact ⟨0, h0⟩
    · rw [if_neg h]
      have h0 : ¬ DelimAt (c :: cs) 0 := fun hd => h ((isPrefixOf_delim _).2 hd)
      rw [ih]
      constructor
      · intro hall k
        match k with
        | 0 => exact h0
        | k + 1 =>
          have := hall k
          simpa [DelimAt] using this
      · intro hall k
        have := hall (k + 1)
        simpa [DelimAt] using this

theorem delimAt_drop (s : Str) (pos k : Nat) : DelimAt (s.drop pos) k ↔ DelimAt s (pos + k) := by
  simp [DelimAt, List.getElem?_drop, Nat.add_assoc]

/-- The position `find` returns for the delimiter: the first double line break at or after `pos`. -/
theorem find_delim_some (s : Str) (pos n : Nat) :
    find s delim pos = some n ↔
      pos ≤ n ∧ DelimAt s n ∧ ∀ j, pos ≤ j → j < n → ¬ DelimAt s j := by
  unfold find
  by_cases hp : pos ≤ s.length
  · rw [if_pos hp, findAux_delim_some]
    constructor
    · rintro ⟨k, rfl, hk, hmin⟩
      refine ⟨by omega, (delimAt_drop _ _ _).1 hk, ?_⟩
      intro j hj1 hj2 hd
      apply hmin (j - pos) (by omega)
      rw [delimAt_drop]
      have : pos + (j - pos) = j := by omega
      rwa [this]
    · rintro ⟨hle, hd, hmin⟩
      refine ⟨n - pos, by omega, ?_, ?_⟩
      · rw [delimAt_drop]
        have : pos + (n - pos) = n := by omega
        rwa [this]
      · intro j hj hdj
        rw [delimAt_drop] at hdj
        exact hmin (pos + j) (by omega) (by omega) hdj
  · rw [if_neg hp]
    simp only [reduceCtorEq, false_iff, not_and, not_forall]
    intro hle hd
    exfalso
    have : s[n]? = none := List.getElem?_eq_none (by omega)
    rw [DelimAt, this] at hd
    exact absurd hd.1 (by simp)

theorem find_delim_none (s : Str) (pos : Nat) :
    find s delim pos = none ↔ ∀ j, pos ≤ j → ¬ DelimAt s j := by
  unfold find
  by_cases hp : pos ≤ s.length
  · rw [if_pos hp, findAux_delim_none]
    constructor
    · intro hall j hj hd
      apply hall (j - pos)
      rw [delimAt_drop]
      have : pos + (j - pos) = j := by omega
      rwa [this]
    · intro hall k hd
      rw [delimAt_drop] at hd
      exact hall _ (by omega) hd
  · rw [if_neg hp]
    simp only [true_iff]
    intro j hj hd
    have : s[j]? = none := List.getElem?_eq_none (by omega)
    rw [DelimAt, this] at hd
    exact absurd hd.1 (by simp)

theorem markFinished_eq (m : Message) (c : Json) :
    m.markFinished c = .ok { m with m_isUpdating := m.m_isUpdating && !c.finishes } := by
  obtain ⟨ty, tx, td, lu, up, pt, ft, w, ws, wi, bf, fl⟩ := m
  cases c with
  | obj kvs =>
    simp only [Message.markFinished, Json.contains, Json.cindex, Json.finishes]
    cases hf : Json.lookup "finish_reason".toList kvs with
    | none => simp
    | some v => cases v <;> simp [Json.is_null]
  | _ => simp [Message.markFinished, Json.contains, Json.finishes]

theorem appendDelta_frame (m m1 : Message) (c : Json) (h : m.appendDelta c = .ok m1) :
    ∃ chunk, m1 = { m with m_textToDisplay := m.m_textToDisplay ++ chunk } := by
  unfold Message.appendDelta at h
  split at h
  · split at h
    · exact absurd h (by simp)
    · split at h
      · split at h
        · exact absurd h (by simp)
        · split at h
          · exact absurd h (by simp)
          · exact ⟨_, (Except.ok.inj h).symm⟩
      · exact ⟨[], by cases m; simp_all⟩
  · exact ⟨[], by cases m; simp_all⟩

theorem appendDelta_plain (m : Message) (c : Json) (hs : c.stringDelta = true) :
    m.appendDelta c = .ok { m with m_textToDisplay := m.m_textToDisplay ++ c.choiceText } := by
  obtain ⟨ty, tx, td, lu, up, pt, ft, w, ws, wi, bf, fl⟩ := m
  cases c with
  | obj kvs =>
    simp only [Message.appendDelta, Json.contains, Json.cindex, Json.choiceText,
      Json.deltaContent, Json.stringDelta] at hs ⊢
    cases hd : Json.lookup "delta".toList kvs with
    | none => simp only [hd]; simp
    | some d =>
      cases d with
      | obj dk =>
        simp only [hd] at hs ⊢
        cases hc : Json.lookup "content".toList dk with
        | none => simp only [hc]; simp
        | some v =>
          simp only [hc] at hs ⊢
          cases v <;> simp_all [Json.getString]
      | _ => simp only [hd]; simp
  | _ => simp [Message.appendDelta, Json.contains, Json.choiceText, Json.deltaContent]

theorem processChoice_plain (m : Message) (c : Json) (hs : c.stringDelta = true) :
    m.processChoice c = .ok { m with
      m_textToDisplay := m.m_textToDisplay ++ c.choiceText
      m_isUpdating := m.m_isUpdating && !c.finishes } := by
  simp [Message.processChoice, appendDelta_plain m c hs, markFinished_eq]

theorem processChoice_frame (m m1 : Message) (c : Json) (h : m.processChoice c = .ok m1) :
    ∃ chunk, m1 = { m with
      m_textToDisplay := m.m_textToDisplay ++ chunk
      m_isUpdating := m.m_isUpdating && !c.finishes } := by
  unfold Message.processChoice at h
  split at h
  · exact absurd h (by simp)
  · rename_i m2 h2
    obtain ⟨chunk, rfl⟩ := appendDelta_frame m m2 c h2
    rw [markFinished_eq] at h
    exact ⟨chunk, (Except.ok.inj h).symm⟩

theorem frame_length (p : Str) : (frame p).length = 6 + p.length + 2 := by
  simp [frame, dataPrefix, delim]; omega

theorem frame_getElem?_lt (p rest : Str) (k : Nat) (hk : k < 6) :
    (frame p ++ rest)[k]? = dataPrefix[k]? := by
  have : frame p ++ rest = dataPrefix ++ ((p ++ delim) ++ rest) := by simp [frame]
  rw [this, List.getElem?_append_left (by simpa [dataPrefix] using hk)]

theorem frame_getElem?_ge (p rest : Str) (k : Nat) (hk : k < p.length + 2) :
    (frame p ++ rest)[6 + k]? = (p ++ delim)[k]? := by
  have : frame p ++ rest = dataPrefix ++ ((p ++ delim) ++ rest) := by simp [frame]
  rw [this, List.getElem?_append_right (by simp [dataPrefix])]
  have h6 : 6 + k - dataPrefix.length = k := by simp [dataPrefix]
  rw [h6, List.getElem?_append_left (by simpa [delim] using hk)]

theorem frame_delimAt_iff (p rest : Str) (k : Nat) (hk : k ≤ p.length) :
    DelimAt (frame p ++ rest) (6 + k) ↔ DelimAt (p ++ delim) k := by
  unfold DelimAt
  rw [frame_getElem?_ge p rest k (by omega)]
  have : 6 + k + 1 = 6 + (k + 1) := by omega
  rw [this, frame_getElem?_ge p rest (k + 1) (by omega)]

theorem frame_not_delimAt_lt (p rest : Str) (k : Nat) (hk : k < 6) :
    ¬ DelimAt (frame p ++ rest) k := by
  intro h
  have h1 := h.1
  rw [frame_getElem?_lt p rest k hk] at h1
  interval_cases k <;> simp [dataPrefix] at h1

/-- The terminator of a frame is found where the payload ends, whatever follows the frame. -/
theorem frame_find_delim (p rest : Str) (h : find (p ++ delim) delim 0 = some p.length) :
    find (frame p ++ rest) delim 0 = some (6 + p.length) := by
  rw [find_delim_some] at h ⊢
  obtain ⟨_, hd, hmin⟩ := h
  refine ⟨by omega, (frame_delimAt_iff p rest _ (le_refl _)).2 hd, ?_⟩
  intro j _ hj hdj
  by_cases h6 : j < 6
  · exact frame_not_delimAt_lt p rest j h6 hdj
  · have hj' : j = 6 + (j - 6) := by omega
    rw [hj', frame_delimAt_iff p rest _ (by omega)] at hdj
    exact hmin (j - 6) (by omega) (by omega) hdj

theorem frame_find_data (p rest : Str) : find (frame p ++ rest) dataPrefix 0 = some 0 := by
  simp [find, frame, dataPrefix, findAux, List.isPrefixOf]

theorem frame_substr (p rest : Str) :
    substr (frame p ++ rest) (0 + 6) (6 + p.length - (0 + 6)) = p := by
  simp [substr, frame, dataPrefix]

theorem frame_erase (p rest : Str) : erase0 (frame p ++ rest) (6 + p.length + 2) = rest := by
  have hl : (frame p).length = 6 + p.length + 2 := frame_length p
  rw [erase0, ← hl, List.drop_append_of_le_length (le_refl _), List.drop_length, List.nil_append]

/-- A proper prefix of a frame holds no double line break. -/
theorem noDelim_of_proper_prefix (p x a : Str) (h : find (p ++ delim) delim 0 = some p.length)
    (hx : frame p = x ++ a) (ha : a ≠ []) : NoDelim x := by
  intro k hk
  have hf := frame_find_delim p [] h
  rw [find_delim_some] at hf
  have hlen : x.length + a.length = 6 + p.length + 2 := by
    rw [← List.length_append, ← hx, frame_length]
  have hapos : 0 < a.length := List.length_pos.2 ha
  have hk1 : k + 1 < x.length := by
    by_contra hcon
    have : x[k + 1]? = none := List.getElem?_eq_none (by omega)
    rw [DelimAt, this] at hk
    exact absurd hk.2 (by simp)
  apply hf.2.2 k (by omega) (by omega)
  rw [List.append_nil, hx]
  unfold DelimAt at hk ⊢
  rw [List.getElem?_append_left (by omega), List.getElem?_append_left hk1]
  exact hk

theorem processChoices_plain (cs : List Json) (m : Message)
    (h : ∀ c ∈ cs, c.stringDelta = true ∧ c.finishes = false) :
    m.processChoices cs = .ok { m with m_textToDisplay := m.m_textToDisplay ++ choicesText cs } := by
  induction cs generalizing m with
  | nil => cases m; simp [Message.processChoices, choicesText]
  | cons c cs ih =>
    have hc := h c (List.mem_cons_self _ _)
    rw [Message.processChoices, processChoice_plain m c hc.1]
    simp only [hc.2, Bool.not_false, Bool.and_true]
    rw [ih _ (fun c' hc' => h c' (List.mem_cons_of_mem _ hc'))]
    simp [choicesText]

theorem processChoices_frame (cs : List Json) (m m1 : Message)
    (h : m.processChoices cs = .ok m1) :
    ∃ chunk, m1 = { m with
      m_textToDisplay := m.m_textToDisplay ++ chunk
      m_isUpdating := m.m_isUpdating && !cs.any Json.finishes } := by
  induction cs generalizing m with
  | nil =>
    simp only [Message.processChoices] at h
    exact ⟨[], by cases m; cases (Except.ok.inj h); simp⟩
  | cons c cs ih =>
    rw [Message.processChoices] at h
    split at h
    · rename_i m2 h2
      obtain ⟨chunk1, rfl⟩ := processChoice_frame m m2 c h2
      obtain ⟨chunk2, rfl⟩ := ih _ h
      exact ⟨chunk1 ++ chunk2, by simp [Bool.and_assoc]⟩
    · exact absurd h (by simp)

/-- With no double line break in the buffer the loop stops at once. -/
theorem loop_noDelim (parse : Str → Option Json) (fuel : Nat) (m : Message) (log : List Json)
    (sp : Option Nat) (h : NoDelim m.m_buffer) :
    Message.setAIResponseLoop parse (fuel + 1) m log sp = .ok (m, log) := by
  cases sp with
  | none => simp [Message.setAIResponseLoop]
  | some startPos =>
    have : find m.m_buffer delim startPos = none := (find_delim_none _ _).2 (fun j _ => h j)
    simp [Message.setAIResponseLoop, this]

/-- One pass of the loop over a plain frame at the head of the buffer. -/
theorem loop_plain_frame (parse : Str → Option Json) (fuel : Nat) (m : Message)
    (log : List Json) (p rest : Str) (j : Json) (hp : PlainFrame parse p) (hj : parse p = some j)
    (hu : m.m_isUpdating = true) (hb : m.m_buffer = frame p ++ rest) :
    Message.setAIResponseLoop parse (fuel + 1) m log (find m.m_buffer dataPrefix 0) =
      Message.setAIResponseLoop parse fuel
        { m with m_textToDisplay := m.m_textToDisplay ++ frameText parse p, m_buffer := rest }
        (log ++ [j]) (find rest dataPrefix 0) := by
  obtain ⟨hfirst, j', cs, hj', hcs, hall⟩ := hp
  have hjj : j' = j := by rw [hj] at hj'; exact (Option.some.inj hj').symm
  subst hjj
  obtain ⟨ty, tx, td, lu, up, pt, ft, w, ws, wi, bf, fl⟩ := m
  simp only at hu hb
  subst hu hb
  have hft : frameText parse p = choicesText cs := by simp [frameText, hj, hcs]
  have hidx : ∃ v, Json.index j' "choices".toList = .ok v ∧ v.items = cs := by
    unfold Json.choices? at hcs
    split at hcs
    · rename_i v hv
      exact ⟨v, hv, Option.some.inj hcs⟩
    · exact absurd hcs (by simp)
  obtain ⟨v, hv, hitems⟩ := hidx
  rw [frame_find_data]
  rw [Message.setAIResponseLoop]
  simp only [frame_find_delim p rest hfirst, frame_substr, frame_erase, hj, hv, hitems,
    processChoices_plain cs _ hall, hft]
  simp


theorem stream_append (ps qs : List Str) : stream (ps ++ qs) = stream ps ++ stream qs := by
  induction ps with
  | nil => simp [stream]
  | cons p ps ih => simp [stream, ih]

theorem streamText_append (parse : Str → Option Json) (ps qs : List Str) :
    streamText parse (ps ++ qs) = streamText parse ps ++ streamText parse qs := by
  induction ps with
  | nil => simp [streamText]
  | cons p ps ih => simp [streamText, ih]

theorem length_le_stream_length (ps : List Str) : ps.length ≤ (stream ps).length := by
  induction ps with
  | nil => simp
  | cons p ps ih => simp only [stream, List.length_cons, List.length_append, frame_length]; omega

/-- The loop over a buffer made of plain frames followed by a remainder without a double
line break: every frame is consumed in order and the remainder stays in the buffer. -/
theorem loop_plain_stream (parse : Str → Option Json) (ps : List Str) :
    ∀ (fuel : Nat) (m : Message) (log : List Json) (r : Str),
      (∀ p ∈ ps, PlainFrame parse p) → NoDelim r → m.m_isUpdating = true →
      m.m_buffer = stream ps ++ r → ps.length < fuel →
      Message.setAIResponseLoop parse fuel m log (find m.m_buffer dataPrefix 0) =
        .ok ({ m with m_textToDisplay := m.m_textToDisplay ++ streamText parse ps, m_buffer := r },
          log ++ ps.filterMap parse) := by
  induction ps with
  | nil =>
    intro fuel m log r _ hr _ hb hfuel
    obtain ⟨fuel, rfl⟩ : ∃ f, fuel = f + 1 := ⟨fuel - 1, by simp at hfuel; omega⟩
    simp only [stream, List.nil_append] at hb
    rw [loop_noDelim parse fuel m log _ (by rw [hb]; exact hr)]
    cases m
    simp only at hb
    simp [streamText, hb]
  | cons p ps ih =>
    intro fuel m log r hall hr hu hb hfuel
    obtain ⟨fuel, rfl⟩ : ∃ f, fuel = f + 1 := ⟨fuel - 1, by simp at hfuel; omega⟩
    have hp := hall p (List.mem_cons_self _ _)
    obtain ⟨j, hj⟩ : ∃ j, parse p = some j := by
      obtain ⟨_, j, _, hj, _⟩ := hp
      exact ⟨j, hj⟩
    have hb' : m.m_buffer = frame p ++ (stream ps ++ r) := by simp [hb, stream]
    rw [loop_plain_frame parse fuel m log p _ j hp hj hu hb']
    have := ih fuel
      { m with m_textToDisplay := m.m_textToDisplay ++ frameText parse p, m_buffer := stream ps ++ r }
      (log ++ [j]) r (fun q hq => hall q (List.mem_cons_of_mem _ hq)) hr hu rfl
      (by simp at hfuel; omega)
    simp only at this
    rw [this]
    simp [streamText, hj]

theorem setAIResponse_not_ai (parse : Str → Option Json) (m : Message) (data : Str)
    (h : isAI m.m_type = false) : m.setAIResponse parse data = .ok m := by
  simp [Message.setAIResponse, Message.setAIResponseLog, h, Except.map]

theorem feed_not_ai (parse : Str → Option Json) (chunks : List Str) (m : Message)
    (h : isAI m.m_type = false) : feed parse m chunks = .ok m := by
  induction chunks with
  | nil => rfl
  | cons c cs ih => simp [feed, setAIResponse_not_ai parse m c h, ih]

/-- One call on an active response turn whose buffer, once the data is appended, is a run of
plain frames followed by a remainder without a double line break. -/
theorem setAIResponse_plain_stream (parse : Str → Option Json) (m : Message) (data : Str)
    (ps : List Str) (r : Str) (hai : isAI m.m_type = true) (hu : m.m_isUpdating = true)
    (hall : ∀ p ∈ ps, PlainFrame parse p) (hr : NoDelim r)
    (hb : m.m_buffer ++ data = stream ps ++ r) :
    m.setAIResponse parse data =
      .ok { m with m_textToDisplay := m.m_textToDisplay ++ streamText parse ps, m_buffer := r } := by
  have hlen : ps.length < (m.m_buffer ++ data).length + 1 := by
    have := length_le_stream_length ps
    rw [hb, List.length_append]
    omega
  have := loop_plain_stream parse ps ((m.m_buffer ++ data).length + 1)
    { m with m_buffer := m.m_buffer ++ data } [] r hall hr hu hb hlen
  simp only [Message.setAIResponse, Message.setAIResponseLog, hai, Bool.not_true,
    Bool.false_eq_true, if_false]
  rw [this]
  simp [Except.map]

theorem stream_cons_not_noDelim (parse : Str → Option Json) (p : Str) (ps : List Str)
    (hp : PlainFrame parse p) : ¬ NoDelim (stream (p :: ps)) := by
  intro h
  have := frame_find_delim p (stream ps) hp.1
  rw [find_delim_some] at this
  exact h _ this.2.1

theorem noDelim_nil : NoDelim [] := by
  intro k h
  simp [DelimAt] at h

/-- Every prefix of a stream of plain frames is a run of whole frames followed by a piece
that holds no double line break. -/
theorem prefix_decomp (parse : Str → Option Json) (ps : List Str) :
    ∀ (x y : Str), (∀ p ∈ ps, PlainFrame parse p) → x ++ y = stream ps →
      ∃ ps1 ps2 r, ps = ps1 ++ ps2 ∧ x = stream ps1 ++ r ∧ NoDelim r ∧ r ++ y = stream ps2 := by
  induction ps with
  | nil =>
    intro x y _ h
    simp only [stream, List.append_eq_nil] at h
    exact ⟨[], [], [], rfl, by simp [stream, h.1], noDelim_nil, by simp [stream, h.2]⟩
  | cons p ps ih =>
    intro x y hall h
    have hp := hall p (List.mem_cons_self _ _)
    simp only [stream] at h
    rcases List.append_eq_append_iff.1 h with ⟨a, ha, hy⟩ | ⟨c, hc, hs⟩
    · by_cases hnil : a = []
      · subst hnil
        simp only [List.append_nil] at ha
        simp only [List.nil_append] at hy
        exact ⟨[p], ps, [], rfl, by simp [stream, ha], noDelim_nil, by simp [hy]⟩
      · exact ⟨[], p :: ps, x, rfl, by simp [stream],
          noDelim_of_proper_prefix p x a hp.1 ha hnil, by simp [stream, ha, hy]⟩
    · obtain ⟨ps1, ps2, r, h1, h2, h3, h4⟩ :=
        ih c y (fun q hq => hall q (List.mem_cons_of_mem _ hq)) hs.symm
      exact ⟨p :: ps1, ps2, r, by simp [h1], by simp [stream, hc, h2], h3, h4⟩

/-- The chunks of a stream of plain frames, fed one call each to an active response turn. -/
theorem feed_plain_stream (parse : Str → Option Json) (chunks : List Str) :
    ∀ (m : Message) (ps : List Str), isAI m.m_type = true → m.m_isUpdating = true →
      NoDelim m.m_buffer → (∀ p ∈ ps, PlainFrame parse p) →
      m.m_buffer ++ concat chunks = stream ps →
      feed parse m chunks =
        .ok { m with m_textToDisplay := m.m_textToDisplay ++ streamText parse ps, m_buffer := [] } := by
  induction chunks with
  | nil =>
    intro m ps _ _ hnd hall hb
    simp only [concat, List.append_nil] at hb
    cases ps with
    | nil =>
      simp only [stream] at hb
      cases m
      simp only at hb
      simp [feed, streamText, hb]
    | cons p ps =>
      rw [hb] at hnd
      exact absurd hnd (stream_cons_not_noDelim parse p ps (hall p (List.mem_cons_self _ _)))
  | cons c cs ih =>
    intro m ps hai hu _ hall hb
    simp only [concat, ← List.append_assoc] at hb
    obtain ⟨ps1, ps2, r, hps, hx, hr, hrest⟩ := prefix_decomp parse ps _ _ hall hb
    subst hps
    have h1 := setAIResponse_plain_stream parse m c ps1 r hai hu
      (fun q hq => hall q (List.mem_append_left _ hq)) hr hx
    rw [feed, h1]
    simp only
    have h2 := ih { m with
        m_textToDisplay := m.m_textToDisplay ++ streamText parse ps1, m_buffer := r }
      ps2 hai hu hr (fun q hq => hall q (List.mem_append_right _ hq)) hrest
    rw [h2]
    simp [streamText_append]

theorem findAux_prefix_at (pat s : Str) :
    ∀ (i n : Nat), findAux pat s i = some n → ∃ k, n = i + k ∧ pat <+: s.drop k := by
  induction s with
  | nil =>
    intro i n h
    simp only [findAux] at h
    split at h
    · rename_i hp
      exact ⟨0, by simpa using (Option.some.inj h).symm, by simp [hp]⟩
    · exact absurd h (by simp)
  | cons c cs ih =>
    intro i n h
    unfold findAux at h
    split at h
    · rename_i hp
      exact ⟨0, by simpa using (Option.some.inj h).symm,
        by simpa using List.isPrefixOf_iff_prefix.1 hp⟩
    · obtain ⟨k, hk, hpre⟩ := ih _ _ h
      exact ⟨k + 1, by omega, by simpa using hpre⟩

/-- The arguments of `substr` are in range: the delimiter found from a position where
`"data: "` starts lies at least six chars further on, so `endPos - (startPos + 6)` does not
wrap around. -/
theorem delim_after_prefix (s : Str) (pos startPos endPos : Nat)
    (hs : find s dataPrefix pos = some startPos) (he : find s delim startPos = some endPos) :
    startPos + 6 ≤ endPos := by
  unfold find at hs
  split at hs
  · obtain ⟨k, hk, hpre⟩ := findAux_prefix_at _ _ _ _ hs
    rw [List.drop_drop] at hpre
    obtain ⟨hle, hd, -⟩ := (find_delim_some _ _ _).1 he
    by_contra hcon
    obtain ⟨tail, htail⟩ := hpre
    have hget : s[endPos]? = dataPrefix[endPos - startPos]? := by
      have h1 : (List.drop (pos + k) s)[endPos - startPos]? = s[endPos]? := by
        rw [List.getElem?_drop]
        congr 1
        omega
      rw [← h1, ← htail, List.getElem?_append_left (by simp [dataPrefix]; omega)]
    have h0 := hd.1
    rw [hget] at h0
    have hlt : endPos - startPos < 6 := by omega
    generalize endPos - startPos = d at h0 hlt
    interval_cases d <;> simp [dataPrefix] at h0
  · exact absurd hs (by simp)

/-! ## The loop of `setAIResponse` returns -/

theorem cindex_error (j : Json) (key : Str) (e : Fault) (h : j.cindex key = .error e) :
    e = Fault.jsonTypeError := by
  cases j with
  | obj kvs =>
    simp only [Json.cindex] at h
    split at h
    · exact absurd h (by simp)
    · exact (Except.error.inj h).symm
  | _ => exact (Except.error.inj h).symm

theorem getString_error (j : Json) (e : Fault) (h : j.getString = .error e) :
    e = Fault.jsonTypeError := by
  cases j with
  | str s => exact absurd h (by simp [Json.getString])
  | _ => exact (Except.error.inj h).symm

theorem appendDelta_error (m : Message) (c : Json) (e : Fault)
    (h : m.appendDelta c = .error e) : e = Fault.jsonTypeError := by
  unfold Message.appendDelta at h
  split at h
  · split at h
    · rename_i e1 h1
      cases Except.error.inj h
      exact cindex_error _ _ _ h1
    · split at h
      · split at h
        · rename_i e1 h1
          cases Except.error.inj h
          exact cindex_error _ _ _ h1
        · split at h
          · rename_i e1 h1
            cases Except.error.inj h
            exact getString_error _ _ h1
          · exact absurd h (by simp)
      · exact absurd h (by simp)
  · exact absurd h (by simp)

theorem processChoices_error (cs : List Json) (m : Message) (e : Fault)
    (h : m.processChoices cs = .error e) : e = Fault.jsonTypeError := by
  induction cs generalizing m with
  | nil => simp [Message.processChoices] at h
  | cons c cs ih =>
    rw [Message.processChoices] at h
    split at h
    · exact ih _ h
    · rename_i e1 h1
      cases Except.error.inj h
      unfold Message.processChoice at h1
      split at h1
      · rename_i e2 h2
        cases Except.error.inj h1
        exact appendDelta_error m c _ h2
      · rw [markFinished_eq] at h1
        exact absurd h1 (by simp)

theorem index_error (j : Json) (key : Str) (e : Fault) (h : j.index key = .error e) :
    e = Fault.jsonTypeError := by
  cases j <;> simp only [Json.index] at h
  all_goals first
    | (cases Except.error.inj h; rfl)
    | exact absurd h (by simp)

/-- The loop never runs out of fuel when started with more fuel than the buffer is long: it
returns, or a JSON type error escapes. -/
theorem loop_returns (parse : Str → Option Json) (fuel : Nat) :
    ∀ (m : Message) (log : List Json) (sp : Option Nat), m.m_buffer.length < fuel →
      (∃ r, Message.setAIResponseLoop parse fuel m log sp = .ok r) ∨
        Message.setAIResponseLoop parse fuel m log sp = .error Fault.jsonTypeError := by
  induction fuel with
  | zero => intro m log sp h; exact absurd h (by omega)
  | succ fuel ih =>
    intro m log sp hlen
    cases sp with
    | none => exact Or.inl ⟨(m, log), by simp [Message.setAIResponseLoop]⟩
    | some startPos =>
      rw [Message.setAIResponseLoop]
      split
      · exact Or.inl ⟨_, rfl⟩
      · rename_i endPos hfind
        have hd := ((find_delim_some _ _ _).1 hfind).2.1
        have hend : endPos + 1 < m.m_buffer.length := by
          by_contra hcon
          have : m.m_buffer[endPos + 1]? = none := List.getElem?_eq_none (by omega)
          rw [DelimAt, this] at hd
          exact absurd hd.2 (by simp)
        have hshort : (erase0 m.m_buffer (endPos + 2)).length < fuel := by
          simp only [erase0, List.length_drop]
          omega
        simp only
        split
        · exact ih { m with m_buffer := erase0 m.m_buffer (endPos + 2) } log _ hshort
        · rename_i parsed _
          split
          · rename_i e he
            rw [index_error _ _ _ he]
            exact Or.inr rfl
          · split
            · rename_i e he
              rw [processChoices_error _ _ _ he]
              exact Or.inr rfl
            · rename_i m2 hm2
              obtain ⟨chunk, rfl⟩ := processChoices_frame _ _ _ hm2
              split
              · exact Or.inl ⟨_, rfl⟩
              · exact ih _ _ _ hshort

/-! ## The active flag after the loop -/

theorem processChoices_keeps_active (cs : List Json) (m m1 : Message)
    (h : m.processChoices cs = .ok m1) :
    m1.m_isUpdating = (m.m_isUpdating && !cs.any Json.finishes) := by
  obtain ⟨chunk, rfl⟩ := processChoices_frame cs m m1 h
  rfl

theorem frameFinishes_of_index (j v : Json) (h : j.index "choices".toList = .ok v) :
    j.frameFinishes ↔ v.items.any Json.finishes = true := by
  unfold Json.frameFinishes Json.choices?
  rw [h]
  simp only [Option.some.injEq, List.any_eq_true]
  constructor
  · rintro ⟨cs, rfl, c, hc, hf⟩
    exact ⟨c, hc, hf⟩
  · rintro ⟨c, hc, hf⟩
    exact ⟨_, rfl, c, hc, hf⟩

/-- The loop leaves the turn inactive exactly when a frame it processed finishes. -/
theorem loop_inactive_iff (parse : Str → Option Json) (fuel : Nat) :
    ∀ (m : Message) (log : List Json) (sp : Option Nat) (m1 : Message) (log1 : List Json),
      m.m_isUpdating = true → (∀ j ∈ log, ¬ j.frameFinishes) →
      Message.setAIResponseLoop parse fuel m log sp = .ok (m1, log1) →
      (m1.m_isUpdating = false ↔ ∃ j ∈ log1, j.frameFinishes) := by
  induction fuel with
  | zero =>
    intro m log sp m1 log1 hu hlog h
    cases sp with
    | none =>
      simp only [Message.setAIResponseLoop, Except.ok.injEq, Prod.mk.injEq] at h
      obtain ⟨rfl, rfl⟩ := h
      simp only [hu, Bool.true_eq_false, false_iff, not_exists, not_and]
      exact hlog
    | some s => simp [Message.setAIResponseLoop] at h
  | succ fuel ih =>
    intro m log sp m1 log1 hu hlog h
    have hstop : ∀ (m1 : Message) (log1 : List Json), (m, log) = (m1, log1) →
        (m1.m_isUpdating = false ↔ ∃ j ∈ log1, j.frameFinishes) := by
      intro m1 log1 he
      obtain ⟨rfl, rfl⟩ := Prod.mk.inj he
      simp only [hu, Bool.true_eq_false, false_iff, not_exists, not_and]
      exact hlog
    cases sp with
    | none =>
      simp only [Message.setAIResponseLoop, Except.ok.injEq] at h
      exact hstop _ _ h
    | some startPos =>
      rw [Message.setAIResponseLoop] at h
      split at h
      · exact hstop _ _ (Except.ok.inj h)
      · rename_i endPos _
        simp only at h
        split at h
        · exact ih { m with m_buffer := erase0 m.m_buffer (endPos + 2) } log _ m1 log1 hu hlog h
        · rename_i parsed _
          split at h
          · exact absurd h (by simp)
          · rename_i choices hch
            split at h
            · exact absurd h (by simp)
            · rename_i m2 hm2
              have hupd := processChoices_keeps_active _ _ _ hm2
              simp only [hu, Bool.true_and] at hupd
              have hff := frameFinishes_of_index parsed choices hch
              split at h
              · rename_i hnot
                obtain ⟨rfl, rfl⟩ := Prod.mk.inj (Except.ok.inj h)
                have hm2f : m2.m_isUpdating = false := by simpa using hnot
                constructor
                · intro _
                  refine ⟨parsed, by simp, hff.2 ?_⟩
                  rw [hm2f] at hupd
                  simpa using hupd.symm
                · intro _
                  exact hm2f
              · rename_i hnot
                have hm2t : m2.m_isUpdating = true := by simpa using hnot
                refine ih m2 (log ++ [parsed]) _ m1 log1 hm2t ?_ h
                intro j hj
                rcases List.mem_append.1 hj with hj | hj
                · exact hlog j hj
                · rw [List.mem_singleton.1 hj, hff]
                  rw [hm2t] at hupd
                  simpa using hupd.symm

/-! ## Claims on `setAIResponse` -/

theorem plainFrame_textA : PlainFrame sampleParse textA :=
  ⟨by decide, sampleChunk "A", _, rfl, rfl, by decide⟩

theorem plainFrame_textB : PlainFrame sampleParse textB :=
  ⟨by decide, sampleChunk "B", _, rfl, rfl, by decide⟩

theorem plainFrame_samples : ∀ p ∈ [textA, textB], PlainFrame sampleParse p := by
  intro p hp
  simp only [List.mem_cons, List.mem_singleton, List.not_mem_nil, or_false] at hp
  rcases hp with rfl | rfl
  · exact plainFrame_textA
  · exact plainFrame_textB

/-- C1 (amended): for every AI-response turn that is still active and has an empty buffer, and
every input made only of complete frames whose JSON parses, has no blank line starting inside
it, has string content deltas and no non-null finish_reason, one call to `setAIResponse`
appends to `m_textToDisplay` exactly the content deltas of all choices, in frame order then
choice order, and leaves the buffer empty. -/
theorem setAIResponse_appends_all_deltas (parse : Str → Option Json) (m : Message)
    (ps : List Str) (hai : isAI m.m_type = true) (hu : m.isUpdating = true)
    (hbuf : m.m_buffer = []) (hall : ∀ p ∈ ps, PlainFrame parse p) :
    m.setAIResponse parse (stream ps) =
      .ok { m with m_textToDisplay := m.m_textToDisplay ++ streamText parse ps, m_buffer := [] } :=
  setAIResponse_plain_stream parse m (stream ps) ps [] hai hu hall noDelim_nil (by simp [hbuf])

/-- C1, witness: a fresh response turn fed the frames with deltas "A" and "B" shows "AB". -/
theorem setAIResponse_appends_all_deltas_witness :
    streamText sampleParse [textA, textB] = "AB".toList ∧
    freshResponse.setAIResponse sampleParse (stream [textA, textB]) =
      .ok { freshResponse with
        m_textToDisplay := freshResponse.m_textToDisplay ++ streamText sampleParse [textA, textB]
        m_buffer := [] } :=
  ⟨by decide,
    setAIResponse_appends_all_deltas sampleParse freshResponse [textA, textB] rfl rfl rfl
      plainFrame_samples⟩

/-- C1, counterexample: a response turn with an empty buffer that is no longer active (its
stream ended with a finish_reason frame) consumes only the first of two plain frames: the
display text grows by "A" instead of "AB" and the second frame stays in the buffer. -/
theorem setAIResponse_inactive_counterexample :
    freshResponse.setAIResponse sampleParse (frame textStop) = .ok finishedResponse ∧
    isAI finishedResponse.m_type = true ∧ finishedResponse.m_buffer = [] ∧
    (∀ p ∈ [textA, textB], PlainFrame sampleParse p) ∧
    streamText sampleParse [textA, textB] = "AB".toList ∧
    finishedResponse.setAIResponse sampleParse (stream [textA, textB]) =
      .ok { finishedResponse with m_textToDisplay := "A".toList, m_buffer := frame textB } ∧
    finishedResponse.setAIResponse sampleParse (stream [textA, textB]) ≠
      .ok { finishedResponse with
        m_textToDisplay := finishedResponse.m_textToDisplay ++ streamText sampleParse [textA, textB]
        m_buffer := [] } := by
  refine ⟨by rfl, by rfl, by rfl, plainFrame_samples, by decide, by rfl, ?_⟩
  have h : finishedResponse.setAIResponse sampleParse (stream [textA, textB]) =
      .ok { finishedResponse with m_textToDisplay := "A".toList, m_buffer := frame textB } := by
    rfl
  rw [h]
  intro hcon
  have := congrArg (fun r => r.toOption.map Message.m_buffer) hcon
  revert this
  decide

/-- C2: for every stream made of complete plain frames (well-formed, no finish_reason) and
every way of cutting it into consecutive chunks, feeding the chunks one call each to a turn
that is active with an empty buffer gives the same result (display text, buffer and all
other fields) as feeding the whole stream in one call, and that call returns. -/
theorem setAIResponse_chunking_invariant (parse : Str → Option Json) (m : Message)
    (ps : List Str) (chunks : List Str) (hu : m.isUpdating = true) (hbuf : m.m_buffer = [])
    (hall : ∀ p ∈ ps, PlainFrame parse p) (hcut : concat chunks = stream ps) :
    feed parse m chunks = m.setAIResponse parse (stream ps) ∧
      ∃ m1, m.setAIResponse parse (stream ps) = .ok m1 := by
  by_cases hai : isAI m.m_type = true
  · rw [setAIResponse_plain_stream parse m (stream ps) ps [] hai hu hall noDelim_nil
      (by simp [hbuf])]
    refine ⟨?_, _, rfl⟩
    exact feed_plain_stream parse chunks m ps hai hu (by rw [hbuf]; exact noDelim_nil) hall
      (by simp [hbuf, hcut])
  · have hai' : isAI m.m_type = false := by simpa using hai
    rw [setAIResponse_not_ai parse m _ hai', feed_not_ai parse chunks m hai']
    exact ⟨rfl, _, rfl⟩

/-- C2, witness: the sample stream cut inside the prefix, inside the JSON and between the
two line breaks. -/
theorem setAIResponse_chunking_invariant_witness :
    concat sampleChunks = stream [textA, textB] ∧
    feed sampleParse freshResponse sampleChunks =
      freshResponse.setAIResponse sampleParse (stream [textA, textB]) ∧
    ∃ m1, freshResponse.setAIResponse sampleParse (stream [textA, textB]) = .ok m1 :=
  ⟨by decide,
    setAIResponse_chunking_invariant sampleParse freshResponse [textA, textB] sampleChunks
      rfl rfl plainFrame_samples (by decide)⟩

/-- C3, the code at the failing input: after the malformed frame `data: [DONE]` the search
for the next frame starts at the stale offset `endPos` of the already shortened buffer. With
one well-formed frame behind it, that frame is not processed in the call; with two, the
first is erased unprocessed and only "B" reaches the display text. -/
theorem setAIResponse_skips_frame_after_malformed :
    sampleParse textDone = none ∧
    freshResponse.setAIResponse sampleParse (frame textDone ++ frame textA) =
      .ok { freshResponse with m_textToDisplay := [], m_buffer := frame textA } ∧
    freshResponse.setAIResponse sampleParse (frame textDone ++ frame textA ++ frame textB) =
      .ok { freshResponse with m_textToDisplay := "B".toList, m_buffer := [] } :=
  ⟨by rfl, by rfl, by rfl⟩

/-- C4: for every AI-response turn that is active before the call, `setAIResponse` returns
(or a JSON type error escapes; it never loops on), and when it returns `isUpdating()` is false
afterwards if and only if some frame processed in that call (a frame in the call's log) has a
choice whose finish_reason is present and non-null; processing the choices of a frame none
of which has such a finish_reason leaves the turn's active flag as it was. -/
theorem setAIResponse_inactive_iff_finish (parse : Str → Option Json) (m : Message)
    (data : Str) (hai : isAI m.m_type = true) (hu : m.isUpdating = true) :
    ((∃ r, m.setAIResponseLog parse data = .ok r) ∨
      m.setAIResponseLog parse data = .error Fault.jsonTypeError) ∧
    (∀ (m1 : Message) (log : List Json), m.setAIResponseLog parse data = .ok (m1, log) →
      m.setAIResponse parse data = .ok m1 ∧
      (m1.isUpdating = false ↔ ∃ j ∈ log, j.frameFinishes)) ∧
    (∀ (cs : List Json) (m2 m3 : Message), (∀ c ∈ cs, c.finishes = false) →
      m2.processChoices cs = .ok m3 → m3.isUpdating = m2.isUpdating) := by
  refine ⟨?_, ?_, ?_⟩
  · simp only [Message.setAIResponseLog, hai, Bool.not_true, Bool.false_eq_true, if_false]
    exact loop_returns parse _ { m with m_buffer := m.m_buffer ++ data } [] _ (by simp)
  · intro m1 log h
    refine ⟨by simp [Message.setAIResponse, h, Except.map], ?_⟩
    simp only [Message.setAIResponseLog, hai, Bool.not_true, Bool.false_eq_true, if_false] at h
    exact loop_inactive_iff parse _ { m with m_buffer := m.m_buffer ++ data } [] _ m1 log hu
      (by simp) h
  · intro cs m2 m3 hcs hp
    have := processChoices_keeps_active cs m2 m3 hp
    have hany : cs.any Json.finishes = false := by
      rw [List.any_eq_false]
      intro c hc
      simp [hcs c hc]
    simpa [Message.isUpdating, hany] using this

/-- C4, witness: a content frame followed by the final frame; the log holds both frames and
the turn ends inactive. -/
theorem setAIResponse_inactive_iff_finish_witness :
    isAI freshResponse.m_type = true ∧ freshResponse.isUpdating = true ∧
    freshResponse.setAIResponseLog sampleParse (frame textA ++ frame textStop) =
      .ok ({ finishedResponse with m_textToDisplay := "A".toList },
        [sampleChunk "A", jsonStop]) ∧
    (Message.isUpdating { finishedResponse with m_textToDisplay := "A".toList } = false ↔
      ∃ j ∈ [sampleChunk "A", jsonStop], j.frameFinishes) :=
  ⟨rfl, rfl, by rfl,
    ((setAIResponse_inactive_iff_finish sampleParse freshResponse
      (frame textA ++ frame textStop) rfl rfl).2.1
      { finishedResponse with m_textToDisplay := "A".toList }
      [sampleChunk "A", jsonStop] (by rfl)).2⟩

/-- C5, the code at the failing input: a frame with finish_reason "stop" makes the turn
inactive, yet a content frame delivered by a later call is still processed ("A" is appended
to the display text); likewise a frame that followed the final frame in the same call stays
in the buffer and is processed by the next call, whatever that call delivers. -/
theorem setAIResponse_processes_frame_after_finish :
    freshResponse.setAIResponse sampleParse (frame textStop) = .ok finishedResponse ∧
    finishedResponse.isUpdating = false ∧ finishedResponse.m_textToDisplay = [] ∧
    finishedResponse.setAIResponse sampleParse (frame textA) =
      .ok { finishedResponse with m_textToDisplay := "A".toList } ∧
    freshResponse.setAIResponse sampleParse (frame textStop ++ frame textA) =
      .ok { finishedResponse with m_buffer := frame textA } ∧
    Message.setAIResponse sampleParse { finishedResponse with m_buffer := frame textA }
        (frame textDone) =
      .ok { finishedResponse with m_textToDisplay := "A".toList, m_buffer := frame textDone } :=
  ⟨by rfl, by rfl, by rfl, by rfl, by rfl, by rfl⟩

/-! ## The sentence producer against the cut of the text -/

theorem findFirstOf_some_cut (s : Str) :
    ∀ (acc : Str) (i n : Nat), findFirstOfAux terminators s i = some n →
      ∃ e, n = i + e ∧ e < s.length ∧
        cutAfter acc s = (acc ++ s.take (e + 1)) :: cutAfter [] (s.drop (e + 1)) := by
  induction s with
  | nil => intro acc i n h; simp [findFirstOfAux] at h
  | cons c cs ih =>
    intro acc i n h
    unfold findFirstOfAux at h
    by_cases hc : c ∈ terminators
    · rw [if_pos hc] at h
      exact ⟨0, by simpa using (Option.some.inj h).symm, by simp, by simp [cutAfter, hc]⟩
    · rw [if_neg hc] at h
      obtain ⟨e, he, hlt, hcut⟩ := ih (acc ++ [c]) (i + 1) n h
      exact ⟨e + 1, by omega, by simpa using hlt, by simp [cutAfter, hc, hcut]⟩

theorem findFirstOf_none_cut (s : Str) :
    ∀ (acc : Str) (i : Nat), findFirstOfAux terminators s i = none → cutAfter acc s = [] := by
  induction s with
  | nil => intro acc i _; rfl
  | cons c cs ih =>
    intro acc i h
    unfold findFirstOfAux at h
    by_cases hc : c ∈ terminators
    · rw [if_pos hc] at h
      exact absurd h (by simp)
    · rw [if_neg hc] at h
      simp [cutAfter, hc, ih (acc ++ [c]) (i + 1) h]

theorem findFirstOf_append (chars s s1 : Str) :
    ∀ (i n : Nat), findFirstOfAux chars s i = some n →
      findFirstOfAux chars (s ++ s1) i = some n := by
  induction s with
  | nil => intro i n h; simp [findFirstOfAux] at h
  | cons c cs ih =>
    intro i n h
    simp only [List.cons_append, findFirstOfAux] at h ⊢
    by_cases hc : c ∈ chars
    · simpa [hc] using h
    · simp only [hc, if_false] at h ⊢
      exact ih _ _ h

/-- What one pass does, read against the full text `full` of which `text` is a prefix. -/
theorem producerPass_spec (full text : Str) (updating : Bool) (played : Nat)
    (hpre : text <+: full) (hpl : played ≤ text.length) (hfull : updating = false → text = full) :
    (∃ b pl, producerPass text updating played = .ok (.emit b pl) ∧ pl ≤ text.length ∧
        sentences (full.drop played) = b :: sentences (full.drop pl)) ∨
      (producerPass text updating played = .ok .wait ∧ updating = true) ∨
      (producerPass text updating played = .ok .finished ∧ sentences (full.drop played) = []) := by
  obtain ⟨tail, rfl⟩ := hpre
  simp only [producerPass, find_first_of]
  rw [if_neg (by omega)]
  cases hf : findFirstOfAux terminators (text.drop played) 0 with
  | some n =>
    left
    have hf2 := findFirstOf_append terminators _ tail 0 n hf
    obtain ⟨e, he, -, hcut⟩ := findFirstOf_some_cut _ [] 0 n hf2
    obtain ⟨e1, he1, hlt1, -⟩ := findFirstOf_some_cut _ [] 0 n hf
    have hee : e = n := by omega
    have hee1 : e1 = n := by omega
    rw [hee] at hcut
    rw [hee1] at hlt1
    have hlen : n + 1 ≤ (text.drop played).length := by omega
    refine ⟨_, _, rfl, ?_, ?_⟩
    · simp only [List.length_drop] at hlen
      omega
    · simp only [sentences]
      rw [List.drop_append_of_le_length hpl, hcut]
      simp only [List.nil_append, substr, List.drop_zero]
      rw [List.take_append_of_le_length hlen, ← List.drop_append_of_le_length hpl,
        List.drop_drop]
  | none =>
    cases updating with
    | true => right; left; exact ⟨rfl, rfl⟩
    | false =>
      right; right
      refine ⟨rfl, ?_⟩
      have ht := hfull rfl
      have : tail = [] := by simpa using ht
      subst this
      simp only [List.append_nil] at hf ⊢
      exact findFirstOf_none_cut _ [] 0 hf

/-- The producer's invariant against the full text: the units pushed so far, followed by the
sentences of the text not yet consumed, are the sentences of the full text. -/
theorem producerRun_invariant (full : Str) (obs : List (Str × Bool)) :
    ∀ (prev : Str) (p : Producer), Arrives full prev obs → prev <+: full →
      p.played ≤ prev.length → p.emitted ++ sentences (full.drop p.played) = sentences full →
      (p.producerFinished = true → sentences (full.drop p.played) = []) →
      ∃ p1, producerRun obs p = .ok p1 ∧ p1.played ≤ full.length ∧
        p1.emitted ++ sentences (full.drop p1.played) = sentences full ∧
        (p1.producerFinished = true → sentences (full.drop p1.played) = []) := by
  induction obs with
  | nil =>
    intro prev p _ hprev hpl hinv hfin
    exact ⟨p, rfl, le_trans hpl hprev.length_le, hinv, hfin⟩
  | cons o obs ih =>
    intro prev p harr hprev hpl hinv hfin
    obtain ⟨text, updating⟩ := o
    obtain ⟨h1, h2, h3, h4⟩ := harr
    have hpl' : p.played ≤ text.length := le_trans hpl h1.length_le
    unfold producerRun
    by_cases hf : p.producerFinished = true
    · rw [if_pos hf]
      exact ⟨p, rfl, le_trans hpl hprev.length_le, hinv, hfin⟩
    · rw [if_neg hf]
      rcases producerPass_spec full text updating p.played h2 hpl' h3 with
        ⟨b, pl, hp, hle, hs⟩ | ⟨hp, _⟩ | ⟨hp, hs⟩
      · rw [hp]
        simp only
        apply ih text _ h4 h2 hle
        · simp only [List.append_assoc, List.singleton_append, ← hs, hinv]
        · intro hfin'
          exact absurd hfin' hf
      · rw [hp]
        simp only
        exact ih text p h4 h2 hpl' hinv hfin
      · rw [hp]
        simp only
        exact ⟨_, rfl, le_trans hpl hprev.length_le, hinv, fun _ => hs⟩

theorem producerRun_cons (text : Str) (updating : Bool) (rest : List (Str × Bool))
    (p : Producer) :
    producerRun ((text, updating) :: rest) p =
      if p.producerFinished then .ok p
      else
        match producerPass text updating p.played with
        | .error e => .error e
        | .ok (.emit tts_buffer played) =>
          producerRun rest { p with played := played, emitted := p.emitted ++ [tts_buffer] }
        | .ok .wait => producerRun rest p
        | .ok .finished => .ok { p with producerFinished := true } := by
  rw [producerRun]

theorem producerRun_append (a b : List (Str × Bool)) :
    ∀ (p p1 : Producer), producerRun a p = .ok p1 →
      producerRun (a ++ b) p = producerRun b p1 ∨
        (p1.producerFinished = true ∧ producerRun (a ++ b) p = .ok p1) := by
  induction a with
  | nil =>
    intro p p1 h
    left
    simp only [producerRun, Except.ok.injEq] at h
    simp [h]
  | cons o a ih =>
    intro p p1 h
    obtain ⟨text, updating⟩ := o
    simp only [List.cons_append]
    rw [producerRun_cons] at h ⊢
    by_cases hf : p.producerFinished = true
    · rw [if_pos hf] at h ⊢
      right
      cases Except.ok.inj h
      exact ⟨hf, rfl⟩
    · rw [if_neg hf] at h ⊢
      split at h
      · exact absurd h (by simp)
      · exact ih _ _ h
      · exact ih _ _ h
      · right
        cases Except.ok.inj h
        exact ⟨rfl, rfl⟩

/-- Once the full text is visible and the turn inactive, the producer pushes the remaining
sentences and finishes within one pass per sentence plus one. -/
theorem producerRun_tail (full : Str) (n : Nat) :
    ∀ (p : Producer), p.played ≤ full.length →
      p.emitted ++ sentences (full.drop p.played) = sentences full →
      (p.producerFinished = true → sentences (full.drop p.played) = []) →
      (sentences (full.drop p.played)).length < n →
      ∃ p1, producerRun (List.replicate n (full, false)) p = .ok p1 ∧
        p1.emitted = sentences full ∧ p1.producerFinished = true := by
  induction n with
  | zero => intro p _ _ _ h; exact absurd h (by omega)
  | succ n ih =>
    intro p hpl hinv hfin hn
    simp only [List.replicate_succ]
    unfold producerRun
    by_cases hf : p.producerFinished = true
    · rw [if_pos hf]
      refine ⟨p, rfl, ?_, hf⟩
      rw [← hinv, hfin hf, List.append_nil]
    · rw [if_neg hf]
      rcases producerPass_spec full full false p.played (List.prefix_refl _) hpl (fun _ => rfl) with
        ⟨b, pl, hp, hle, hs⟩ | ⟨_, hu⟩ | ⟨hp, hs⟩
      · rw [hp]
        simp only
        apply ih
        · exact hle
        · simp only [List.append_assoc, List.singleton_append, ← hs, hinv]
        · intro hfin'
          exact absurd hfin' hf
        · rw [hs] at hn
          simpa using hn
      · exact absurd hu (by simp)
      · rw [hp]
        simp only
        refine ⟨_, rfl, ?_, rfl⟩
        rw [← hinv, hs, List.append_nil]

theorem cutAfter_units (s : Str) :
    ∀ (acc : Str), (∀ d ∈ acc, d ∉ terminators) → ∀ u ∈ cutAfter acc s,
      ∃ body c, u = body ++ [c] ∧ c ∈ terminators ∧ ∀ d ∈ body, d ∉ terminators := by
  induction s with
  | nil => intro acc _ u hu; simp [cutAfter] at hu
  | cons c cs ih =>
    intro acc hacc u hu
    unfold cutAfter at hu
    by_cases hc : c ∈ terminators
    · rw [if_pos hc] at hu
      rcases List.mem_cons.1 hu with rfl | hu
      · exact ⟨acc, c, rfl, hc, hacc⟩
      · exact ih [] (by simp) u hu
    · rw [if_neg hc] at hu
      apply ih (acc ++ [c]) _ u hu
      intro d hd
      rcases List.mem_append.1 hd with hd | hd
      · exact hacc d hd
      · rw [List.mem_singleton.1 hd]; exact hc

theorem cutAfter_length (s : Str) :
    ∀ (acc : Str), (cutAfter acc s).length = s.countP (fun c => decide (c ∈ terminators)) := by
  induction s with
  | nil => intro acc; rfl
  | cons c cs ih =>
    intro acc
    unfold cutAfter
    by_cases hc : c ∈ terminators
    · rw [if_pos hc, List.length_cons, ih, List.countP_cons_of_pos _ _ (by simpa using hc)]
    · rw [if_neg hc, ih, List.countP_cons_of_neg _ _ (by simpa using hc)]

theorem cutAfter_concat (s : Str) :
    ∀ (acc : Str), (∀ d ∈ acc, d ∉ terminators) →
      ∃ rest, acc ++ s = concat (cutAfter acc s) ++ rest ∧ ∀ d ∈ rest, d ∉ terminators := by
  induction s with
  | nil => intro acc hacc; exact ⟨acc, by simp [cutAfter, concat], hacc⟩
  | cons c cs ih =>
    intro acc hacc
    unfold cutAfter
    by_cases hc : c ∈ terminators
    · rw [if_pos hc]
      obtain ⟨rest, h1, h2⟩ := ih [] (by simp)
      refine ⟨rest, ?_, h2⟩
      simp only [List.nil_append] at h1
      simp [concat, ← h1]
    · rw [if_neg hc]
      obtain ⟨rest, h1, h2⟩ := ih (acc ++ [c]) (by
        intro d hd
        rcases List.mem_append.1 hd with hd | hd
        · exact hacc d hd
        · rw [List.mem_singleton.1 hd]; exact hc)
      exact ⟨rest, by simpa using h1, h2⟩

/-! ## Claims on the sentence producer -/

/-- The producer against per-pass observations: when every pass reads a growing prefix of the
text and a pass sees the turn inactive only together with the full text, the producer never
fails, the units it has pushed are at every point an initial run of the sentences of the
text, and once the full text is visible with the turn inactive it pushes exactly the
sentences, in order, and finishes. The sentences are the segments cut immediately after each
terminator: each ends with a terminator and holds no other, there are as many as terminator
characters, concatenated they are the text up to a terminator-free remainder, which is in no
unit. For "A. B! C?" they are "A.", " B!", " C?". -/
theorem producer_emits_sentences (full : Str) (obs : List (Str × Bool)) (n : Nat)
    (harr : Arrives full [] obs) (hn : (sentences full).length < n) :
    (∃ p, producerRun obs Producer.start = .ok p ∧ p.emitted <+: sentences full ∧
      (p.producerFinished = true → p.emitted = sentences full)) ∧
    (∃ p, producerRun (obs ++ List.replicate n (full, false)) Producer.start = .ok p ∧
      p.emitted = sentences full ∧ p.producerFinished = true) ∧
    (∀ u ∈ sentences full, ∃ body c, u = body ++ [c] ∧ c ∈ terminators ∧
      ∀ d ∈ body, d ∉ terminators) ∧
    (sentences full).length = full.countP (fun c => decide (c ∈ terminators)) ∧
    (∃ rest, full = concat (sentences full) ++ rest ∧ ∀ d ∈ rest, d ∉ terminators) ∧
    sentences "A. B! C?".toList = ["A.".toList, " B!".toList, " C?".toList] := by
  obtain ⟨p, hrun, hpl, hinv, hfin⟩ := producerRun_invariant full obs [] Producer.start harr
    List.nil_prefix (by simp [Producer.start]) (by simp [Producer.start])
    (by simp [Producer.start])
  refine ⟨⟨p, hrun, ⟨_, hinv⟩, ?_⟩, ?_, cutAfter_units full [] (by simp), cutAfter_length full [],
    by simpa using cutAfter_concat full [] (by simp), by decide⟩
  · intro hf
    rw [← hinv, hfin hf, List.append_nil]
  · rcases producerRun_append obs (List.replicate n (full, false)) _ _ hrun with h | ⟨hf, h⟩
    · rw [h]
      apply producerRun_tail full n p hpl hinv hfin
      have : (sentences (full.drop p.played)).length ≤ (sentences full).length := by
        rw [← hinv, List.length_append]
        omega
      omega
    · exact ⟨p, h, by rw [← hinv, hfin hf, List.append_nil], hf⟩

/-- The text "A. B! C?" arriving as "A", "A. B", "A. B! C?" and then seen complete. -/
theorem producer_emits_sentences_witness :
    Arrives "A. B! C?".toList [] sampleArrival ∧
    (sentences "A. B! C?".toList).length < 4 ∧
    ∃ p, producerRun (sampleArrival ++ List.replicate 4 ("A. B! C?".toList, false))
        Producer.start = .ok p ∧
      p.emitted = sentences "A. B! C?".toList ∧ p.producerFinished = true :=
  have harr : Arrives "A. B! C?".toList [] sampleArrival := by
    simp only [sampleArrival, Arrives]
    decide
  ⟨harr, by decide,
    (producer_emits_sentences "A. B! C?".toList sampleArrival 4 harr (by decide)).2.1⟩

/-! ## Claims on the transcript setters and the message handler -/

theorem call_text (m : Message) (c : TranscriptCall) :
    (m.call c).getText = (m.call c).m_finalTranscript ++ (m.call c).m_partialTranscript := by
  cases c with
  | setPartial transcript now => rfl
  | setFinal transcript now =>
    simp only [Message.call, Message.setFinalTranscript, Message.getText]
    split
    · simp
    · split <;> split <;> simp

/-- C7: for every turn and every finite sequence of `setPartialTranscript` and
`setFinalTranscript` calls, after each call the displayed text is the accumulated final
transcript followed by the current partial transcript. -/
theorem transcript_text_is_final_then_partial (m : Message) (cs : List TranscriptCall)
    (c : TranscriptCall) :
    ((m.calls cs).call c).getText =
      ((m.calls cs).call c).m_finalTranscript ++ ((m.calls cs).call c).m_partialTranscript :=
  call_text (m.calls cs) c

theorem onJson_of_event (t : IXTranscriber) (j : Json) (kind : String) (text : Str)
    (now sysNow : Nat) (hev : IsTranscriptEvent j kind text) :
    IXTranscriber.onJson t j now sysNow =
      if kind.toList = "PartialTranscript".toList then
        IXTranscriber.onPartialTranscript t j now sysNow
      else if kind.toList = "FinalTranscript".toList then
        IXTranscriber.onFinalTranscript t j now sysNow
      else if kind.toList = "SessionBegins".toList then IXTranscriber.onSessionBegins t j now
      else .ok t := by
  obtain ⟨h1, h2, _⟩ := hev
  simp only [IXTranscriber.onJson, h1, h2, Bool.false_eq_true, if_false, ite_self]

/-- C8 (amended): for every FinalTranscript event with a non-empty text handled by
`on_message`, afterwards the bound turn's partial text is empty and its final transcript is
the previous one followed by the event's text; an event with an empty text leaves the
session and the bound turn unchanged. -/
theorem on_message_final_transcript (parse : Str → Option Json) (t : IXTranscriber)
    (msg : WebSocketMessage) (j : Json) (text : Str) (now sysNow : Nat) (m : Message)
    (hty : msg.type = WebSocketMessageType.Message) (hparse : parse msg.str = some j)
    (hev : IsTranscriptEvent j "FinalTranscript" text) (hm : t.m_message = some m) :
    (text ≠ [] → ∃ t1 m1, IXTranscriber.on_message parse t msg now sysNow = .ok t1 ∧
      t1.m_message = some m1 ∧ m1.m_partialTranscript = [] ∧
      m1.m_finalTranscript = m.m_finalTranscript ++ text) ∧
    (text = [] → IXTranscriber.on_message parse t msg now sysNow = .ok t) := by
  have hon : IXTranscriber.on_message parse t msg now sysNow =
      IXTranscriber.onFinalTranscript t j now sysNow := by
    simp only [IXTranscriber.on_message, hty, hparse]
    rw [onJson_of_event t j _ text now sysNow hev]
    rw [if_neg (by decide), if_pos rfl]
  rw [hon]
  simp only [IXTranscriber.onFinalTranscript, hev.2.2, hm]
  constructor
  · intro hne
    have hemp : text.isEmpty = false := by
      cases text with
      | nil => exact absurd rfl hne
      | cons c cs => rfl
    simp only [hemp, Bool.not_false, if_true]
    refine ⟨_, m.setFinalTranscript text sysNow, rfl, ?_, ?_, ?_⟩
    · simp only [IXTranscriber.resetPause]
      split <;> rfl
    · simp only [Message.setFinalTranscript]
      split
      · rfl
      · split <;> split <;> rfl
    · simp only [Message.setFinalTranscript]
      split
      · rfl
      · split <;> split <;> rfl
  · intro he
    simp [he]

/-- C8, witness: the final transcript "hi" delivered to a fresh user turn. -/
theorem on_message_final_transcript_witness :
    "hi".toList ≠ [] ∧
    ∃ t1 m1, IXTranscriber.on_message sampleParse (listeningSession userTurn 0)
        (textMessage textFinalHi) 5 5 = .ok t1 ∧
      t1.m_message = some m1 ∧ m1.m_partialTranscript = [] ∧
      m1.m_finalTranscript = userTurn.m_finalTranscript ++ "hi".toList :=
  ⟨by decide,
    (on_message_final_transcript sampleParse (listeningSession userTurn 0)
      (textMessage textFinalHi) (transcriptEvent "FinalTranscript" "hi") "hi".toList 5 5 userTurn
      rfl rfl ⟨rfl, rfl, rfl⟩ rfl).1 (by decide)⟩

/-- C8, counterexample: a FinalTranscript event with an empty text reaches a turn whose
partial text is "hel"; the handler skips it, so the partial text is still "hel", not empty. -/
theorem on_message_empty_final_counterexample :
    IXTranscriber.on_message sampleParse (listeningSession userTurn 0)
        (textMessage textPartialHel) 1 1 =
      .ok (listeningSession (userTurn.setPartialTranscript "hel".toList 1) 1) ∧
    IsTranscriptEvent (transcriptEvent "FinalTranscript" "") "FinalTranscript" [] ∧
    IXTranscriber.on_message sampleParse
        (listeningSession (userTurn.setPartialTranscript "hel".toList 1) 1)
        (textMessage textFinalEmpty) 2 2 =
      .ok (listeningSession (userTurn.setPartialTranscript "hel".toList 1) 1) ∧
    (userTurn.setPartialTranscript "hel".toList 1).m_partialTranscript = "hel".toList ∧
    (userTurn.setPartialTranscript "hel".toList 1).m_partialTranscript ≠ [] :=
  ⟨by rfl, ⟨rfl, rfl, rfl⟩, by rfl, by rfl, by decide⟩

/-- C9 (amended): for a bound, active user-utterance turn, an empty PartialTranscript handled
by `on_message` deactivates the turn if and only if a non-empty final transcript has been
received and at least 2000 ms have elapsed since the pause timer `m_pauseStartTime` was last
set; otherwise the turn stays active. -/
theorem on_message_empty_partial (parse : Str → Option Json) (t : IXTranscriber)
    (msg : WebSocketMessage) (j : Json) (now sysNow : Nat) (m : Message)
    (hty : msg.type = WebSocketMessageType.Message) (hparse : parse msg.str = some j)
    (hev : IsTranscriptEvent j "PartialTranscript" []) (hm : t.m_message = some m)
    (huser : m.getType = MessageType.UserTranscription) (hact : m.isUpdating = true) :
    ∃ t1 m1, IXTranscriber.on_message parse t msg now sysNow = .ok t1 ∧
      t1.m_message = some m1 ∧
      (m1.isUpdating = false ↔
        (m.receivedFinal = true ∧ 2000 * ticksPerMs ≤ now - t.m_pauseStartTime)) := by
  have hon : IXTranscriber.on_message parse t msg now sysNow =
      IXTranscriber.onPartialTranscript t j now sysNow := by
    simp only [IXTranscriber.on_message, hty, hparse]
    rw [onJson_of_event t j _ [] now sysNow hev]
    rw [if_pos rfl]
  have hthr : t.isPauseDurationExceeded now = true ↔
      2000 * ticksPerMs ≤ now - t.m_pauseStartTime := by
    simp only [IXTranscriber.isPauseDurationExceeded, m_pauseThreshold, ticksPerSecond,
      ticksPerMs, decide_eq_true_eq]
    omega
  rw [hon]
  simp only [IXTranscriber.onPartialTranscript, hev.2.2, hm, List.isEmpty_nil, Bool.not_true,
    Bool.false_eq_true, if_false, huser, decide_True, Bool.true_and]
  by_cases hrf : m.receivedFinal = true
  · rw [if_pos hrf]
    by_cases hex : t.isPauseDurationExceeded now = true
    · rw [if_pos hex]
      refine ⟨_, _, rfl, rfl, ?_⟩
      have hact' : m.m_isUpdating = true := hact
      simp [Message.stopUpdating, Message.isUpdating, hact', hrf, hthr.1 hex]
    · rw [if_neg hex]
      refine ⟨_, _, rfl, hm, ?_⟩
      simp only [hact, Bool.true_eq_false, false_iff, not_and]
      intro _ hle
      exact hex (hthr.2 hle)
  · rw [if_neg hrf]
    refine ⟨_, _, rfl, hm, ?_⟩
    simp only [hact, Bool.true_eq_false, false_iff, not_and]
    intro h
    exact absurd h hrf

/-- C9, witness: 2000 ms after the final transcript "hi" an empty partial transcript
deactivates the turn. -/
theorem on_message_empty_partial_witness :
    ∃ t1 m1, IXTranscriber.on_message sampleParse
        (listeningSession (userTurn.setFinalTranscript "hi".toList 0) 0)
        (textMessage textPartialEmpty) (2000 * ticksPerMs) 7 = .ok t1 ∧
      t1.m_message = some m1 ∧
      (m1.isUpdating = false ↔
        ((userTurn.setFinalTranscript "hi".toList 0).receivedFinal = true ∧
          2000 * ticksPerMs ≤
            2000 * ticksPerMs -
              (listeningSession (userTurn.setFinalTranscript "hi".toList 0) 0).m_pauseStartTime)) :=
  on_message_empty_partial sampleParse
    (listeningSession (userTurn.setFinalTranscript "hi".toList 0) 0)
    (textMessage textPartialEmpty) (transcriptEvent "PartialTranscript" "") (2000 * ticksPerMs) 7
    (userTurn.setFinalTranscript "hi".toList 0) rfl rfl ⟨rfl, rfl, rfl⟩ rfl rfl rfl

/-- C9, counterexample: the final transcript "hi" arrives at time 0, a SessionBegins event at
1500 ms restarts the pause timer, and the empty partial transcript at 2500 ms, which is
2500 ms after the last non-empty transcript event, leaves the turn active. -/
theorem on_message_session_begins_counterexample :
    IXTranscriber.on_message sampleParse (listeningSession userTurn 0)
        (textMessage textFinalHi) 0 0 =
      .ok (listeningSession (userTurn.setFinalTranscript "hi".toList 0) 0) ∧
    IXTranscriber.on_message sampleParse
        (listeningSession (userTurn.setFinalTranscript "hi".toList 0) 0)
        (textMessage textSessionBegins) (1500 * ticksPerMs) 1 =
      .ok (listeningSession (userTurn.setFinalTranscript "hi".toList 0) (1500 * ticksPerMs)) ∧
    IXTranscriber.on_message sampleParse
        (listeningSession (userTurn.setFinalTranscript "hi".toList 0) (1500 * ticksPerMs))
        (textMessage textPartialEmpty) (2500 * ticksPerMs) 2 =
      .ok (listeningSession (userTurn.setFinalTranscript "hi".toList 0) (1500 * ticksPerMs)) ∧
    (userTurn.setFinalTranscript "hi".toList 0).receivedFinal = true ∧
    (userTurn.setFinalTranscript "hi".toList 0).isUpdating = true ∧
    2000 * ticksPerMs ≤ 2500 * ticksPerMs - 0 :=
  ⟨by rfl, by rfl, by rfl, by rfl, by rfl, by decide⟩

/-- A final transcript that contains the lower-case phrase "i have control" sets a turn of
kind studentAssertingControl inactive. -/
theorem setFinalTranscript_lower_case_phrase (m : Message) (transcript : Str) (now : Nat)
    (hty : m.getType = MessageType.studentAssertingControl)
    (hfound : Message.found transcript "i have control" = true) :
    (m.setFinalTranscript transcript now).isUpdating = false := by
  have hty' : m.m_type = MessageType.studentAssertingControl := hty
  simp only [Message.setFinalTranscript, hty', Message.studentAssertedControl, hfound,
    Message.isUpdating]
  simp only [reduceCtorEq, if_false, decide_True, Bool.and_self, Bool.true_or, if_true]
  split <;> rfl

/-- C10, the code at the failing input: the final transcript "I have control." delivered to a
fresh (active) turn of kind studentAssertingControl matches none of the lower-case phrase
literals, so the turn stays active; the same words in lower case, "i have control.",
deactivate it. -/
theorem setFinalTranscript_capital_I_stays_active :
    (Message.new MessageType.studentAssertingControl 0).isUpdating = true ∧
    Message.studentAssertedControl (Message.new MessageType.studentAssertingControl 0)
      "I have control.".toList = false ∧
    ((Message.new MessageType.studentAssertingControl 0).setFinalTranscript
      "I have control.".toList 1).isUpdating = true ∧
    ((Message.new MessageType.studentAssertingControl 0).setFinalTranscript
      "i have control.".toList 1).isUpdating = false :=
  ⟨by rfl, by decide, by decide, by decide⟩

/-! ## Claims on the control phrases -/

/-- A final transcript that holds none of the five assertion phrases and none of the four
relinquish phrases tested without the kind check leaves an asserting turn's flag as it was. -/
theorem setFinalTranscript_no_phrase (m : Message) (transcript : Str) (now : Nat)
    (hty : m.getType = MessageType.studentAssertingControl)
    (h1 : Message.found transcript "i have control" = false)
    (h2 : Message.found transcript "i have the control" = false)
    (h3 : Message.found transcript "i have the flight controls" = false)
    (h4 : Message.found transcript "i have the flight control" = false)
    (h5 : Message.found transcript "i have the controls" = false)
    (h6 : Message.found transcript "you have the control" = false)
    (h7 : Message.found transcript "you have the flight controls" = false)
    (h8 : Message.found transcript "you have the flight control" = false)
    (h9 : Message.found transcript "you have the controls" = false) :
    (m.setFinalTranscript transcript now).isUpdating = m.isUpdating := by
  have hty' : m.m_type = MessageType.studentAssertingControl := hty
  simp [Message.setFinalTranscript, hty', Message.studentAssertedControl,
    Message.studentRelinquishedControl, Message.isUpdating, h1, h2, h3, h4, h5, h6, h7, h8, h9]

/-- C11, the code at the failing input: the final transcript "you have the controls" holds
none of the five assertion phrases, yet it deactivates an active turn of kind
studentAssertingControl, because `studentRelinquishedControl` applies its kind check to the
first phrase only. The transcript "I think control is fine." leaves the turn active. -/
theorem setFinalTranscript_relinquish_phrase_on_asserting_turn :
    (Message.new MessageType.studentAssertingControl 0).isUpdating = true ∧
    Message.found "you have the controls".toList "i have control" = false ∧
    Message.found "you have the controls".toList "i have the control" = false ∧
    Message.found "you have the controls".toList "i have the controls" = false ∧
    Message.found "you have the controls".toList "i have the flight control" = false ∧
    Message.found "you have the controls".toList "i have the flight controls" = false ∧
    Message.studentRelinquishedControl (Message.new MessageType.studentAssertingControl 0)
      "you have the controls".toList = true ∧
    ((Message.new MessageType.studentAssertingControl 0).setFinalTranscript
      "you have the controls".toList 1).isUpdating = false ∧
    ((Message.new MessageType.studentAssertingControl 0).setFinalTranscript
      "I think control is fine.".toList 1).isUpdating = true :=
  ⟨by rfl, by decide, by decide, by decide, by decide, by decide, by decide, by decide,
    by decide⟩

/-! ## The response pipeline: queue and logs -/

theorem playedFront_append_unplayed (q : List TextAudioPair) (u : TextAudioPair)
    (hu : u.played = false) : playedFront (q ++ [u]) = playedFront q := by
  cases q with
  | nil => simp [playedFront, hu]
  | cons p q => simp [playedFront]

theorem playedFront_unplayed (q : List TextAudioPair) (h : ∀ p ∈ q, p.played = false) :
    playedFront q = [] := by
  cases q with
  | nil => rfl
  | cons p q => simp [playedFront, h p (List.mem_cons_self _ _)]

theorem queueInv_start (now : Nat) : (Pipeline.start now).QueueInv := by
  simp [Pipeline.QueueInv, Pipeline.start, playedFront]

theorem queueInv_step (s : Pipeline) (a : PipelineAction) (h : s.QueueInv) :
    (s.step a).QueueInv := by
  obtain ⟨h1, h2, h3, h4⟩ := h
  unfold Pipeline.step
  split
  · exact ⟨h1, h2, h3, h4⟩
  · cases a with
    | chatAppend chunk => exact ⟨h1, h2, h3, h4⟩
    | chatFinish => exact ⟨h1, h2, h3, h4⟩
    | producerReadText =>
      simp only [Pipeline.producerReadText]
      split <;> exact ⟨h1, h2, h3, h4⟩
    | producerDecide =>
      simp only [Pipeline.producerDecide]
      split
      · split <;> exact ⟨h1, h2, h3, h4⟩
      · exact ⟨h1, h2, h3, h4⟩
    | producerPush =>
      simp only [Pipeline.producerPush]
      split
      · refine ⟨?_, ?_, ?_, ?_⟩
        · simp [h1, TextAudioPair.key]
        · rw [playedFront_append_unplayed s.textAudioPairs _ rfl]
          exact h2
        · intro p hp
          cases hq : s.textAudioPairs with
          | nil => simp [hq] at hp
          | cons x q =>
            rw [hq] at hp h3
            simp only [List.cons_append, List.tail_cons, List.mem_append,
              List.mem_singleton] at hp h3
            rcases hp with hp | hp
            · exact h3 p hp
            · rw [hp]
        · simp [h4, List.range_succ]
      · exact ⟨h1, h2, h3, h4⟩
    | playerPass =>
      simp only [Pipeline.playerPass]
      split
      · split
        · rename_i front rest hq
          rw [hq] at h1 h2 h3
          refine ⟨by simpa [TextAudioPair.key] using h1, ?_, by simpa using h3, h4⟩
          by_cases hp : front.played = true
          · simp [playedFront, hp, TextAudioPair.key] at h2 ⊢
            exact h2
          · simp [playedFront, hp, TextAudioPair.key] at h2 ⊢
            exact h2
        · split <;> exact ⟨h1, h2, h3, h4⟩
      · exact ⟨h1, h2, h3, h4⟩
    | playbackEnds =>
      simp only [Pipeline.playbackEnds]
      split <;> exact ⟨h1, h2, h3, h4⟩
    | displayPass =>
      simp only [Pipeline.displayPass]
      split
      · split
        · rename_i front rest hq
          rw [hq] at h1 h2 h3
          split
          · rename_i hp
            have hrest : ∀ p ∈ rest, p.played = false := by simpa using h3
            refine ⟨by simpa using h1, ?_, ?_, h4⟩
            · simp only [playedFront_unplayed rest hrest, List.append_nil]
              simpa [playedFront, hp] using h2
            · intro p hp'
              exact hrest p (List.mem_of_mem_tail hp')
          · exact ⟨hq ▸ h1, hq ▸ h2, hq ▸ h3, h4⟩
        · split <;> exact ⟨h1, h2, h3, h4⟩
      · exact ⟨h1, h2, h3, h4⟩
    | displayWord =>
      simp only [Pipeline.displayWord]
      split <;> exact ⟨h1, h2, h3, h4⟩

theorem queueInv_run (acts : List PipelineAction) :
    ∀ (s : Pipeline), s.QueueInv → (s.run acts).QueueInv := by
  induction acts with
  | nil => intro s h; exact h
  | cons a acts ih =>
    intro s h
    exact ih _ (queueInv_step s a h)

theorem playedFront_isPrefix (q : List TextAudioPair) :
    playedFront q <+: q.map TextAudioPair.key := by
  cases q with
  | nil => exact List.nil_prefix
  | cons p q =>
    simp only [playedFront]
    split
    · exact ⟨q.map TextAudioPair.key, rfl⟩
    · exact List.nil_prefix

/-- C12: in every interleaving of the producer, player and display steps, the units whose
playback was started, in the order the player first flagged them, and the units removed for
reveal, in the order the display thread erased them, are initial runs of the units in the
order the producer pushed them; the revealed units are an initial run of the started ones. -/
theorem pipeline_preserves_unit_order (now : Nat) (acts : List PipelineAction) :
    ((Pipeline.start now).run acts).started <+: ((Pipeline.start now).run acts).created ∧
    ((Pipeline.start now).run acts).erased <+: ((Pipeline.start now).run acts).created ∧
    ((Pipeline.start now).run acts).erased <+: ((Pipeline.start now).run acts).started := by
  obtain ⟨h1, h2, -, -⟩ := queueInv_run acts _ (queueInv_start now)
  refine ⟨?_, ?_, ?_⟩
  · rw [h1, h2]
    exact (List.prefix_append_right_inj _).2 (playedFront_isPrefix _)
  · rw [h1]
    exact List.prefix_append _ _
  · rw [h2]
    exact List.prefix_append _ _

theorem revealInv_start (now : Nat) : (Pipeline.start now).RevealInv := by
  simp [Pipeline.RevealInv, Pipeline.start]

theorem revealInv_step (s : Pipeline) (a : PipelineAction) (h : s.RevealInv) :
    (s.step a).RevealInv := by
  obtain ⟨h1, h2⟩ := h
  unfold Pipeline.step
  split
  · exact ⟨h1, h2⟩
  · cases a with
    | chatAppend chunk => exact ⟨h1, h2⟩
    | chatFinish => exact ⟨h1, h2⟩
    | producerReadText =>
      simp only [Pipeline.producerReadText]
      split <;> exact ⟨h1, h2⟩
    | producerDecide =>
      simp only [Pipeline.producerDecide]
      split
      · split <;> exact ⟨h1, h2⟩
      · exact ⟨h1, h2⟩
    | producerPush =>
      simp only [Pipeline.producerPush]
      split <;> exact ⟨h1, h2⟩
    | playerPass =>
      simp only [Pipeline.playerPass]
      split
      · split
        · exact ⟨h1, h2⟩
        · split <;> exact ⟨h1, h2⟩
      · exact ⟨h1, h2⟩
    | playbackEnds =>
      simp only [Pipeline.playbackEnds]
      split <;> exact ⟨h1, h2⟩
    | displayPass =>
      simp only [Pipeline.displayPass]
      split
      · split
        · split
          · refine ⟨?_, ?_⟩
            · intro id hid
              simp only [List.map_append, List.mem_append]
              exact Or.inl (h1 id hid)
            · intro id ws hd
              simp only [List.map_append, List.mem_append, List.map_cons, List.map_nil,
                List.mem_singleton, TextAudioPair.key]
              right
              split at hd
              · exact absurd hd (by simp)
              · simp only [DisplayPc.revealing.injEq] at hd
                exact hd.1.symm
          · exact ⟨h1, h2⟩
        · split
          · exact ⟨h1, fun id ws hd => absurd hd (by simp)⟩
          · exact ⟨h1, h2⟩
      · exact ⟨h1, h2⟩
    | displayWord =>
      simp only [Pipeline.displayWord]
      split
      · rename_i audioData word rest hd
        have hmem := h2 _ _ hd
        refine ⟨?_, ?_⟩
        · intro id hid
          rcases List.mem_append.1 hid with hid | hid
          · exact h1 id hid
          · rw [List.mem_singleton.1 hid]
            exact hmem
        · intro id ws hd'
          split at hd'
          · exact absurd hd' (by simp)
          · simp only [DisplayPc.revealing.injEq] at hd'
            rw [← hd'.1]
            exact hmem
      · exact ⟨h1, fun id ws hd => absurd hd (by simp)⟩
      · exact ⟨h1, h2⟩

theorem revealInv_run (acts : List PipelineAction) :
    ∀ (s : Pipeline), s.RevealInv → (s.run acts).RevealInv := by
  induction acts with
  | nil => intro s h; exact h
  | cons a acts ih =>
    intro s h
    exact ih _ (revealInv_step s a h)

/-- C13: in every interleaving, every word the display thread has appended to the turn's
revealed text comes from a unit whose `played` flag the player thread had set before (the
unit is in the log of started units). -/
theorem reveal_only_after_play_started (now : Nat) (acts : List PipelineAction) (id : Nat)
    (h : id ∈ ((Pipeline.start now).run acts).wordLog) :
    id ∈ (((Pipeline.start now).run acts).started).map Prod.fst := by
  obtain ⟨-, h2, -, -⟩ := queueInv_run acts _ (queueInv_start now)
  obtain ⟨h3, -⟩ := revealInv_run acts _ (revealInv_start now)
  rw [h2, List.map_append, List.mem_append]
  exact Or.inl (h3 id h)

/-- C13, witness: after the response "Hi." has been pushed, started, erased and its word
appended, the word log holds unit 0 and unit 0 is among the started units. -/
theorem reveal_only_after_play_started_witness :
    ((Pipeline.start 0).run (sampleInterleaving ++ [PipelineAction.displayWord])).wordLog = [0] ∧
    0 ∈ (((Pipeline.start 0).run
      (sampleInterleaving ++ [PipelineAction.displayWord])).started).map Prod.fst :=
  ⟨by decide,
    reveal_only_after_play_started 0 (sampleInterleaving ++ [PipelineAction.displayWord]) 0
      (by decide)⟩

/-- The display thread's critical section removes a unit only when it is the front unit with
its `played` flag set; none of its words has been appended at that moment. -/
theorem displayPass_erases_started_front (s : Pipeline) (hq : s.QueueInv) (hr : s.RevealInv)
    (h : s.displayPass.textAudioPairs ≠ s.textAudioPairs) :
    ∃ front rest, s.textAudioPairs = front :: rest ∧
      front.played = true ∧ front.key ∈ s.started ∧
      s.displayPass.textAudioPairs = rest ∧
      s.displayPass.erased = s.erased ++ [front.key] ∧
      front.audioData ∉ s.displayPass.wordLog := by
  obtain ⟨h1, h2, -, h4⟩ := hq
  obtain ⟨h3, -⟩ := hr
  cases hd : s.display with
  | idle =>
    cases hq : s.textAudioPairs with
    | nil =>
      exfalso
      apply h
      simp only [Pipeline.displayPass, hd, hq]
      split <;> simp [hq]
    | cons front rest =>
      by_cases hp : front.played = true
      · refine ⟨front, rest, rfl, hp, ?_, ?_, ?_, ?_⟩
        · rw [h2, hq]
          simp [playedFront, hp]
        · simp [Pipeline.displayPass, hd, hq, hp]
        · simp [Pipeline.displayPass, hd, hq, hp]
        · simp only [Pipeline.displayPass, hd, hq, hp, if_true]
          intro hw
          have hmem := h3 _ hw
          have hnd : (s.created.map Prod.fst).Nodup := by
            rw [h4]
            exact List.nodup_range _
          rw [h1, hq] at hnd
          simp only [List.map_append, List.map_cons, TextAudioPair.key] at hnd
          have := (List.nodup_append.1 hnd).2.2
          exact this hmem (List.mem_cons_self _ _)
      · exfalso
        apply h
        simp [Pipeline.displayPass, hd, hq, hp]
  | revealing id ws =>
    exfalso
    apply h
    simp [Pipeline.displayPass, hd]
  | exited =>
    exfalso
    apply h
    simp [Pipeline.displayPass, hd]

/-- Only the display thread's critical section makes the queue shorter. -/
theorem step_shortens_queue (s : Pipeline) (a : PipelineAction)
    (h : (s.step a).textAudioPairs.length < s.textAudioPairs.length) :
    a = PipelineAction.displayPass ∧ s.step a = s.displayPass := by
  unfold Pipeline.step at h ⊢
  split at h
  · exact absurd h (by omega)
  · rename_i hf
    rw [if_neg hf]
    cases a with
    | chatAppend chunk => exact absurd h (by simp [Pipeline.chatAppend])
    | chatFinish => exact absurd h (by simp [Pipeline.chatFinish])
    | producerReadText =>
      simp only [Pipeline.producerReadText] at h
      split at h <;> exact absurd h (by simp)
    | producerDecide =>
      simp only [Pipeline.producerDecide] at h
      split at h
      · split at h <;> exact absurd h (by simp)
      · exact absurd h (by simp)
    | producerPush =>
      simp only [Pipeline.producerPush] at h
      split at h
      · exact absurd h (by simp)
      · exact absurd h (by simp)
    | playerPass =>
      simp only [Pipeline.playerPass] at h
      split at h
      · split at h
        · rename_i hq
          exact absurd h (by simp [hq])
        · split at h <;> exact absurd h (by simp)
      · exact absurd h (by simp)
    | playbackEnds =>
      simp only [Pipeline.playbackEnds] at h
      split at h <;> exact absurd h (by simp)
    | displayPass => exact ⟨rfl, rfl⟩
    | displayWord =>
      simp only [Pipeline.displayWord] at h
      split at h <;> exact absurd h (by simp)

/-- C14 (amended): in every interleaving, whenever an action removes a unit from
`textAudioPairs`, the action is the display thread's critical section, the unit is the front
unit and its `played` flag is set, so the player thread has started its playback before; at
that moment none of its words has been appended to the revealed text yet. -/
theorem unit_erased_only_after_play_started (now : Nat) (acts : List PipelineAction)
    (a : PipelineAction)
    (h : ((((Pipeline.start now).run acts).step a).textAudioPairs).length <
      (((Pipeline.start now).run acts).textAudioPairs).length) :
    a = PipelineAction.displayPass ∧
    ∃ front rest, ((Pipeline.start now).run acts).textAudioPairs = front :: rest ∧
      front.played = true ∧ front.key ∈ ((Pipeline.start now).run acts).started ∧
      (((Pipeline.start now).run acts).step a).textAudioPairs = rest ∧
      (((Pipeline.start now).run acts).step a).erased =
        ((Pipeline.start now).run acts).erased ++ [front.key] ∧
      front.audioData ∉ (((Pipeline.start now).run acts).step a).wordLog := by
  obtain ⟨ha, hs⟩ := step_shortens_queue _ a h
  refine ⟨ha, ?_⟩
  rw [hs] at h ⊢
  exact displayPass_erases_started_front _ (queueInv_run acts _ (queueInv_start now))
    (revealInv_run acts _ (revealInv_start now)) (by
      intro he
      rw [he] at h
      exact absurd h (by omega))

/-- C14, witness: the sample interleaving without its last action stands right before the
display thread erases unit 0. -/
theorem unit_erased_only_after_play_started_witness :
    (((Pipeline.start 0).run sampleInterleaving.dropLast).step
        PipelineAction.displayPass).textAudioPairs.length <
      ((Pipeline.start 0).run sampleInterleaving.dropLast).textAudioPairs.length ∧
    ∃ front rest, ((Pipeline.start 0).run sampleInterleaving.dropLast).textAudioPairs =
        front :: rest ∧
      front.played = true ∧
      front.key ∈ ((Pipeline.start 0).run sampleInterleaving.dropLast).started ∧
      (((Pipeline.start 0).run sampleInterleaving.dropLast).step
        PipelineAction.displayPass).textAudioPairs = rest ∧
      (((Pipeline.start 0).run sampleInterleaving.dropLast).step
        PipelineAction.displayPass).erased =
        ((Pipeline.start 0).run sampleInterleaving.dropLast).erased ++ [front.key] ∧
      front.audioData ∉ (((Pipeline.start 0).run sampleInterleaving.dropLast).step
        PipelineAction.displayPass).wordLog :=
  ⟨by decide,
    (unit_erased_only_after_play_started 0 sampleInterleaving.dropLast
      PipelineAction.displayPass (by decide)).2⟩

/-- C14, counterexample: in the sample interleaving the display thread erases the unit "Hi."
while the player thread is still inside `playAudio` for it and before any word of it has
been appended to the revealed text. -/
theorem erase_before_reveal_counterexample :
    ((Pipeline.start 0).run sampleInterleaving.dropLast).textAudioPairs =
      [{ text := "Hi.".toList, audioData := 0, played := true }] ∧
    ((Pipeline.start 0).run sampleInterleaving).textAudioPairs = [] ∧
    ((Pipeline.start 0).run sampleInterleaving).erased = [(0, "Hi.".toList)] ∧
    ((Pipeline.start 0).run sampleInterleaving).player = PlayerPc.playing 0 ∧
    ((Pipeline.start 0).run sampleInterleaving).display =
      DisplayPc.revealing 0 ["Hi.".toList] ∧
    ((Pipeline.start 0).run sampleInterleaving).message.getText = [] :=
  ⟨by decide, by decide, by decide, by decide, by decide, by decide⟩

/-! ## The response pipeline: lengths -/

theorem producerPass_emit (text : Str) (updating : Bool) (played pl : Nat) (b : Str)
    (h : producerPass text updating played = .ok (.emit b pl)) :
    pl = played + b.length ∧ pl ≤ text.length := by
  simp only [producerPass, find_first_of] at h
  split at h
  · exact absurd h (by simp)
  · rename_i hlen
    split at h
    · rename_i e he
      obtain ⟨e1, he1, hlt, -⟩ := findFirstOf_some_cut _ [] 0 e he
      simp only [Except.ok.injEq, ProducerStep.emit.injEq] at h
      obtain ⟨hb, hpl⟩ := h
      simp only [List.length_drop] at hlt
      subst hb
      subst hpl
      simp only [substr, List.drop_zero, List.length_take, List.length_drop]
      omega
    · split at h <;> exact absurd h (by simp)

theorem wordsAux_total (s : Str) :
    ∀ (cur : Str), wordsTotal (wordsAux cur s) ≤ cur.length + s.length + 1 := by
  induction s with
  | nil =>
    intro cur
    simp only [wordsAux]
    split
    · simp [wordsTotal]
    · simp [wordsTotal]
  | cons c cs ih =>
    intro cur
    simp only [wordsAux]
    split
    · split
      · have := ih []
        simp only [List.length_nil, List.length_cons] at this ⊢
        omega
      · have := ih []
        simp only [wordsTotal, List.length_nil, List.length_cons] at this ⊢
        omega
    · have := ih (cur ++ [c])
      simp only [List.length_append, List.length_singleton, List.length_cons,
        List.length_nil] at this ⊢
      omega

theorem istreamWords_total (text : Str) : wordsTotal (istreamWords text) ≤ text.length + 1 := by
  have := wordsAux_total text []
  simpa [istreamWords] using this

theorem textsLength_append (us vs : List (Nat × Str)) :
    textsLength (us ++ vs) = textsLength us + textsLength vs := by
  induction us with
  | nil => simp [textsLength]
  | cons u us ih => simp [textsLength, ih]; omega

theorem lengthInv_start (now : Nat) : (Pipeline.start now).LengthInv := by
  simp [Pipeline.LengthInv, Pipeline.start, Message.new, textsLength, ProducerPc.pending,
    DisplayPc.pending]

theorem lengthInv_step (s : Pipeline) (a : PipelineAction) (h : s.LengthInv) :
    (s.step a).LengthInv := by
  obtain ⟨h1, h2, h3, h4⟩ := h
  unfold Pipeline.step
  split
  · exact ⟨h1, h2, h3, h4⟩
  · cases a with
    | chatAppend chunk =>
      refine ⟨h1, ?_, ?_, h4⟩
      · simp only [Pipeline.chatAppend, List.length_append]
        omega
      · intro text ht
        have := h3 text ht
        simp only [Pipeline.chatAppend, List.length_append]
        omega
    | chatFinish => exact ⟨h1, h2, h3, h4⟩
    | producerReadText =>
      simp only [Pipeline.producerReadText]
      split
      · rename_i hp
        refine ⟨?_, h2, ?_, h4⟩
        · simpa [hp, ProducerPc.pending] using h1
        · intro text ht
          simp only [ProducerPc.holding.injEq] at ht
          simp [← ht, Message.getUndisplayedText]
      · exact ⟨h1, h2, h3, h4⟩
    | producerDecide =>
      simp only [Pipeline.producerDecide]
      split
      · rename_i text hp
        have htext := h3 text hp
        rw [hp] at h1
        simp only [ProducerPc.pending, Nat.add_zero] at h1
        split
        · exact ⟨by simpa [ProducerPc.pending] using h1, h2, fun t ht => absurd ht (by simp), h4⟩
        · rename_i tts pl hpass
          obtain ⟨hpl, hle⟩ := producerPass_emit _ _ _ _ _ hpass
          refine ⟨?_, ?_, fun t ht => absurd ht (by simp), h4⟩
          · simp only [ProducerPc.pending]
            omega
          · simp only
            omega
        · exact ⟨by simpa [ProducerPc.pending] using h1, h2, fun t ht => absurd ht (by simp), h4⟩
        · exact ⟨by simpa [ProducerPc.pending] using h1, h2, fun t ht => absurd ht (by simp), h4⟩
      · exact ⟨h1, h2, h3, h4⟩
    | producerPush =>
      simp only [Pipeline.producerPush]
      split
      · rename_i tts hp
        rw [hp] at h1
        refine ⟨?_, h2, fun t ht => absurd ht (by simp), h4⟩
        simp only [ProducerPc.pending, textsLength_append, textsLength] at h1 ⊢
        omega
      · exact ⟨h1, h2, h3, h4⟩
    | playerPass =>
      simp only [Pipeline.playerPass]
      split
      · split
        · exact ⟨h1, h2, h3, h4⟩
        · split <;> exact ⟨h1, h2, h3, h4⟩
      · exact ⟨h1, h2, h3, h4⟩
    | playbackEnds =>
      simp only [Pipeline.playbackEnds]
      split <;> exact ⟨h1, h2, h3, h4⟩
    | displayPass =>
      simp only [Pipeline.displayPass]
      split
      · rename_i hd
        rw [hd] at h4
        simp only [DisplayPc.pending, Nat.add_zero] at h4
        split
        · rename_i front rest hq
          split
          · refine ⟨h1, h2, h3, ?_⟩
            have hw := istreamWords_total front.text
            simp only [textsLength_append, textsLength, List.length_append,
              List.length_singleton, TextAudioPair.key, Nat.add_zero]
            split
            · simp only [DisplayPc.pending]
              omega
            · simp only [DisplayPc.pending]
              omega
          · exact ⟨h1, h2, h3, by simpa [hd, DisplayPc.pending] using h4⟩
        · split
          · exact ⟨h1, h2, h3, by simpa [DisplayPc.pending] using h4⟩
          · exact ⟨h1, h2, h3, by simpa [hd, DisplayPc.pending] using h4⟩
      · exact ⟨h1, h2, h3, h4⟩
    | displayWord =>
      simp only [Pipeline.displayWord]
      split
      · rename_i audioData word rest hd
        rw [hd] at h4
        refine ⟨h1, h2, h3, ?_⟩
        simp only [DisplayPc.pending, wordsTotal] at h4
        simp only [Message.addWordToText, List.length_append, List.length_singleton]
        split
        · rename_i hr
          simp only [DisplayPc.pending]
          rw [hr] at h4
          simp only [wordsTotal] at h4
          omega
        · simp only [DisplayPc.pending]
          omega
      · rename_i hd
        rw [hd] at h4
        exact ⟨h1, h2, h3, by simpa [DisplayPc.pending, wordsTotal] using h4⟩
      · exact ⟨h1, h2, h3, h4⟩

theorem lengthInv_run (acts : List PipelineAction) :
    ∀ (s : Pipeline), s.LengthInv → (s.run acts).LengthInv := by
  induction acts with
  | nil => intro s h; exact h
  | cons a acts ih =>
    intro s h
    exact ih _ (lengthInv_step s a h)

/-- C15 (amended): for a response turn, in every interleaving the revealed text (`getText()`,
built by `addWordToText`) is never longer than the display text received so far
(`getUndisplayedText()`) plus one char per unit erased for reveal: every word is appended
with a trailing space, which a unit's text need not hold. -/
theorem revealed_length_bound (now : Nat) (acts : List PipelineAction) :
    ((Pipeline.start now).run acts).message.getText.length ≤
      ((Pipeline.start now).run acts).message.getUndisplayedText.length +
        ((Pipeline.start now).run acts).erased.length := by
  obtain ⟨h1, -, -, -⟩ := queueInv_run acts _ (queueInv_start now)
  obtain ⟨h5, h6, -, h8⟩ := lengthInv_run acts _ (lengthInv_start now)
  have hle : textsLength ((Pipeline.start now).run acts).erased ≤
      textsLength ((Pipeline.start now).run acts).created := by
    rw [h1, textsLength_append]
    omega
  simp only [Message.getText, Message.getUndisplayedText]
  omega

/-- C15, counterexample: the response "Hi." is revealed as "Hi. ", four chars against the
three of the display text. -/
theorem revealed_longer_counterexample :
    ((Pipeline.start 0).run
      (sampleInterleaving ++ [PipelineAction.displayWord])).message.getUndisplayedText =
        "Hi.".toList ∧
    ((Pipeline.start 0).run
      (sampleInterleaving ++ [PipelineAction.displayWord])).message.getText = "Hi. ".toList ∧
    ¬ ((Pipeline.start 0).run
      (sampleInterleaving ++ [PipelineAction.displayWord])).message.getText.length ≤
      ((Pipeline.start 0).run
        (sampleInterleaving ++ [PipelineAction.displayWord])).message.getUndisplayedText.length :=
  ⟨by decide, by decide, by decide⟩

/-! ## The producer between its two reads -/

theorem step_after_exit (s : Pipeline) (a : PipelineAction)
    (h : s.producer = ProducerPc.exited) :
    (s.step a).producer = ProducerPc.exited ∧ (s.step a).created = s.created := by
  unfold Pipeline.step
  split
  · exact ⟨h, rfl⟩
  · cases a with
    | chatAppend chunk => exact ⟨h, rfl⟩
    | chatFinish => exact ⟨h, rfl⟩
    | producerReadText => simp [Pipeline.producerReadText, h]
    | producerDecide => simp [Pipeline.producerDecide, h]
    | producerPush => simp [Pipeline.producerPush, h]
    | playerPass =>
      simp only [Pipeline.playerPass]
      split
      · split
        · exact ⟨h, rfl⟩
        · split <;> exact ⟨h, rfl⟩
      · exact ⟨h, rfl⟩
    | playbackEnds =>
      simp only [Pipeline.playbackEnds]
      split <;> exact ⟨h, rfl⟩
    | displayPass =>
      simp only [Pipeline.displayPass]
      split
      · split
        · split <;> exact ⟨h, rfl⟩
        · split <;> exact ⟨h, rfl⟩
      · exact ⟨h, rfl⟩
    | displayWord =>
      simp only [Pipeline.displayWord]
      split <;> exact ⟨h, rfl⟩

theorem run_after_exit (acts : List PipelineAction) : ∀ s : Pipeline,
    s.producer = ProducerPc.exited →
    (s.run acts).producer = ProducerPc.exited ∧ (s.run acts).created = s.created := by
  induction acts with
  | nil => intro s h; exact ⟨h, rfl⟩
  | cons a acts ih =>
    intro s h
    obtain ⟨h1, h2⟩ := step_after_exit s a h
    obtain ⟨h3, h4⟩ := ih (s.step a) h1
    exact ⟨h3, h4.trans h2⟩

/-- C6: the response "A. B." arrives as "A." and " B.", and the turn becomes inactive with the
full text present, while a pass of the producer stands between its read of the display text
(still "A.") and its read of `isUpdating()`. The pass finds no terminator after its offset in
the text it holds, sees the turn inactive, sets `producerFinished` and leaves the loop: the
display text is "A. B.", whose segments are "A." and " B.", and the only unit that has been
or will be pushed is "A.". -/
theorem producer_finishes_on_stale_text :
    ((Pipeline.start 0).run sampleRace).message.getUndisplayedText = "A. B.".toList ∧
    ((Pipeline.start 0).run sampleRace).message.isUpdating = false ∧
    sentences "A. B.".toList = ["A.".toList, " B.".toList] ∧
    ((Pipeline.start 0).run sampleRace).producerFinished = true ∧
    ((Pipeline.start 0).run sampleRace).producer = ProducerPc.exited ∧
    ((Pipeline.start 0).run sampleRace).fault = false ∧
    ∀ acts, (((Pipeline.start 0).run sampleRace).run acts).created = [(0, "A.".toList)] := by
  refine ⟨by decide, by decide, by decide, by decide, by decide, by decide, ?_⟩
  intro acts
  rw [(run_after_exit acts _ (by decide)).2]
  decide

/-! ## Claims on starting and stopping -/

/-- C19: a second start is a no-op. `start_transcription` called while the session is running
returns the session unchanged (bound turn, running flag, socket and pause timer), and
`startListening` called while already listening returns the chat bot unchanged (chat history,
listening flag and transcriber). -/
theorem second_start_is_noop (t : IXTranscriber) (message : Message) (b : ChatBot)
    (message_type : MessageType) (paStartOk : Bool) (now sysNow : Nat) :
    (t.m_running = true → t.start_transcription message paStartOk now = t) ∧
    (b.isListening = true → b.startListening message_type paStartOk now sysNow = b) := by
  constructor
  · intro h
    simp [IXTranscriber.start_transcription, h]
  · intro h
    have h' : b.m_isListening = true := h
    simp [ChatBot.startListening, h']

/-- C19, witness: a running session bound to a user turn, and a listening chat bot. -/
theorem second_start_is_noop_witness :
    (listeningSession userTurn 0).m_running = true ∧
    (listeningSession userTurn 0).start_transcription
        (Message.new MessageType.UserTranscription 9) true 9 = listeningSession userTurn 0 ∧
    listeningBot.isListening = true ∧
    listeningBot.startListening MessageType.UserTranscription true 9 9 = listeningBot :=
  ⟨rfl,
    (second_start_is_noop (listeningSession userTurn 0)
      (Message.new MessageType.UserTranscription 9) listeningBot MessageType.UserTranscription
      true 9 9).1 rfl,
    rfl,
    (second_start_is_noop (listeningSession userTurn 0)
      (Message.new MessageType.UserTranscription 9) listeningBot MessageType.UserTranscription
      true 9 9).2 rfl⟩

/-- C20: stopping a stopped session is a no-op. `stop_transcription` called while not running
returns the session unchanged, so nothing is handed to `send` and the running flag and bound
turn stay as they were; `stopListening` called while not listening returns the chat bot
unchanged (listening flag, chat history and transcriber). -/
theorem stop_when_stopped_is_noop (t : IXTranscriber) (b : ChatBot) :
    (t.m_running = false →
      t.stop_transcription = t ∧ t.stop_transcription.m_webSocket.sent = t.m_webSocket.sent) ∧
    (b.isListening = false → b.stopListening = b) := by
  constructor
  · intro h
    simp [IXTranscriber.stop_transcription, h]
  · intro h
    have h' : b.m_isListening = false := h
    simp [ChatBot.stopListening, h']

/-- C20, witness: the transcriber of a fresh chat bot, and the fresh chat bot itself. -/
theorem stop_when_stopped_is_noop_witness :
    (ChatBot.fresh 0).m_transcriber.m_running = false ∧
    (ChatBot.fresh 0).m_transcriber.stop_transcription = (ChatBot.fresh 0).m_transcriber ∧
    (ChatBot.fresh 0).m_transcriber.stop_transcription.m_webSocket.sent = [] ∧
    (ChatBot.fresh 0).isListening = false ∧
    (ChatBot.fresh 0).stopListening = ChatBot.fresh 0 :=
  ⟨rfl,
    ((stop_when_stopped_is_noop (ChatBot.fresh 0).m_transcriber (ChatBot.fresh 0)).1 rfl).1,
    ((stop_when_stopped_is_noop (ChatBot.fresh 0).m_transcriber (ChatBot.fresh 0)).1 rfl).2,
    rfl,
    (stop_when_stopped_is_noop (ChatBot.fresh 0).m_transcriber (ChatBot.fresh 0)).2 rfl⟩

/-- C18 (amended): the request body built by `ChatBot::respond` embeds no prior turn: its
messages array holds, after the optional system-context entry (present when the context is
not empty), exactly one entry, the pair of role "user" and the question passed to the call,
whatever the chat history holds. -/
theorem respond_body_from_question_only (b b1 : ChatBot) (question context : Str)
    (sysNow : Nat) (h : b.respond question context sysNow = some b1) :
    b1.requests = b.requests ++ [respondPayload question context] ∧
    (respondPayload question context).index "messages".toList =
      .ok (.arr (respondMessages question context)) ∧
    respondMessages question context =
      (if context.isEmpty then [] else [roleContent "system" context]) ++
        [roleContent "user" question] := by
  simp only [ChatBot.respond] at h
  split at h
  · exact absurd h (by simp)
  · cases Option.some.inj h
    refine ⟨rfl, by rfl, ?_⟩
    unfold respondMessages
    split <;> rfl

/-- C18, witness: the first call of `respond` on a fresh chat bot. -/
theorem respond_body_from_question_only_witness :
    respondMessages "q".toList [] =
      (if ([] : Str).isEmpty then [] else [roleContent "system" []]) ++
        [roleContent "user" "q".toList] :=
  (respond_body_from_question_only (ChatBot.fresh 0)
    { ChatBot.fresh 0 with
      m_chatHistory := [Message.new MessageType.AIGeneratedResponse 5]
      requests := [respondPayload "q".toList []]
      chatThread := true, producerThread := true, playerThread := true, displayThread := true }
    "q".toList [] 5 rfl).2.2

/-- C18, counterexample: after two user turns have been recorded, the body that `respond`
builds for the question "hi" has a messages array of one entry, the question itself, for a
chat history of two turns. -/
theorem respond_body_counterexample :
    (ChatBot.calls sampleParse (ChatBot.fresh 0) sampleExchange.dropLast).map
        (fun b => b.getChatHistory.map (fun m => (m.getType, m.getText))) =
      some [(MessageType.UserTranscription, "hi".toList), (MessageType.UserTranscription, [])] ∧
    (ChatBot.calls sampleParse (ChatBot.fresh 0) sampleExchange).map
        (fun b => b.requests.length) = some 1 ∧
    (respondMessages "hi".toList []).length = 1 ∧
    respondMessages "hi".toList [] = [roleContent "user" "hi".toList] :=
  ⟨by decide, by decide, by decide, by rfl⟩

/-! ## The kinds of the turns in the chat history -/

theorem setFinalTranscript_kind (m : Message) (transcript : Str) (now : Nat) :
    (m.setFinalTranscript transcript now).m_type = m.m_type := by
  simp only [Message.setFinalTranscript]
  split
  · rfl
  · split <;> split <;> rfl

theorem stopUpdating_kind (m : Message) : m.stopUpdating.m_type = m.m_type := by
  simp only [Message.stopUpdating]
  split <;> rfl

theorem resetPause_message (t : IXTranscriber) (m : Message) (now : Nat) :
    (IXTranscriber.resetPause t m now).m_message = t.m_message := by
  simp only [IXTranscriber.resetPause]
  split <;> rfl

/-- The message handler leaves the kind of the bound turn as it is. -/
theorem on_message_kind (parse : Str → Option Json) (t t1 : IXTranscriber)
    (msg : WebSocketMessage) (now sysNow : Nat) (m m1 : Message)
    (hm : t.m_message = some m)
    (h : IXTranscriber.on_message parse t msg now sysNow = .ok t1)
    (h1 : t1.m_message = some m1) : m1.m_type = m.m_type := by
  have hsame : ∀ (t2 : IXTranscriber), t2.m_message = t.m_message → t2.m_message = some m1 →
      m1.m_type = m.m_type := by
    intro t2 h2 h3
    rw [h2, hm] at h3
    cases Option.some.inj h3
    rfl
  simp only [IXTranscriber.on_message] at h
  split at h
  · split at h
    · exact absurd h (by simp)
    · simp only [IXTranscriber.onJson] at h
      split at h
      · split at h
        · exact absurd h (by simp)
        · cases Except.ok.inj h
          exact hsame _ rfl h1
      · split at h
        · exact absurd h (by simp)
        · split at h
          · simp only [IXTranscriber.onPartialTranscript, hm] at h
            split at h
            · exact absurd h (by simp)
            · split at h
              · cases Except.ok.inj h
                rw [resetPause_message] at h1
                cases Option.some.inj h1
                rfl
              · split at h
                · split at h
                  · cases Except.ok.inj h
                    cases Option.some.inj h1
                    exact stopUpdating_kind m
                  · cases Except.ok.inj h
                    exact hsame _ rfl h1
                · cases Except.ok.inj h
                  exact hsame _ rfl h1
          · split at h
            · simp only [IXTranscriber.onFinalTranscript, hm] at h
              split at h
              · exact absurd h (by simp)
              · split at h
                · cases Except.ok.inj h
                  rw [resetPause_message] at h1
                  cases Option.some.inj h1
                  exact setFinalTranscript_kind m _ _
                · cases Except.ok.inj h
                  exact hsame _ rfl h1
            · split at h
              · simp only [IXTranscriber.onSessionBegins, hm] at h
                split at h
                · exact absurd h (by simp)
                · split at h
                  · exact absurd h (by simp)
                  · cases Except.ok.inj h
                    exact hsame _ (resetPause_message _ _ _) h1
              · split at h <;>
                · cases Except.ok.inj h
                  exact hsame _ rfl h1
  · rw [hm] at h
    cases Except.ok.inj h
    exact hsame _ (resetPause_message _ _ _) h1
  · cases Except.ok.inj h
    exact hsame _ rfl h1
  · cases Except.ok.inj h
    exact hsame _ rfl h1
  · cases Except.ok.inj h
    exact hsame _ rfl h1

theorem countP_set_same (p : Message → Bool) (l : List Message) :
    ∀ (i : Nat) (m m1 : Message), l[i]? = some m → p m1 = p m →
      (l.set i m1).countP p = l.countP p := by
  induction l with
  | nil => intro i m m1 h; simp at h
  | cons x l ih =>
    intro i m m1 h hp
    cases i with
    | zero =>
      simp only [List.getElem?_cons_zero, Option.some.injEq] at h
      subst h
      simp [List.set, List.countP_cons, hp]
    | succ i =>
      simp only [List.getElem?_cons_succ] at h
      simp [List.set, List.countP_cons, ih i m m1 h hp]

theorem activeTurns_le (kind : MessageType) (history : List Message) :
    activeTurns kind history ≤ turnsOfKind kind history := by
  induction history with
  | nil => simp [activeTurns, turnsOfKind]
  | cons m l ih =>
    simp only [activeTurns, turnsOfKind, List.countP_cons] at ih ⊢
    by_cases h1 : m.getType = kind <;> by_cases h2 : m.isUpdating = true <;> simp [h1, h2] <;>
      omega

/-- A call keeps the number of response turns within the number of started responses: none
before the threads are started, one after. -/
theorem call_response_turns (parse : Str → Option Json) (b b1 : ChatBot) (c : ChatBotCall)
    (hkind : ∀ ty pa n s, c = ChatBotCall.startListening ty pa n s →
      ty ≠ MessageType.AIGeneratedResponse)
    (hinv : turnsOfKind MessageType.AIGeneratedResponse b.m_chatHistory ≤
      if b.chatThread then 1 else 0)
    (h : b.call parse c = some b1) :
    turnsOfKind MessageType.AIGeneratedResponse b1.m_chatHistory ≤
      if b1.chatThread then 1 else 0 := by
  cases c with
  | startListening ty pa n s =>
    simp only [ChatBot.call, Option.some.injEq] at h
    subst h
    simp only [ChatBot.startListening]
    split
    · exact hinv
    · have hne := hkind ty pa n s rfl
      simpa [turnsOfKind, List.countP_append, Message.new, Message.getType, hne] using hinv
  | stopListening =>
    simp only [ChatBot.call, Option.some.injEq] at h
    subst h
    simp only [ChatBot.stopListening]
    split <;> exact hinv
  | respond q ctx s =>
    simp only [ChatBot.call, ChatBot.respond] at h
    split at h
    · exact absurd h (by simp)
    · rename_i hj
      cases Option.some.inj h
      have hc : b.chatThread = false := by
        cases hb : b.chatThread
        · rfl
        · simp [hb] at hj
      rw [hc] at hinv
      simp only [Bool.false_eq_true, if_false, Nat.le_zero, turnsOfKind] at hinv
      simp only [turnsOfKind, List.countP_append, hinv, if_true]
      simp [Message.new, Message.getType]
  | inbound msg n s =>
    simp only [ChatBot.call, ChatBot.inbound] at h
    cases hb : b.boundTurn with
    | none =>
      simp only [hb] at h
      cases Option.some.inj h
      exact hinv
    | some i =>
      simp only [hb] at h
      cases hm : b.m_chatHistory[i]? with
      | none =>
        simp only [hm] at h
        cases Option.some.inj h
        exact hinv
      | some m =>
        simp only [hm] at h
        split at h
        · exact absurd h (by simp)
        · rename_i t ht
          split at h
          · cases Option.some.inj h
            exact hinv
          · rename_i m1 hm1
            cases Option.some.inj h
            have hk := on_message_kind parse _ t msg n s m m1 rfl ht hm1
            simp only [turnsOfKind]
            rw [countP_set_same _ _ i m m1 hm (by simp [Message.getType, hk])]
            exact hinv

theorem calls_response_turns (parse : Str → Option Json) (cs : List ChatBotCall) :
    ∀ (b b1 : ChatBot),
      (∀ c ∈ cs, ∀ ty pa n s, c = ChatBotCall.startListening ty pa n s →
        ty ≠ MessageType.AIGeneratedResponse) →
      turnsOfKind MessageType.AIGeneratedResponse b.m_chatHistory ≤
        (if b.chatThread then 1 else 0) →
      ChatBot.calls parse b cs = some b1 →
      turnsOfKind MessageType.AIGeneratedResponse b1.m_chatHistory ≤
        if b1.chatThread then 1 else 0 := by
  induction cs with
  | nil =>
    intro b b1 _ hinv h
    cases Option.some.inj h
    exact hinv
  | cons c cs ih =>
    intro b b1 hkind hinv h
    simp only [ChatBot.calls] at h
    split at h
    · exact absurd h (by simp)
    · rename_i b2 hb2
      exact ih b2 b1 (fun c' hc' => hkind c' (List.mem_cons_of_mem _ hc'))
        (call_response_turns parse b b2 c (hkind c (List.mem_cons_self _ _)) hinv hb2) h

/-- Without `joinResponseThreads` among the calls, the chat history holds at most one response
turn: a second `respond` before the threads are joined ends the program. -/
theorem at_most_one_response_turn (parse : Str → Option Json) (now : Nat)
    (cs : List ChatBotCall) (b : ChatBot)
    (hkind : ∀ c ∈ cs, ∀ ty pa n s, c = ChatBotCall.startListening ty pa n s →
      ty ≠ MessageType.AIGeneratedResponse)
    (h : ChatBot.calls parse (ChatBot.fresh now) cs = some b) :
    turnsOfKind MessageType.AIGeneratedResponse b.getChatHistory ≤ 1 ∧
    activeTurns MessageType.AIGeneratedResponse b.getChatHistory ≤ 1 := by
  have h1 := calls_response_turns parse cs (ChatBot.fresh now) b hkind
    (by simp [ChatBot.fresh, turnsOfKind]) h
  have h2 : turnsOfKind MessageType.AIGeneratedResponse b.m_chatHistory ≤ 1 := by
    split at h1 <;> omega
  exact ⟨h2, le_trans (activeTurns_le _ _) h2⟩

/-- Two user turns and one response. -/
theorem at_most_one_response_turn_witness :
    (ChatBot.calls sampleParse (ChatBot.fresh 0) sampleExchange).map
        (fun b => b.getChatHistory.map Message.getType) =
      some [MessageType.UserTranscription, MessageType.UserTranscription,
        MessageType.AIGeneratedResponse] ∧
    ∃ b, ChatBot.calls sampleParse (ChatBot.fresh 0) sampleExchange = some b ∧
      turnsOfKind MessageType.AIGeneratedResponse b.getChatHistory ≤ 1 ∧
      activeTurns MessageType.AIGeneratedResponse b.getChatHistory ≤ 1 := by
  refine ⟨by decide, ?_⟩
  have hsome : ∃ b, ChatBot.calls sampleParse (ChatBot.fresh 0) sampleExchange = some b :=
    ⟨_, rfl⟩
  obtain ⟨b, hb⟩ := hsome
  refine ⟨b, hb, at_most_one_response_turn sampleParse 0 sampleExchange b ?_ hb⟩
  intro c hc ty pa n s he
  subst he
  simp only [sampleExchange, List.mem_cons, ChatBotCall.startListening.injEq,
    List.mem_singleton, reduceCtorEq, List.not_mem_nil, or_false, false_or] at hc
  rcases hc with ⟨rfl, -⟩ | ⟨rfl, -⟩ <;> decide

theorem toUChar_lt (c : Int) : toUChar c < 256 := by
  unfold toUChar
  omega

theorem base64Char_eq : ∀ v, v < 64 → base64Char v = rfc4648Alphabet v := by
  decide

theorem rfc4648Value_alphabet : ∀ v, v < 64 → rfc4648Value (rfc4648Alphabet v) = some v := by
  decide

theorem rfc4648Alphabet_ne_pad : ∀ v, v < 64 → rfc4648Alphabet v ≠ '=' := by
  decide

set_option maxRecDepth 8000 in
theorem quad0_eq : ∀ x, x < 256 → ((x &&& 0xfc) >>> 2) = x / 4 := by
  decide

set_option maxRecDepth 8000 in
theorem quad1_hi : ∀ x, x < 256 → ((x &&& 0x03) <<< 4) = x % 4 * 16 := by
  decide

set_option maxRecDepth 8000 in
theorem quad1_lo : ∀ x, x < 256 → ((x &&& 0xf0) >>> 4) = x / 16 := by
  decide

set_option maxRecDepth 8000 in
theorem quad2_hi : ∀ x, x < 256 → ((x &&& 0x0f) <<< 2) = x % 16 * 4 := by
  decide

set_option maxRecDepth 8000 in
theorem quad2_lo : ∀ x, x < 256 → ((x &&& 0xc0) >>> 6) = x / 64 := by
  decide

set_option maxRecDepth 8000 in
theorem quad3_eq : ∀ x, x < 256 → (x &&& 0x3f) = x % 64 := by
  decide

/-- The encoder on "Man", "Ma", "M" and on four bytes with the high bit set in three. -/
theorem base64_encode_samples :
    base64_encode [77, 97, 110] = "TWFu".toList ∧ base64_encode [77, 97] = "TWE=".toList ∧
    base64_encode [77] = "TQ==".toList ∧ base64_encode [-1, -2, 127, -128] = "//5/gA==".toList ∧
    rfc4648Decode "//5/gA==".toList = some [255, 254, 127, 128] := by
  decide

theorem quads_eq (a b c : Nat) (ha : a < 256) (hb : b < 256) (hc : c < 256) :
    CharArray3.quad0 { a0 := a, a1 := b, a2 := c } = a / 4 ∧
    CharArray3.quad1 { a0 := a, a1 := b, a2 := c } = a % 4 * 16 + b / 16 ∧
    CharArray3.quad2 { a0 := a, a1 := b, a2 := c } = b % 16 * 4 + c / 64 ∧
    CharArray3.quad3 { a0 := a, a1 := b, a2 := c } = c % 64 := by
  simp only [CharArray3.quad0, CharArray3.quad1, CharArray3.quad2, CharArray3.quad3,
    quad0_eq a ha, quad1_hi a ha, quad1_lo b hb, quad2_hi b hb, quad2_lo c hc, quad3_eq c hc]
  omega

theorem base64Char_quads (a b c : Nat) (ha : a < 256) (hb : b < 256) (hc : c < 256) :
    base64Char (CharArray3.quad0 { a0 := a, a1 := b, a2 := c }) = rfc4648Alphabet (a / 4) ∧
    base64Char (CharArray3.quad1 { a0 := a, a1 := b, a2 := c })
      = rfc4648Alphabet (a % 4 * 16 + b / 16) ∧
    base64Char (CharArray3.quad2 { a0 := a, a1 := b, a2 := c })
      = rfc4648Alphabet (b % 16 * 4 + c / 64) ∧
    base64Char (CharArray3.quad3 { a0 := a, a1 := b, a2 := c }) = rfc4648Alphabet (c % 64) := by
  obtain ⟨h0, h1, h2, h3⟩ := quads_eq a b c ha hb hc
  rw [h0, h1, h2, h3]
  exact ⟨base64Char_eq _ (by omega), base64Char_eq _ (by omega), base64Char_eq _ (by omega),
    base64Char_eq _ (by omega)⟩

/-- The loop and the tail of `base64_encode`, started with no byte stored, append the RFC 4648
encoding of the bytes. -/
theorem encode_from : ∀ (buf : List Int) (arr : CharArray3) (out : Str),
    encodeTail (buf.foldl encodeByte { i := 0, char_array_3 := arr, base64 := out })
      = out ++ rfc4648Encode (buf.map toUChar)
  | [], arr, out => by simp [encodeTail, rfc4648Encode]
  | [a], arr, out => by
    obtain ⟨h0, h1, _, _⟩ := base64Char_quads (toUChar a) 0 0 (toUChar_lt a) (by decide) (by decide)
    simp only [Nat.zero_div, Nat.add_zero] at h1
    simp [encodeTail, encodeByte, rfc4648Encode, CharArray3.set, CharArray3.clearFrom, h0, h1,
      List.replicate]
  | [a, b], arr, out => by
    obtain ⟨h0, h1, h2, _⟩ :=
      base64Char_quads (toUChar a) (toUChar b) 0 (toUChar_lt a) (toUChar_lt b) (by decide)
    simp only [Nat.zero_div, Nat.add_zero] at h2
    simp [encodeTail, encodeByte, rfc4648Encode, CharArray3.set, CharArray3.clearFrom, h0, h1, h2,
      List.replicate]
  | a :: b :: c :: rest, arr, out => by
    obtain ⟨h0, h1, h2, h3⟩ :=
      base64Char_quads (toUChar a) (toUChar b) (toUChar c) (toUChar_lt a) (toUChar_lt b)
        (toUChar_lt c)
    have ih := encode_from rest { a0 := toUChar a, a1 := toUChar b, a2 := toUChar c }
      (out ++ [rfc4648Alphabet (toUChar a / 4), rfc4648Alphabet (toUChar a % 4 * 16 + toUChar b / 16),
        rfc4648Alphabet (toUChar b % 16 * 4 + toUChar c / 64), rfc4648Alphabet (toUChar c % 64)])
    simp only [List.foldl_cons, encodeByte, CharArray3.set, h0, h1, h2, h3, List.map_cons,
      rfc4648Encode]
    simp only [Nat.zero_add, Nat.reduceAdd, Nat.reduceEqDiff, if_false, if_true]
    rw [h0, h1, h2, h3, ih]
    simp

theorem rfc4648Encode_length : ∀ (l : List Nat),
    (rfc4648Encode l).length = 4 * ((l.length + 2) / 3)
  | [] => by simp [rfc4648Encode]
  | [a] => by simp [rfc4648Encode]
  | [a, b] => by simp [rfc4648Encode]
  | a :: b :: c :: rest => by
    have ih := rfc4648Encode_length rest
    simp only [rfc4648Encode, List.length_append, List.length_cons, List.length_nil, ih]
    omega

theorem rfc4648Decode_encode : ∀ (l : List Nat), (∀ x ∈ l, x < 256) →
    rfc4648Decode (rfc4648Encode l) = some l
  | [], _ => by simp [rfc4648Encode, rfc4648Decode]
  | [a], h => by
    have ha : a < 256 := h a (by simp)
    have e0 := rfc4648Value_alphabet (a / 4) (by omega)
    have e1 := rfc4648Value_alphabet (a % 4 * 16) (by omega)
    simp only [rfc4648Encode, rfc4648Decode, e0, e1]
    simp
    omega
  | [a, b], h => by
    have ha : a < 256 := h a (by simp)
    have hb : b < 256 := h b (by simp)
    have e0 := rfc4648Value_alphabet (a / 4) (by omega)
    have e1 := rfc4648Value_alphabet (a % 4 * 16 + b / 16) (by omega)
    have e2 := rfc4648Value_alphabet (b % 16 * 4) (by omega)
    have n2 := rfc4648Alphabet_ne_pad (b % 16 * 4) (by omega)
    simp only [rfc4648Encode, rfc4648Decode, e0, e1, e2, if_neg n2]
    simp
    omega
  | a :: b :: c :: rest, h => by
    have ha : a < 256 := h a (by simp)
    have hb : b < 256 := h b (by simp)
    have hc : c < 256 := h c (by simp)
    have ih := rfc4648Decode_encode rest (fun x hx => h x (by simp [hx]))
    have e0 := rfc4648Value_alphabet (a / 4) (by omega)
    have e1 := rfc4648Value_alphabet (a % 4 * 16 + b / 16) (by omega)
    have e2 := rfc4648Value_alphabet (b % 16 * 4 + c / 64) (by omega)
    have e3 := rfc4648Value_alphabet (c % 64) (by omega)
    have n2 := rfc4648Alphabet_ne_pad (b % 16 * 4 + c / 64) (by omega)
    have n3 := rfc4648Alphabet_ne_pad (c % 64) (by omega)
    simp only [rfc4648Encode, rfc4648Decode, e0, e1, e2, e3,
      if_neg n2, if_neg n3]
    rw [ih]
    simp only [Option.some.injEq, List.cons.injEq, and_true]
    omega

/-- C21: for every sequence of chars, `base64_encode` returns the padded Base64 encoding of
RFC 4648 of its bytes: the output has length `4 * ceil(n / 3)`, and a strict Base64 decoder
returns from it exactly the bytes, a char with the high bit set (a negative `char`) as the
byte of the same bit pattern. -/
theorem base64_encode_standard (buf : List Int) :
    base64_encode buf = rfc4648Encode (buf.map toUChar) ∧
    (base64_encode buf).length = 4 * ((buf.length + 2) / 3) ∧
    rfc4648Decode (base64_encode buf) = some (buf.map toUChar) := by
  have h : base64_encode buf = rfc4648Encode (buf.map toUChar) := by
    unfold base64_encode
    rw [encode_from]
    simp
  refine ⟨h, ?_, ?_⟩
  · rw [h, rfc4648Encode_length, List.length_map]
  · rw [h]
    apply rfc4648Decode_encode
    intro x hx
    obtain ⟨c, _, rfl⟩ := List.mem_map.mp hx
    exact toUChar_lt c

/-! ## Claims on the decoded audio -/

theorem getDataLoop_spec {α : Type} (n : Nat) : ∀ (q output : List α) (i : Nat),
    n ≤ output.length → ∃ k, k = min (n - i) q.length ∧
      getDataLoop n q output i = (q.drop k, output.take i ++ q.take k ++ output.drop (i + k), i + k) := by
  intro q
  induction q with
  | nil =>
    intro output i _
    exact ⟨0, by simp, by simp [getDataLoop]⟩
  | cons x q ih =>
    intro output i h
    by_cases hi : i < n
    · obtain ⟨k, hk, heq⟩ := ih (output.set i x) (i + 1) (by simpa using h)
      refine ⟨k + 1, by simp only [List.length_cons]; omega, ?_⟩
      rw [getDataLoop, if_pos hi, heq]
      have hlen : i < output.length := by omega
      have h1 : (output.set i x).take (i + 1) = output.take i ++ [x] := by
        rw [List.set_eq_take_append_cons_drop, if_pos hlen]
        rw [List.take_append_eq_append_take]
        simp [List.take_take, Nat.min_eq_left (Nat.le_succ i), List.length_take,
          Nat.min_eq_left (Nat.le_of_lt hlen)]
      have h2 : (output.set i x).drop (i + 1 + k) = output.drop (i + (k + 1)) := by
        rw [List.drop_set_of_lt _ _ (by omega)]
        congr 1
        omega
      rw [h1, h2]
      simp [Nat.add_assoc, Nat.add_comm 1 k]
    · refine ⟨0, by omega, ?_⟩
      rw [getDataLoop, if_neg hi]
      simp

theorem addData_buffer {α : Type} (s : SharedAudioData α) (data : List α) :
    ∀ size, (s.addData data size).audioBuffer = s.audioBuffer ++ data.take size := by
  intro size
  induction size with
  | zero => simp [SharedAudioData.addData]
  | succ n ih =>
    simp only [SharedAudioData.addData] at ih ⊢
    rw [List.range_succ, List.foldl_append, ih, List.take_succ]
    cases hn : data[n]? <;> simp [hn]

theorem getData_spec {α : Type} (s : SharedAudioData α) (output : List α) (n : Nat)
    (h : n ≤ output.length) :
    (s.getData output n).2.2 = min n s.audioBuffer.length ∧
    (s.getData output n).2.1
      = s.audioBuffer.take (min n s.audioBuffer.length)
        ++ output.drop (min n s.audioBuffer.length) ∧
    (s.getData output n).1.audioBuffer = s.audioBuffer.drop (min n s.audioBuffer.length) ∧
    (s.getData output n).1.dataReady = s.dataReady ∧
    (s.getData output n).1.endOfData = s.endOfData := by
  obtain ⟨k, hk, heq⟩ := getDataLoop_spec n s.audioBuffer output 0 h
  simp only [Nat.sub_zero] at hk
  subst hk
  simp only [SharedAudioData.getData, heq]
  simp only [List.take_zero, List.nil_append, Nat.zero_add, true_and, and_self]

/-- C22: for every sample queue and request size `n` within the output buffer, `getData`
returns `k = min(n, |q|)`, the output buffer afterwards holds the first `k` samples of the
queue at `[0, k)`, in queue order, and its old content from `k` on, the queue keeps the other
`|q| - k` samples in their order, and the flags are left alone; the queue order is the order
of insertion, as `addData` pushes its samples at the back in order. -/
theorem getData_takes_front {α : Type} (s : SharedAudioData α) (output : List α) (n : Nat)
    (h : n ≤ output.length) :
    (s.getData output n).2.2 = min n s.audioBuffer.length ∧
    (s.getData output n).2.1
      = s.audioBuffer.take (min n s.audioBuffer.length)
        ++ output.drop (min n s.audioBuffer.length) ∧
    (s.getData output n).1.audioBuffer = s.audioBuffer.drop (min n s.audioBuffer.length) ∧
    (s.getData output n).1.dataReady = s.dataReady ∧
    (s.getData output n).1.endOfData = s.endOfData ∧
    (∀ (data : List α) (size : Nat), size ≤ data.length →
      (s.addData data size).audioBuffer = s.audioBuffer ++ data.take size) := by
  obtain ⟨h1, h2, h3, h4, h5⟩ := getData_spec s output n h
  exact ⟨h1, h2, h3, h4, h5, fun data size _ => addData_buffer s data size⟩

theorem getData_takes_front_witness :
    3 ≤ [0, 0, 0, 9].length ∧
    ((SharedAudioData.new.addData [5, 6] 2).getData [0, 0, 0, 9] 3).2.2 = 2 ∧
    ((SharedAudioData.new.addData [5, 6] 2).getData [0, 0, 0, 9] 3).2.1 = [5, 6, 0, 9] ∧
    ((SharedAudioData.new.addData [5, 6, 7, 8] 4).getData [0, 0, 0, 9] 3).2.1 = [5, 6, 7, 9] ∧
    ((SharedAudioData.new.addData [5, 6, 7, 8] 4).getData [0, 0, 0, 9] 3).1.audioBuffer = [8] := by
  have h1 := getData_takes_front (SharedAudioData.new.addData [5, 6] 2) [0, 0, 0, 9] 3 (by decide)
  have h2 := getData_takes_front (SharedAudioData.new.addData [5, 6, 7, 8] 4) [0, 0, 0, 9] 3
    (by decide)
  refine ⟨by decide, ?_, ?_, ?_, ?_⟩
  · rw [h1.1]; decide
  · rw [h1.2.1]; decide
  · rw [h2.2.1]; decide
  · rw [h2.2.2.1]; decide

/-- With data ready, fewer samples queued than requested and the end of the data signalled,
the callback returns `paComplete`. -/
theorem audioCallback_completes {α : Type} (silence : α) (s : SharedAudioData α) (out : List α)
    (n : Nat) (hout : n * CHANNELS ≤ out.length) (hready : s.dataReady = true)
    (hend : s.endOfData = true) (hq : s.audioBuffer.length < n * CHANNELS) :
    (audioCallback silence s out n).1 = .paComplete := by
  have hlen : n * CHANNELS ≤ (fillSilence silence out (n * CHANNELS)).length := by
    simp only [fillSilence, List.length_append, List.length_replicate, List.length_drop]
    omega
  obtain ⟨h1, -, -, -, h5⟩ := getData_spec s _ _ hlen
  have hlt : (s.getData (fillSilence silence out (n * CHANNELS)) (n * CHANNELS)).2.2
      < n * CHANNELS := by
    rw [h1]; omega
  simp only [audioCallback, SharedAudioData.isDataReady, hready, Bool.not_true, Bool.false_eq_true,
    if_false, hlt, if_true, SharedAudioData.isEndOfData, SharedAudioData.setDataReady, h5, hend]

theorem audioCallback_silentUnit :
    audioCallback 0 silentUnit (List.replicate (FRAMES_PER_BUFFER * CHANNELS) 0) FRAMES_PER_BUFFER
      = (.paContinue, silentUnit, List.replicate (FRAMES_PER_BUFFER * CHANNELS) 0) := by
  simp [audioCallback, silentUnit, SharedAudioData.new, SharedAudioData.signalEndOfData,
    SharedAudioData.isDataReady, fillSilence]

/-- C23: the unit `silentUnit` holds no sample, so fewer than the 960 requested, and its
`endOfData` flag is set, yet the callback returns `paContinue`, leaves the unit as it is and
so returns `paContinue` at every later call as well: the playback of the unit never
completes. -/
theorem audioCallback_silent_unit_never_completes :
    silentUnit.audioBuffer.length < FRAMES_PER_BUFFER * CHANNELS ∧ silentUnit.isEndOfData = true ∧
    (audioCallback 0 silentUnit (List.replicate (FRAMES_PER_BUFFER * CHANNELS) 0)
      FRAMES_PER_BUFFER).1 = .paContinue ∧
    ∀ calls, audioCallbacks 0 FRAMES_PER_BUFFER calls silentUnit
      = (List.replicate calls .paContinue, silentUnit) := by
  refine ⟨by decide, by decide, by rw [audioCallback_silentUnit], ?_⟩
  intro calls
  induction calls with
  | zero => rfl
  | succ n ih =>
    simp only [audioCallbacks, audioCallback_silentUnit, ih, List.replicate_succ]

theorem decoderResults_append {σ α : Type} (dec : σ → Packet → Decoded σ α) :
    ∀ (a b : List Packet) (d : σ),
      decoderResults dec d (a ++ b)
        = decoderResults dec d a ++ decoderResults dec (decoderAfter dec d a) b := by
  intro a
  induction a with
  | nil => intro b d; simp [decoderResults, decoderAfter]
  | cons op a ih =>
    intro b d
    by_cases h : (isOpusHead op || isOpusTags op) = true
    · simp [decoderResults, decoderAfter, h, ih]
    · simp [decoderResults, decoderAfter, h, ih]

theorem decoderAfter_append {σ α : Type} (dec : σ → Packet → Decoded σ α) :
    ∀ (a b : List Packet) (d : σ),
      decoderAfter dec d (a ++ b) = decoderAfter dec (decoderAfter dec d a) b := by
  intro a
  induction a with
  | nil => intro b d; simp [decoderAfter]
  | cons op a ih =>
    intro b d
    by_cases h : (isOpusHead op || isOpusTags op) = true
    · simp [decoderAfter, h, ih]
    · simp [decoderAfter, h, ih]

theorem decodedSamples_append {σ α : Type} (a b : List (Decoded σ α)) :
    decodedSamples (a ++ b) = decodedSamples a ++ decodedSamples b := by
  induction a with
  | nil => simp [decodedSamples]
  | cons r a ih =>
    by_cases h : r.frameSize < 0
    · simp [decodedSamples, h, ih]
    · simp [decodedSamples, h, ih]

theorem decodeFailures_append {σ α : Type} (a b : List (Decoded σ α)) :
    decodeFailures (a ++ b) = decodeFailures a ++ decodeFailures b := by
  induction a with
  | nil => simp [decodeFailures]
  | cons r a ih =>
    by_cases h : r.frameSize < 0
    · simp [decodeFailures, h, ih]
    · simp [decodeFailures, h, ih]

theorem addData_endOfData {α : Type} (s : SharedAudioData α) (data : List α) (size : Nat) :
    (s.addData data size).endOfData = s.endOfData := rfl

/-- The loop over the packets of one page whose tag packets hold their vendor string. -/
theorem processPackets_spec {σ α : Type} (dec : σ → Packet → Decoded σ α) :
    ∀ (page : List Packet) (st : DecodeState σ α),
      (∀ op ∈ page, isOpusHead op = false → isOpusTags op = true → vendorInPacket op = true) →
      ∃ st1, processPackets dec st page = some st1 ∧
        st1.shared.audioBuffer
          = st.shared.audioBuffer ++ decodedSamples (decoderResults dec st.opusDecoder page) ∧
        st1.errors = st.errors ++ decodeFailures (decoderResults dec st.opusDecoder page) ∧
        st1.opusDecoder = decoderAfter dec st.opusDecoder page ∧
        st1.shared.endOfData = st.shared.endOfData := by
  intro page
  induction page with
  | nil =>
    intro st _
    exact ⟨st, rfl, by simp [decoderResults, decodedSamples, decodeFailures, decoderAfter]⟩
  | cons op page ih =>
    intro st hwf
    have hrest : ∀ op1 ∈ page, isOpusHead op1 = false → isOpusTags op1 = true →
        vendorInPacket op1 = true := fun op1 h1 => hwf op1 (List.mem_cons_of_mem _ h1)
    have hop := hwf op (List.mem_cons_self _ _)
    by_cases hh : isOpusHead op = true
    · obtain ⟨st1, h0, h1, h2, h3, h4⟩ := ih st hrest
      refine ⟨st1, ?_, ?_, ?_, ?_, h4⟩
      · simp [processPackets, processPacket, hh, h0]
      · rw [h1]; simp [decoderResults, hh]
      · rw [h2]; simp [decoderResults, hh]
      · rw [h3]; simp [decoderAfter, hh]
    · have hh' : isOpusHead op = false := by simpa using hh
      by_cases ht : isOpusTags op = true
      · obtain ⟨st1, h0, h1, h2, h3, h4⟩ := ih st hrest
        refine ⟨st1, ?_, ?_, ?_, ?_, h4⟩
        · simp [processPackets, processPacket, hh, ht, hop hh' ht, h0]
        · rw [h1]; simp [decoderResults, hh, ht]
        · rw [h2]; simp [decoderResults, hh, ht]
        · rw [h3]; simp [decoderAfter, hh, ht]
      · by_cases hf : (dec st.opusDecoder op).frameSize < 0
        · obtain ⟨st1, h0, h1, h2, h3, h4⟩ := ih
            { st with opusDecoder := (dec st.opusDecoder op).opusDecoder,
                      errors := st.errors ++ [(dec st.opusDecoder op).frameSize] } hrest
          refine ⟨st1, ?_, ?_, ?_, ?_, h4⟩
          · simp [processPackets, processPacket, hh, ht, hf, h0]
          · rw [h1]; simp [decoderResults, hh, ht, decodedSamples, hf]
          · rw [h2]; simp [decoderResults, hh, ht, decodeFailures, hf]
          · rw [h3]; simp [decoderAfter, hh, ht]
        · have hnn : 0 ≤ (dec st.opusDecoder op).frameSize := by omega
          obtain ⟨st1, h0, h1, h2, h3, h4⟩ := ih
            { st with
              opusDecoder := (dec st.opusDecoder op).opusDecoder
              shared :=
                (st.shared.addData (dec st.opusDecoder op).decodedPCM
                  ((dec st.opusDecoder op).frameSize * (CHANNELS : Int)).toNat).setDataReady
                    true } hrest
          refine ⟨st1, ?_, ?_, ?_, ?_, ?_⟩
          · simp [processPackets, processPacket, hh, ht, hf, h0]
          · rw [h1]
            simp [decoderResults, hh, ht, decodedSamples, hf, SharedAudioData.setDataReady,
              addData_buffer, CHANNELS]
          · rw [h2]; simp [decoderResults, hh, ht, decodeFailures, hf]
          · rw [h3]; simp [decoderAfter, hh, ht]
          · rw [h4]; simp [SharedAudioData.setDataReady, addData_endOfData]

/-- With the Opus decoder an arbitrary function that returns a frame size, negative for a
failure, and with every tag packet holding its vendor string, `processData` returns and has
appended to the sample queue of the unit, in packet order, exactly the samples of the decoder
calls that did not fail, the decoder being called on the packets that are no `OpusHead` or
`OpusTags` packets, each call on the decoder the call before has left; header, tag and
failing packets add no sample, each failure is logged with its code, and the packets after a
failure are decoded all the same. -/
theorem processData_appends_decoded {σ α : Type} (opus_decode_float : σ → Packet → Decoded σ α) :
    ∀ (pages : List (List Packet)) (st : DecodeState σ α),
      (∀ op ∈ packetsOf pages, isOpusHead op = false → isOpusTags op = true →
        vendorInPacket op = true) →
      ∃ st1, processData opus_decode_float st pages = some st1 ∧
        st1.shared.audioBuffer
          = st.shared.audioBuffer
            ++ decodedSamples (decoderResults opus_decode_float st.opusDecoder (packetsOf pages)) ∧
        st1.errors
          = st.errors
            ++ decodeFailures (decoderResults opus_decode_float st.opusDecoder (packetsOf pages)) ∧
        st1.shared.endOfData = st.shared.endOfData := by
  intro pages
  induction pages with
  | nil =>
    intro st _
    exact ⟨st, rfl, by simp [packetsOf, decoderResults, decodedSamples, decodeFailures]⟩
  | cons page pages ih =>
    intro st hwf
    obtain ⟨st1, p0, p1, p2, p3, p4⟩ := processPackets_spec opus_decode_float page st
      (fun op h => hwf op (by simp [packetsOf, h]))
    obtain ⟨st2, h0, h1, h2, h3⟩ := ih st1 (fun op h => hwf op (by simp [packetsOf, h]))
    refine ⟨st2, ?_, ?_, ?_, ?_⟩
    · simp [processData, p0, h0]
    · rw [h1, p1, p3]
      simp [packetsOf, decoderResults_append, decodedSamples_append]
    · rw [h2, p2, p3]
      simp [packetsOf, decoderResults_append, decodeFailures_append]
    · rw [h3, p4]

/-- The sample pages: the two valid packets give their samples, in order, and the corrupted
packet between them gives one logged error. -/
theorem processData_samplePages :
    (processData sampleDecoder
      { opusDecoder := (), shared := SharedAudioData.new, errors := [] } samplePages).map
        (fun st => (st.shared, st.errors))
      = some ({ dataReady := true, endOfData := false, audioBuffer := [1, 2, 3] }, [-4]) := by
  decide

/-- C24: on the pages `malformedPages` the packet between the two valid packets is a tag
packet (16 bytes, magic `OpusTags`) whose vendor length field holds 4294967295. The tag branch
builds the vendor string from `op.packet + 12` with that length, past the end of the packet:
the call does not return a state, and the valid packet after the tag packet is not decoded.
With the tag packet left out the samples of both valid packets are queued. -/
theorem processData_malformed_tags_read_past_packet :
    isOpusTags malformedTags = true ∧ malformedTags.length = 16 ∧
    vendorLength malformedTags = 4294967295 ∧
    processData sampleDecoder
      { opusDecoder := (), shared := SharedAudioData.new, errors := [] } malformedPages = none ∧
    (processData sampleDecoder { opusDecoder := (), shared := SharedAudioData.new, errors := [] }
      [[magic "OpusHead" ++ List.replicate 11 0], [[1, 2], [3]]]).map
        (fun st => st.shared.audioBuffer) = some [1, 2, 3] :=
  ⟨by decide, by decide, by decide, by rfl, by decide⟩

/-! ## Claims on the word loop of the display thread -/

theorem wordsAux_eq_split (cs : Str) : ∀ cur : Str,
    wordsAux cur cs
      = ((cs.splitOnP isSpace).modifyHead (cur ++ ·)).filter (fun w => !w.isEmpty) := by
  induction cs with
  | nil =>
    intro cur
    cases cur <;> simp [wordsAux, List.modifyHead, List.filter]
  | cons c cs ih =>
    intro cur
    by_cases hc : isSpace c = true
    · have h0 := ih []
      simp only [List.nil_append] at h0
      have hid : (List.splitOnP isSpace cs).modifyHead (fun x => x) = List.splitOnP isSpace cs := by
        cases List.splitOnP isSpace cs <;> rfl
      rw [hid] at h0
      cases cur with
      | nil => simp [wordsAux, hc, List.modifyHead, List.filter, h0]
      | cons a cur => simp [wordsAux, hc, List.modifyHead, List.filter, h0]
    · have h1 := ih (cur ++ [c])
      simp only [wordsAux, hc, List.splitOnP_cons, if_false, Bool.false_eq_true]
      rw [h1, List.modifyHead_modifyHead]
      congr 2
      funext x
      simp

theorem istreamWords_eq (text : Str) : istreamWords text = whitespaceWords text := by
  unfold istreamWords whitespaceWords
  rw [wordsAux_eq_split]
  congr 1
  cases List.splitOnP isSpace text <;> rfl

theorem foldl_addWordToText (ws : List Str) : ∀ m : Message,
    (ws.foldl (fun m word => m.addWordToText (word ++ [' '])) m)
      = { m with m_text := m.m_text ++ spaced ws } := by
  induction ws with
  | nil => intro m; simp [spaced]
  | cons w ws ih =>
    intro m
    rw [List.foldl_cons, ih]
    simp [Message.addWordToText, spaced]

theorem splitOnP_all_space (text : Str) (h : ∀ c ∈ text, isSpace c = true) :
    ∀ w ∈ text.splitOnP isSpace, w = [] := by
  induction text with
  | nil => simp
  | cons c cs ih =>
    have hc : isSpace c = true := h c (by simp)
    intro w hw
    simp only [List.splitOnP_cons, hc, if_true, List.mem_cons] at hw
    rcases hw with rfl | hw
    · rfl
    · exact ih (fun c hc => h c (by simp [hc])) w hw

theorem splitOnP_no_sep (text : Str) :
    ∀ w ∈ text.splitOnP isSpace, ∀ c ∈ w, isSpace c = false := by
  induction text with
  | nil => simp
  | cons c cs ih =>
    intro w hw
    by_cases hc : isSpace c = true
    · simp only [List.splitOnP_cons, hc, if_true, List.mem_cons] at hw
      rcases hw with rfl | hw
      · simp
      · exact ih w hw
    · simp only [List.splitOnP_cons, hc, if_false, Bool.false_eq_true] at hw
      cases hs : List.splitOnP isSpace cs with
      | nil => rw [hs] at hw; simp [List.modifyHead] at hw
      | cons x xs =>
        rw [hs] at hw ih
        simp only [List.modifyHead, List.mem_cons] at hw
        rcases hw with rfl | hw
        · intro d hd
          simp only [List.mem_cons] at hd
          rcases hd with rfl | hd
          · simpa using hc
          · exact ih x (by simp) d hd
        · exact ih w (by simp [hw])

/-- C25: for every text, the word loop of the display thread appends to the revealed text of
the turn the whitespace-delimited words of the text, in order, each followed by one space,
and changes nothing else of the turn; the words are not empty and hold no whitespace; a text
of whitespace only appends nothing; the revealed text before is a prefix of the one after. -/
theorem displayWords_appends_spaced_words (m : Message) (text : Str) :
    displayWords m text = { m with m_text := m.m_text ++ spaced (whitespaceWords text) } ∧
    (∀ w ∈ whitespaceWords text, w ≠ [] ∧ ∀ c ∈ w, isSpace c = false) ∧
    ((∀ c ∈ text, isSpace c = true) → displayWords m text = m) ∧
    m.getText <+: (displayWords m text).getText := by
  have h1 : displayWords m text
      = { m with m_text := m.m_text ++ spaced (whitespaceWords text) } := by
    unfold displayWords
    cases text with
    | nil => simp [whitespaceWords, spaced]
    | cons c cs => simp [foldl_addWordToText, istreamWords_eq]
  refine ⟨h1, ?_, ?_, ?_⟩
  · intro w hw
    simp only [whitespaceWords, List.mem_filter] at hw
    refine ⟨?_, splitOnP_no_sep text w hw.1⟩
    intro h
    rw [h] at hw
    simp at hw
  · intro hall
    have hnil : whitespaceWords text = [] := by
      simp only [whitespaceWords, List.filter_eq_nil_iff]
      intro w hw
      simp [splitOnP_all_space text hall w hw]
    rw [h1, hnil]
    simp [spaced]
  · rw [h1]
    exact List.prefix_append _ _

theorem displayWords_appends_spaced_words_witness :
    displayWords freshResponse " \t\n".toList = freshResponse ∧
    (displayWords freshResponse "  Hello,\tworld. ".toList).getText = "Hello, world. ".toList := by
  refine ⟨(displayWords_appends_spaced_words freshResponse " \t\n".toList).2.2.1 (by decide), ?_⟩
  decide

/-! ## The word loop inside the interleaving -/

theorem run_displayWords (ws : List Str) : ∀ (s : Pipeline) (audioData : Nat),
    s.fault = false → s.display = DisplayPc.revealing audioData ws → ws ≠ [] →
    (s.run (List.replicate ws.length PipelineAction.displayWord)).message
      = ws.foldl (fun m word => m.addWordToText (word ++ [' '])) s.message := by
  induction ws with
  | nil => intro s audioData _ _ h; exact absurd rfl h
  | cons w ws ih =>
    intro s audioData hf hd _
    simp only [List.length_cons, List.replicate_succ, Pipeline.run, List.foldl_cons]
    have hstep : s.step PipelineAction.displayWord
        = { s with
            message := s.message.addWordToText (w ++ [' '])
            wordLog := s.wordLog ++ [audioData]
            display := if ws = [] then DisplayPc.idle else DisplayPc.revealing audioData ws } := by
      simp only [Pipeline.step, hf, Bool.false_eq_true, if_false, Pipeline.displayWord, hd]
    rw [hstep]
    cases ws with
    | nil => simp
    | cons w1 ws1 =>
      have := ih { s with
            message := s.message.addWordToText (w ++ [' '])
            wordLog := s.wordLog ++ [audioData]
            display := DisplayPc.revealing audioData (w1 :: ws1) } audioData hf rfl (by simp)
      simpa [Pipeline.run] using this

/-- In the interleaving model, the display thread's critical section on a flagged front unit
followed by its passes of the word loop gives the turn that `displayWords` gives. -/
theorem run_display_unit (s : Pipeline) (front : TextAudioPair) (rest : List TextAudioPair)
    (hf : s.fault = false) (hd : s.display = DisplayPc.idle)
    (hq : s.textAudioPairs = front :: rest) (hp : front.played = true) :
    (s.run (PipelineAction.displayPass ::
      List.replicate (istreamWords front.text).length PipelineAction.displayWord)).message
      = displayWords s.message front.text := by
  have hstep : s.step PipelineAction.displayPass
      = { s with
          textAudioPairs := rest
          erased := s.erased ++ [front.key]
          display :=
            if istreamWords front.text = [] then DisplayPc.idle
            else DisplayPc.revealing front.audioData (istreamWords front.text) } := by
    simp only [Pipeline.step, hf, Bool.false_eq_true, if_false, Pipeline.displayPass, hd, hq, hp,
      if_true]
  have hdw : displayWords s.message front.text
      = (istreamWords front.text).foldl (fun m word => m.addWordToText (word ++ [' '])) s.message := by
    unfold displayWords
    cases hfront : front.text with
    | nil => simp [istreamWords, wordsAux]
    | cons c cs => simp
  rw [hdw]
  simp only [Pipeline.run, List.foldl_cons]
  rw [hstep]
  by_cases hw : istreamWords front.text = []
  · simp [hw]
  · rw [if_neg hw]
    exact run_displayWords (istreamWords front.text) _ front.audioData hf rfl hw

/-! ## Claims on the player thread -/

/-- C26: in the interleaving `sampleReplay` the player has played unit 1 to the end while the
display thread was still revealing unit 0; unit 1 is then still at the front of the queue,
and the next pass of the player takes it again: `playAudio` is called for the units 0, 1
and 1, so the unit played after unit 1 is no later unit but unit 1, already played. -/
theorem player_replays_front_unit :
    ((Pipeline.start 0).run sampleReplay).playLog = [0, 1, 1] ∧
    ((Pipeline.start 0).run sampleReplay).player = PlayerPc.playing 1 ∧
    ((Pipeline.start 0).run sampleReplay).created = [(0, "One two three.".toList), (1, " Hi.".toList)] ∧
    ((Pipeline.start 0).run sampleReplay).display
      = DisplayPc.revealing 0 ["two".toList, "three.".toList] ∧
    ((Pipeline.start 0).run sampleReplay).fault = false := by
  decide

/-! ## Claims on the request body -/

/-- C27: for every question and context, the body `respond` builds is an object with the
members max_tokens, messages, model, stream and temperature, where stream is true, max_tokens
is 500, temperature is 0, and messages is the array of the one entry of role user with the
question when the context is empty, and of the entry of role system with the context
followed by the entry of role user with the question otherwise. -/
theorem respond_body_fields (question context : Str) :
    (∃ model, respondPayload question context
      = .obj [("max_tokens".toList, .num 500),
          ("messages".toList, .arr (respondMessages question context)),
          ("model".toList, model), ("stream".toList, .bool true),
          ("temperature".toList, .num 0)]) ∧
    (respondPayload question context).cindex "stream".toList = .ok (.bool true) ∧
    (respondPayload question context).cindex "max_tokens".toList = .ok (.num 500) ∧
    (respondPayload question context).cindex "temperature".toList = .ok (.num 0) ∧
    (respondPayload question context).cindex "messages".toList
      = .ok (.arr
          (if context = [] then
            [.obj [("content".toList, .str question), ("role".toList, .str "user".toList)]]
          else
            [.obj [("content".toList, .str context), ("role".toList, .str "system".toList)],
             .obj [("content".toList, .str question), ("role".toList, .str "user".toList)]])) := by
  refine ⟨⟨_, rfl⟩, by rfl, by rfl, by rfl, ?_⟩
  cases context with
  | nil => rfl
  | cons c cs => rfl

/-! ## Claims on the informational events -/

theorem resetPause_frame (t : IXTranscriber) (m : Message) (now : Nat) :
    (IXTranscriber.resetPause t m now).m_message = t.m_message ∧
    (IXTranscriber.resetPause t m now).m_running = t.m_running ∧
    (IXTranscriber.resetPause t m now).m_webSocket = t.m_webSocket := by
  simp only [IXTranscriber.resetPause]
  split <;> exact ⟨rfl, rfl, rfl⟩

/-- C28: for every inbound message that carries an error field, and for every message whose
message_type is a string other than PartialTranscript and FinalTranscript (SessionBegins,
SessionTerminated or an unknown value), `on_message` leaves the bound turn, with its final,
partial and displayed text and its active flag, the running flag and the socket as they are.
The handler returns with the state unchanged when the error field is a string and when the
message type is SessionTerminated or unknown, and with only the pause timer changed for a
SessionBegins event whose session_id and expires_at are strings; otherwise the conversion of
a member to a string throws and no state is changed before. -/
theorem on_message_informational_leaves_turn (parse : Str → Option Json) (t : IXTranscriber)
    (msg : WebSocketMessage) (now sysNow : Nat) (json_msg : Json)
    (hmsg : msg.type = WebSocketMessageType.Message) (hparse : parse msg.str = some json_msg)
    (hkind : json_msg.contains "error".toList = true ∨
      ∃ message_type, json_msg.indexString "message_type".toList = .ok message_type ∧
        message_type ≠ "PartialTranscript".toList ∧ message_type ≠ "FinalTranscript".toList) :
    (∀ t1, IXTranscriber.on_message parse t msg now sysNow = .ok t1 →
      t1.m_message = t.m_message ∧ t1.m_running = t.m_running ∧
        t1.m_webSocket = t.m_webSocket) ∧
    (json_msg.contains "error".toList = true →
      (∃ e, json_msg.indexString "error".toList = .ok e) →
      IXTranscriber.on_message parse t msg now sysNow = .ok t) ∧
    (json_msg.contains "error".toList = false →
      ∀ message_type, json_msg.indexString "message_type".toList = .ok message_type →
        message_type ≠ "PartialTranscript".toList → message_type ≠ "FinalTranscript".toList →
        message_type ≠ "SessionBegins".toList →
        IXTranscriber.on_message parse t msg now sysNow = .ok t) ∧
    (json_msg.contains "error".toList = false →
      json_msg.indexString "message_type".toList = .ok "SessionBegins".toList →
      (∃ session_id, json_msg.indexString "session_id".toList = .ok session_id) →
      (∃ expires_at, json_msg.indexString "expires_at".toList = .ok expires_at) →
      ∀ m, t.m_message = some m →
        IXTranscriber.on_message parse t msg now sysNow
          = .ok (IXTranscriber.resetPause t m now)) := by
  have hon : IXTranscriber.on_message parse t msg now sysNow
      = IXTranscriber.onJson t json_msg now sysNow := by
    simp only [IXTranscriber.on_message, hmsg, hparse]
  rw [hon]
  refine ⟨?_, ?_, ?_, ?_⟩
  · intro t1 h
    by_cases herr : json_msg.contains "error".toList = true
    · simp only [IXTranscriber.onJson, herr, if_true] at h
      cases he : json_msg.indexString "error".toList with
      | error e => rw [he] at h; exact absurd h (by simp)
      | ok e =>
        rw [he] at h
        cases Except.ok.inj h
        exact ⟨rfl, rfl, rfl⟩
    · rcases hkind with hk | ⟨message_type, hmt, hp, hf⟩
      · exact absurd hk herr
      · simp only [IXTranscriber.onJson, herr, if_false, hmt, if_neg hp, if_neg hf,
          Bool.false_eq_true] at h
        by_cases hs : message_type = "SessionBegins".toList
        · rw [if_pos hs] at h
          simp only [IXTranscriber.onSessionBegins] at h
          cases h1 : json_msg.indexString "session_id".toList with
          | error e => rw [h1] at h; exact absurd h (by simp)
          | ok a =>
            rw [h1] at h
            cases h2 : json_msg.indexString "expires_at".toList with
            | error e => rw [h2] at h; exact absurd h (by simp)
            | ok b =>
              rw [h2] at h
              cases h3 : t.m_message with
              | none => rw [h3] at h; exact absurd h (by simp)
              | some m =>
                rw [h3] at h
                cases Except.ok.inj h
                rw [← h3]
                exact resetPause_frame t m now
        · rw [if_neg hs] at h
          split at h <;> (cases Except.ok.inj h; exact ⟨rfl, rfl, rfl⟩)
  · intro herr ⟨e, he⟩
    simp only [IXTranscriber.onJson, herr, if_true, he]
  · intro herr message_type hmt hp hf hs
    simp only [IXTranscriber.onJson, herr, if_false, hmt, if_neg hp, if_neg hf, if_neg hs,
      Bool.false_eq_true, ite_self]
  · intro herr hmt ⟨a, ha⟩ ⟨b, hb⟩ m hm
    have hp : "SessionBegins".toList ≠ "PartialTranscript".toList := by decide
    have hf : "SessionBegins".toList ≠ "FinalTranscript".toList := by decide
    simp only [IXTranscriber.onJson, herr, if_false, hmt, if_neg hp, if_neg hf, if_true,
      Bool.false_eq_true, IXTranscriber.onSessionBegins, ha, hb, hm]

/-- C28, witness: a SessionBegins event reaches a session that listens for a user turn with
the final transcript "hi": the turn, the running flag and the socket stay as they are. -/
theorem on_message_informational_leaves_turn_witness :
    IXTranscriber.on_message sampleParse
        (listeningSession (userTurn.setFinalTranscript "hi".toList 0) 0)
        (textMessage textSessionBegins) (1500 * ticksPerMs) 1
      = .ok (listeningSession (userTurn.setFinalTranscript "hi".toList 0) (1500 * ticksPerMs)) ∧
    (listeningSession (userTurn.setFinalTranscript "hi".toList 0) (1500 * ticksPerMs)).m_message
      = (listeningSession (userTurn.setFinalTranscript "hi".toList 0) 0).m_message ∧
    (listeningSession (userTurn.setFinalTranscript "hi".toList 0) (1500 * ticksPerMs)).m_running
      = (listeningSession (userTurn.setFinalTranscript "hi".toList 0) 0).m_running :=
  have h := (on_message_informational_leaves_turn sampleParse
    (listeningSession (userTurn.setFinalTranscript "hi".toList 0) 0)
    (textMessage textSessionBegins) (1500 * ticksPerMs) 1 jsonSessionBegins rfl (by rfl)
    (Or.inr ⟨"SessionBegins".toList, by rfl, by decide, by decide⟩)).1 _ (by rfl)
  ⟨by rfl, h.1, h.2.1⟩

/-! ## Claims on the listening flag -/

theorem listenInv_fresh (now : Nat) : (ChatBot.fresh now).ListenInv := by
  simp [ChatBot.ListenInv, ChatBot.fresh]

theorem listenInv_listen (b : ChatBot) (c : ListenCall) (h : b.ListenInv) :
    (b.listen c).ListenInv := by
  obtain ⟨h1, h2⟩ := h
  cases c with
  | start message_type paStartOk now sysNow =>
    simp only [ChatBot.listen, ChatBot.startListening]
    by_cases hl : b.m_isListening = true
    · rw [if_pos hl]
      exact ⟨h1, h2⟩
    · rw [if_neg hl]
      have hl' : b.m_isListening = false := by simpa using hl
      have hr := h2 hl'
      have hc := h1 hr
      refine ⟨?_, by simp⟩
      simp only [IXTranscriber.start_transcription, hr, hc]
      cases paStartOk
      · simp [hc]
      · simp [IXTranscriber.resetPause]
        split <;> simp
  | stop =>
    simp only [ChatBot.listen, ChatBot.stopListening]
    by_cases hl : b.m_isListening = true
    · simp only [hl, Bool.not_true, Bool.false_eq_true, if_false]
      by_cases hr : b.m_transcriber.m_running = true
      · simp [ChatBot.ListenInv, IXTranscriber.stop_transcription, hr]
      · have hr' : b.m_transcriber.m_running = false := by simpa using hr
        simp [ChatBot.ListenInv, IXTranscriber.stop_transcription, hr', h1 hr']
    · have hl' : b.m_isListening = false := by simpa using hl
      simp only [hl', Bool.not_false, if_true]
      exact ⟨h1, h2⟩

theorem listenInv_listens (cs : List ListenCall) : ∀ b : ChatBot, b.ListenInv →
    (b.listens cs).ListenInv := by
  induction cs with
  | nil => intro b h; exact h
  | cons c cs ih =>
    intro b h
    exact ih (b.listen c) (listenInv_listen b c h)

/-- C29 (amended): in every state reachable from a new chat bot through `startListening` and
`stopListening`, the transcriber is running only if `isListening()` is true, and while
`isListening()` is false the transcriber is not running and its socket is closed, so that
`start_transcription` is not refused there; `startListening`, called then, appends exactly
one turn and sets `isListening()`, and the transcriber is running afterwards exactly if the
audio stream could be started. -/
theorem running_only_while_listening (now0 : Nat) (cs : List ListenCall)
    (message_type : MessageType) (paStartOk : Bool) (now sysNow : Nat) :
    (((ChatBot.fresh now0).listens cs).m_transcriber.m_running = true →
      ((ChatBot.fresh now0).listens cs).isListening = true) ∧
    (((ChatBot.fresh now0).listens cs).isListening = false →
      ((ChatBot.fresh now0).listens cs).m_transcriber.m_running = false ∧
      ((ChatBot.fresh now0).listens cs).m_transcriber.m_webSocket.readyState = ReadyState.Closed ∧
      ((((ChatBot.fresh now0).listens cs).startListening message_type paStartOk now
        sysNow).isListening = true) ∧
      ((((ChatBot.fresh now0).listens cs).startListening message_type paStartOk now
        sysNow).getChatHistory
          = ((ChatBot.fresh now0).listens cs).getChatHistory ++ [Message.new message_type sysNow]) ∧
      ((((ChatBot.fresh now0).listens cs).startListening message_type paStartOk now
        sysNow).m_transcriber.m_running = paStartOk)) := by
  obtain ⟨h1, h2⟩ := listenInv_listens cs _ (listenInv_fresh now0)
  generalize (ChatBot.fresh now0).listens cs = b at h1 h2
  refine ⟨?_, ?_⟩
  · intro hr
    cases hl : b.m_isListening with
    | true => exact hl
    | false => rw [h2 hl] at hr; exact absurd hr (by simp)
  · intro hl
    have hl' : b.m_isListening = false := hl
    have hr := h2 hl'
    have hc := h1 hr
    refine ⟨hr, hc, ?_, ?_, ?_⟩
    · simp [ChatBot.startListening, ChatBot.isListening, hl']
    · simp [ChatBot.startListening, ChatBot.getChatHistory, hl']
    · simp only [ChatBot.startListening, hl', Bool.false_eq_true, if_false,
        IXTranscriber.start_transcription, hr, hc]
      cases paStartOk
      · simp [hr]
      · simp [IXTranscriber.resetPause]
        split <;> simp

/-- C29 (amended), witness: after listening has been started and stopped, the chat bot is not
listening, and a new start whose audio stream fails appends the turn and sets the flag with
the transcriber not running. -/
theorem running_only_while_listening_witness :
    ((ChatBot.fresh 0).listens [.start MessageType.UserTranscription true 1 1,
      .stop]).isListening = false ∧
    ((((ChatBot.fresh 0).listens [.start MessageType.UserTranscription true 1 1,
      .stop]).startListening MessageType.UserTranscription false 2 2).isListening = true) ∧
    ((((ChatBot.fresh 0).listens [.start MessageType.UserTranscription true 1 1,
      .stop]).startListening MessageType.UserTranscription false 2 2).m_transcriber.m_running
        = false) :=
  have h := (running_only_while_listening 0 [.start MessageType.UserTranscription true 1 1, .stop]
    MessageType.UserTranscription false 2 2).2 rfl
  ⟨rfl, h.2.2.1, h.2.2.2.2⟩

/-- C29, counterexample: when the audio stream fails to start, `startListening` on a new chat
bot leaves `isListening()` true with the transcriber not running; and on the chat bot
`runningUnheard`, where `start_transcription` refuses because the transcriber is running,
`startListening` still sets `isListening()` and appends a turn. -/
theorem listening_without_running_counterexample :
    ((ChatBot.fresh 0).listens [.start MessageType.UserTranscription false 1 1]).isListening
      = true ∧
    ((ChatBot.fresh 0).listens
      [.start MessageType.UserTranscription false 1 1]).m_transcriber.m_running = false ∧
    runningUnheard.isListening = false ∧
    (runningUnheard.m_transcriber.start_transcription (Message.new MessageType.UserTranscription 1)
      true 1) = runningUnheard.m_transcriber ∧
    (runningUnheard.startListening MessageType.UserTranscription true 1 1).isListening = true ∧
    (runningUnheard.startListening MessageType.UserTranscription true 1 1).getChatHistory.length
      = runningUnheard.getChatHistory.length + 1 :=
  ⟨by rfl, by rfl, by rfl, by rfl, by rfl, by rfl⟩

/-! ## Claims on the offset of the producer -/

theorem grows_getElem (obs : List (Str × Bool)) : ∀ (prev : Str) (k : Nat) (text : Str)
    (updating : Bool), Grows prev obs → obs[k]? = some (text, updating) → prev <+: text := by
  induction obs with
  | nil => intro prev k text updating _ h; simp at h
  | cons o obs ih =>
    intro prev k text updating hg h
    obtain ⟨t, u⟩ := o
    obtain ⟨h1, h2⟩ := hg
    cases k with
    | zero =>
      simp only [List.getElem?_cons_zero, Option.some.injEq, Prod.mk.injEq] at h
      rw [← h.1]
      exact h1
    | succ k =>
      simp only [List.getElem?_cons_succ] at h
      exact h1.trans (ih t k text updating h2 h)

theorem producerPass_in_range (text : Str) (updating : Bool) (played : Nat)
    (h : played ≤ text.length) :
    (∃ b pl, producerPass text updating played = .ok (.emit b pl) ∧ pl ≤ text.length) ∨
    producerPass text updating played = .ok .wait ∨
    producerPass text updating played = .ok .finished := by
  cases hp : producerPass text updating played with
  | error e =>
    simp only [producerPass] at hp
    rw [if_neg (by omega)] at hp
    split at hp
    · exact absurd hp (by simp)
    · split at hp <;> exact absurd hp (by simp)
  | ok step =>
    cases step with
    | emit b pl => exact Or.inl ⟨b, pl, rfl, (producerPass_emit _ _ _ _ _ hp).2⟩
    | wait => exact Or.inr (Or.inl rfl)
    | finished => exact Or.inr (Or.inr rfl)

theorem producerRun_in_range (obs : List (Str × Bool)) : ∀ (prev : Str) (p : Producer) (k : Nat),
    Grows prev obs → p.played ≤ prev.length →
    ∃ p1, producerRun (obs.take k) p = .ok p1 ∧
      ∀ text updating, obs[k]? = some (text, updating) → p1.played ≤ text.length := by
  induction obs with
  | nil =>
    intro prev p k _ _
    exact ⟨p, by simp [producerRun], by simp⟩
  | cons o obs ih =>
    intro prev p k hg hp
    obtain ⟨t, u⟩ := o
    have hg' := hg
    obtain ⟨h1, h2⟩ := hg
    have hle : p.played ≤ t.length := le_trans hp h1.length_le
    cases k with
    | zero =>
      refine ⟨p, by simp [producerRun], ?_⟩
      intro text updating h
      exact le_trans hp (grows_getElem _ prev 0 text updating hg' h).length_le
    | succ k =>
      rw [List.take_succ_cons, producerRun_cons]
      by_cases hf : p.producerFinished = true
      · rw [if_pos hf]
        refine ⟨p, rfl, ?_⟩
        intro text updating h
        exact le_trans hp (grows_getElem _ prev (k + 1) text updating hg' h).length_le
      · rw [if_neg hf]
        rcases producerPass_in_range t u p.played hle with ⟨b, pl, hpass, hpl⟩ | hpass | hpass
        · rw [hpass]
          simp only [List.getElem?_cons_succ]
          exact ih t { p with played := pl, emitted := p.emitted ++ [b] } k h2 hpl
        · rw [hpass]
          simp only [List.getElem?_cons_succ]
          exact ih t p k h2 hle
        · rw [hpass]
          refine ⟨_, rfl, ?_⟩
          intro text updating h
          exact le_trans hp (grows_getElem _ prev (k + 1) text updating hg' h).length_le

theorem offsetInv_start (now : Nat) : (Pipeline.start now).OffsetInv := by
  simp [Pipeline.OffsetInv, Pipeline.start]

theorem offsetInv_step (s : Pipeline) (a : PipelineAction) (h : s.OffsetInv) :
    (s.step a).OffsetInv := by
  obtain ⟨h1, h2, h3⟩ := h
  unfold Pipeline.step
  rw [if_neg (by simp [h1])]
  cases a with
  | chatAppend chunk =>
    refine ⟨h1, ?_, ?_⟩
    · simp only [Pipeline.chatAppend, List.length_append]
      omega
    · intro text ht
      have := h3 text ht
      simp only [Pipeline.chatAppend, List.length_append]
      omega
  | chatFinish => exact ⟨h1, h2, h3⟩
  | producerReadText =>
    simp only [Pipeline.producerReadText]
    split
    · refine ⟨h1, h2, ?_⟩
      intro text ht
      simp only [ProducerPc.holding.injEq] at ht
      rw [← ht]
      exact ⟨h2, le_refl _⟩
    · exact ⟨h1, h2, h3⟩
  | producerDecide =>
    simp only [Pipeline.producerDecide]
    split
    · rename_i text hp
      obtain ⟨hle, hlen⟩ := h3 text hp
      rcases producerPass_in_range text s.message.isUpdating s.played hle with
        ⟨b, pl, hpass, hpl⟩ | hpass | hpass
      · rw [hpass]
        exact ⟨h1, le_trans hpl hlen, fun t ht => absurd ht (by simp)⟩
      · rw [hpass]
        exact ⟨h1, h2, fun t ht => absurd ht (by simp)⟩
      · rw [hpass]
        exact ⟨h1, h2, fun t ht => absurd ht (by simp)⟩
    · exact ⟨h1, h2, h3⟩
  | producerPush =>
    simp only [Pipeline.producerPush]
    split
    · exact ⟨h1, h2, fun t ht => absurd ht (by simp)⟩
    · exact ⟨h1, h2, h3⟩
  | playerPass =>
    simp only [Pipeline.playerPass]
    split
    · split
      · exact ⟨h1, h2, h3⟩
      · split <;> exact ⟨h1, h2, h3⟩
    · exact ⟨h1, h2, h3⟩
  | playbackEnds =>
    simp only [Pipeline.playbackEnds]
    split <;> exact ⟨h1, h2, h3⟩
  | displayPass =>
    simp only [Pipeline.displayPass]
    split
    · split
      · split <;> exact ⟨h1, h2, h3⟩
      · split <;> exact ⟨h1, h2, h3⟩
    · exact ⟨h1, h2, h3⟩
  | displayWord =>
    simp only [Pipeline.displayWord]
    split <;> exact ⟨h1, h2, h3⟩

theorem offsetInv_run (acts : List PipelineAction) : ∀ s : Pipeline, s.OffsetInv →
    (s.run acts).OffsetInv := by
  induction acts with
  | nil => intro s h; exact h
  | cons a acts ih =>
    intro s h
    exact ih (s.step a) (offsetInv_step s a h)

/-- C30: provided each text the producer observes extends the one observed before, the
producer loop reaches every iteration without a failed `substr`, and at every iteration its
offset `played` is at most the length of the display text it observes there. In the
interleavings of the response threads, where the chat thread only appends to the display
text, the offset never exceeds the length of the display text nor of the text the producer
holds for `substr`, and no `substr` call throws. -/
theorem producer_offset_in_range (obs : List (Str × Bool)) (h : Grows [] obs) (k : Nat)
    (now : Nat) (acts : List PipelineAction) :
    (∃ p, producerRun (obs.take k) Producer.start = .ok p ∧
      ∀ text updating, obs[k]? = some (text, updating) →
        p.played ≤ text.length ∧ ∃ step, producerPass text updating p.played = .ok step) ∧
    ((Pipeline.start now).run acts).fault = false ∧
    ((Pipeline.start now).run acts).played
      ≤ ((Pipeline.start now).run acts).message.getUndisplayedText.length ∧
    (∀ text, ((Pipeline.start now).run acts).producer = ProducerPc.holding text →
      ((Pipeline.start now).run acts).played ≤ text.length) := by
  obtain ⟨p, hrun, hle⟩ := producerRun_in_range obs [] Producer.start k h (Nat.le_refl _)
  obtain ⟨h1, h2, h3⟩ := offsetInv_run acts _ (offsetInv_start now)
  refine ⟨⟨p, hrun, ?_⟩, h1, h2, fun text ht => (h3 text ht).1⟩
  intro text updating hk
  have hpl := hle text updating hk
  refine ⟨hpl, ?_⟩
  rcases producerPass_in_range text updating p.played hpl with ⟨b, pl, hpass, -⟩ | hpass | hpass
  · exact ⟨_, hpass⟩
  · exact ⟨_, hpass⟩
  · exact ⟨_, hpass⟩

theorem grows_sampleArrival : Grows [] sampleArrival :=
  ⟨List.nil_prefix, ⟨". B".toList, rfl⟩, ⟨"! C?".toList, rfl⟩, trivial⟩

/-- C30, witness: the text "A. B! C?" arrives in three increments; at the third iteration the
offset is 2, within the text observed. -/
theorem producer_offset_in_range_witness :
    Grows [] sampleArrival ∧
    ∃ p, producerRun (sampleArrival.take 2) Producer.start = .ok p ∧
      p.played ≤ "A. B! C?".toList.length :=
  ⟨grows_sampleArrival,
    match (producer_offset_in_range sampleArrival grows_sampleArrival 2 0 []).1 with
    | ⟨p, hrun, hall⟩ => ⟨p, hrun, (hall "A. B! C?".toList true rfl).1⟩⟩

/-! ## The active turns of a conversation -/

end XPlaneChatBot
